import Mathlib

/-!
Verification of the bit-vector theory plugin `smt::theory_bv`
(src/src/smt/theory_bv.cpp) against its natural-language specification.

The embedding models the plugin's data and operations directly from the
C++ source: core literals are (boolean-variable, sign) pairs, the core
assignment is a partial map from boolean variables to booleans, and the
plugin state carries `m_bits`, `m_wpos`, `m_zero_one_bits`, the
bool-var-to-atom table, the fixed-value table, the union-find merge log,
and the undo trail.  Infrastructure that lives outside the excerpted file
(the `union_find` ring, the trail-stack replay discipline, the
bit-blaster's `power`) is modelled from the spec where noted.
-/

namespace TheoryBv

/-- The type of theory variables (indices into the per-theory arrays). -/
abbrev TVar := Nat

/-- A core literal: a boolean variable together with a sign.
`sign = false` is the positive literal, `sign = true` its negation.
Boolean variable `0` plays the role of `true_bool_var`: `true_literal`
is the positive literal on it and `false_literal` the negative one. -/
structure Lit where
  bvar : Nat
  sign : Bool
deriving DecidableEq, Repr

/-- Negation of a literal (`literal::neg`). -/
def lneg (l : Lit) : Lit := ⟨l.bvar, !l.sign⟩

/-- The reserved literal `true_literal` (positive literal on bool var 0). -/
def trueLit : Lit := ⟨0, false⟩

/-- The reserved literal `false_literal` (negative literal on bool var 0). -/
def falseLit : Lit := ⟨0, true⟩

theorem lneg_lneg (l : Lit) : lneg (lneg l) = l := by
  cases l with
  | mk b s => simp [lneg]

theorem lneg_inj {l1 l2 : Lit} (h : lneg l1 = lneg l2) : l1 = l2 := by
  have := congrArg lneg h
  simpa [lneg_lneg] using this

/-- A core assignment: `none` is `l_undef`, `some b` a defined value.
Indexed by boolean variables. -/
abbrev Assignment := Nat → Option Bool

/-- The value `ctx.get_assignment(l)` of a literal under an assignment:
the variable's value, flipped when the literal is negative. -/
def litVal (a : Assignment) (l : Lit) : Option Bool :=
  match a l.bvar with
  | none => none
  | some b => some (b ≠ l.sign)

theorem litVal_lneg (a : Assignment) (l : Lit) :
    litVal a (lneg l) = (litVal a l).map (fun b => !b) := by
  unfold litVal lneg
  cases a l.bvar with
  | none => rfl
  | some b => cases b <;> cases l.sign <;> rfl

theorem litVal_eq_none {a : Assignment} {l : Lit} :
    litVal a l = none ↔ a l.bvar = none := by
  unfold litVal
  cases a l.bvar <;> simp

/-- The bit-blaster's `power` function.  Modelled from the spec:
`m_bb.power(i)` is the numeral 2^i (index 0 is the least significant
bit). -/
def power (i : Nat) : Nat := 2 ^ i

/-- Accumulating loop of `theory_bv::get_fixed_value(v, result)`:
iterates over the bits starting at index `i`, returning `none` as soon
as a bit is `l_undef` and otherwise the sum of `power i` over the
true bits. -/
def getFixedValueGo (a : Assignment) : List Lit → Nat → Option Nat
  | [], _ => some 0
  | l :: ls, i =>
    match litVal a l with
    | none => none
    | some false => getFixedValueGo a ls (i + 1)
    | some true =>
      match getFixedValueGo a ls (i + 1) with
      | none => none
      | some r => some (r + power i)

/-- Embedding of `theory_bv::get_fixed_value(v, result)`: starting from
`result.reset()` (zero), scan `m_bits[v]` from index 0, failing on an
unassigned bit and adding `power i` for every true bit. -/
def getFixedValue (a : Assignment) (bits : List Lit) : Option Nat :=
  getFixedValueGo a bits 0

theorem getFixedValueGo_isSome (a : Assignment) (bits : List Lit) (i : Nat) :
    (getFixedValueGo a bits i).isSome = true ↔
      ∀ l ∈ bits, litVal a l ≠ none := by
  induction bits generalizing i with
  | nil => simp [getFixedValueGo]
  | cons l ls ih =>
    unfold getFixedValueGo
    cases h : litVal a l with
    | none => simp [h]
    | some b =>
      cases b with
      | false =>
        simp only [List.mem_cons]
        rw [ih (i + 1)]
        constructor
        · intro hall l' hl'
          rcases hl' with hl' | hl'
          · subst hl'; simp [h]
          · exact hall l' hl'
        · intro hall l' hl'
          exact hall l' (Or.inr hl')
      | true =>
        cases hr : getFixedValueGo a ls (i + 1) with
        | none =>
          constructor
          · intro hc; exact absurd hc (by simp)
          · intro hall
            exfalso
            have hs : (getFixedValueGo a ls (i + 1)).isSome = true := by
              rw [ih (i + 1)]
              intro l' hl'
              exact hall l' (List.mem_cons_of_mem _ hl')
            rw [hr] at hs
            simp at hs
        | some r =>
          simp only [Option.isSome_some, List.mem_cons, true_iff]
          intro l' hl'
          rcases hl' with hl' | hl'
          · subst hl'; simp [h]
          · have hs : (getFixedValueGo a ls (i + 1)).isSome = true := by
              rw [hr]; rfl
            rw [ih (i + 1)] at hs
            exact hs l' hl'

/-- Recursive form of the numeral value of a bit sequence starting at
weight index `i`: adds 2^j for every bit assigned true. -/
def bitsSum (a : Assignment) : List Lit → Nat → Nat
  | [], _ => 0
  | l :: ls, i =>
    (if litVal a l = some true then power i else 0) + bitsSum a ls (i + 1)

theorem bitsSum_eq_finsetSum (a : Assignment) (bits : List Lit) (i : Nat) :
    bitsSum a bits i =
      Finset.sum (Finset.range bits.length)
        (fun j => if litVal a (bits.getD j trueLit) = some true
                  then power (i + j) else 0) := by
  induction bits generalizing i with
  | nil => simp [bitsSum]
  | cons l ls ih =>
    simp only [bitsSum, List.length_cons]
    rw [Finset.sum_range_succ']
    simp only [List.getD_cons_succ, List.getD_cons_zero, Nat.add_zero]
    rw [ih (i + 1), Nat.add_comm]
    congr 1
    apply Finset.sum_congr rfl
    intro j _
    have hj : i + 1 + j = i + (j + 1) := by omega
    rw [hj]

theorem getFixedValueGo_value (a : Assignment) (bits : List Lit) (i : Nat)
    (r : Nat) (h : getFixedValueGo a bits i = some r) :
    r = bitsSum a bits i := by
  induction bits generalizing i r with
  | nil =>
    simp only [getFixedValueGo, Option.some.injEq] at h
    simp [bitsSum, ← h]
  | cons l ls ih =>
    unfold getFixedValueGo at h
    cases hv : litVal a l with
    | none => rw [hv] at h; exact absurd h (by simp)
    | some b =>
      rw [hv] at h
      cases b with
      | false =>
        simp only at h
        have hr := ih (i + 1) r h
        simp [bitsSum, hv, hr]
      | true =>
        simp only at h
        cases hg : getFixedValueGo a ls (i + 1) with
        | none => rw [hg] at h; exact absurd h (by simp)
        | some r' =>
          rw [hg] at h
          simp only [Option.some.injEq] at h
          have hr := ih (i + 1) r' hg
          simp [bitsSum, hv, ← h, hr, Nat.add_comm]

/-- C6.  `get_fixed_value(v, result)` returns true exactly when every
literal of `m_bits[v]` has a core assignment, and in that case the
result is the sum of 2^i over the bit indices assigned true (index 0
least significant). -/
theorem get_fixed_value_spec (a : Assignment) (bits : List Lit) :
    ((getFixedValue a bits).isSome = true ↔
       ∀ l ∈ bits, litVal a l ≠ none) ∧
    (∀ r, getFixedValue a bits = some r →
       r = Finset.sum (Finset.range bits.length)
           (fun j => if litVal a (bits.getD j trueLit) = some true
                     then 2 ^ j else 0)) := by
  constructor
  · exact getFixedValueGo_isSome a bits 0
  · intro r h
    have hv := getFixedValueGo_value a bits 0 r h
    rw [bitsSum_eq_finsetSum] at hv
    simpa [power] using hv

/-- One literal of the lazily built disequality clause of
`theory_bv::expand_diseq`: either the equality literal
`mk_eq(v1, v2, true)` or the internalized literal of
`m_bb.mk_xor(l1, l2)` for a pair of corresponding bits.  The clause is
handed to `ctx.mk_th_axiom`; the internalization of the xor formula into
a fresh core literal is performed by the external core. -/
inductive ClauseLit where
  | eq (v1 v2 : TVar) : ClauseLit
  | xorBits (l1 l2 : Lit) : ClauseLit
deriving DecidableEq, Repr

/-- Embedding of `theory_bv::expand_diseq(v1, v2)` on the stored bit
arrays `m_bits[v1]` and `m_bits[v2]` (equal width, as asserted by the
code).  The method first pushes the equality literal, then scans the two
bit arrays in parallel: if some pair is statically complementary
(`*it1 == ~(*it2)`) it returns without asserting anything (`none`);
otherwise it asserts the clause made of the equality literal followed by
one xor literal per bit pair (`some clause`). -/
def expand_diseq (v1 v2 : TVar) (bits1 bits2 : List Lit) :
    Option (List ClauseLit) :=
  if (List.zip bits1 bits2).any (fun p => p.1 = lneg p.2) then none
  else some (ClauseLit.eq v1 v2 ::
    (List.zip bits1 bits2).map (fun p => ClauseLit.xorBits p.1 p.2))

theorem zip_getD_eq {α : Type} (xs ys : List α) (j : Nat) (d : α)
    (hlen : xs.length = ys.length) (hj : j < xs.length) :
    (List.zip xs ys).getD j (d, d) = (xs.getD j d, ys.getD j d) := by
  induction xs generalizing ys j with
  | nil => simp at hj
  | cons x xs ih =>
    cases ys with
    | nil => simp at hlen
    | cons y ys =>
      cases j with
      | zero => simp
      | succ j =>
        simp only [List.zip_cons_cons, List.getD_cons_succ]
        apply ih
        · simpa using hlen
        · simpa using hj

/-- C3.  For equal-width bit arrays, `expand_diseq` asserts nothing when
some bit pair is statically complementary, and otherwise asserts exactly
one clause of `width + 1` literals: the equality literal first, then for
each bit index `i` one literal encoding the xor of the two bits at `i`. -/
theorem expand_diseq_spec (v1 v2 : TVar) (bits1 bits2 : List Lit)
    (hlen : bits1.length = bits2.length) :
    ((∃ i < bits1.length,
        bits1.getD i trueLit = lneg (bits2.getD i trueLit)) →
      expand_diseq v1 v2 bits1 bits2 = none) ∧
    ((∀ i < bits1.length,
        bits1.getD i trueLit ≠ lneg (bits2.getD i trueLit)) →
      ∃ c, expand_diseq v1 v2 bits1 bits2 = some c ∧
        c.length = bits1.length + 1 ∧
        c.getD 0 (ClauseLit.eq v1 v2) = ClauseLit.eq v1 v2 ∧
        ∀ i < bits1.length,
          c.getD (i + 1) (ClauseLit.eq v1 v2) =
            ClauseLit.xorBits (bits1.getD i trueLit)
              (bits2.getD i trueLit)) := by
  have hzlen : (List.zip bits1 bits2).length = bits1.length := by
    simp [List.length_zip, hlen]
  constructor
  · rintro ⟨i, hi, hcomp⟩
    unfold expand_diseq
    rw [if_pos]
    rw [List.any_eq_true]
    refine ⟨(List.zip bits1 bits2).getD i (trueLit, trueLit), ?_, ?_⟩
    · rw [List.getD_eq_getElem?_getD,
        List.getElem?_eq_getElem (by omega : i < (List.zip bits1 bits2).length)]
      exact List.getElem_mem _
    · rw [zip_getD_eq bits1 bits2 i trueLit hlen hi]
      simpa using hcomp
  · intro hall
    unfold expand_diseq
    rw [if_neg]
    · refine ⟨_, rfl, ?_, rfl, ?_⟩
      · show (ClauseLit.eq v1 v2 ::
            (List.zip bits1 bits2).map (fun p => ClauseLit.xorBits p.1 p.2)).length =
            bits1.length + 1
        rw [List.length_cons, List.length_map, hzlen]
      · intro i hi
        simp only [List.getD_cons_succ]
        rw [List.getD_eq_getElem?_getD, List.getElem?_map]
        rw [List.getElem?_eq_getElem (by omega : i < (List.zip bits1 bits2).length)]
        simp only [Option.map_some', Option.getD_some]
        have hg : (List.zip bits1 bits2)[i] =
            (List.zip bits1 bits2).getD i (trueLit, trueLit) := by
          rw [List.getD_eq_getElem?_getD,
            List.getElem?_eq_getElem (by omega : i < (List.zip bits1 bits2).length)]
          rfl
        rw [hg, zip_getD_eq bits1 bits2 i trueLit hlen hi]
    · rw [List.any_eq_true]
      rintro ⟨p, hp, hcomp⟩
      obtain ⟨i, hi, he⟩ := List.getElem_of_mem hp
      have hgd : (List.zip bits1 bits2).getD i (trueLit, trueLit) = p := by
        rw [List.getD_eq_getElem?_getD, List.getElem?_eq_getElem hi, he]
        rfl
      rw [zip_getD_eq bits1 bits2 i trueLit hlen (by omega)] at hgd
      have h1 : bits1.getD i trueLit = p.1 := by rw [← hgd]
      have h2 : bits2.getD i trueLit = p.2 := by rw [← hgd]
      apply hall i (by omega)
      rw [h1, h2]
      simpa using hcomp

/-- The C `INT_MAX` sentinel used by `m_bv_blast_max_size` to mean
"unlimited". -/
def intMax : Nat := 2147483647

/-- The sort data of a term relevant to `approximate_term`: for the term
itself and for each argument, `some w` when the sort is a bit-vector
sort of width `w`, `none` otherwise. -/
structure ApproxTerm where
  args : List (Option Nat)
  own : Option Nat
deriving DecidableEq, Repr

/-- The context state touched by `approximate_term`: the
`m_approximates_large_bvs` flag, the context trail restricted to the
`value_trail<context, bool>` entries protecting that flag (each entry
stores the saved value), and the scope markers (trail length at each
`push_scope`). -/
structure ApproxState where
  approximatesLargeBvs : Bool
  ctxTrail : List Bool
  ctxScopes : List Nat
deriving DecidableEq, Repr

/-- Whether one sort triggers approximation: a bit-vector sort whose
width exceeds the configured maximum. -/
def oversized (maxSize : Nat) (s : Option Nat) : Bool :=
  match s with
  | some w => decide (w > maxSize)
  | none => false

/-- Embedding of `theory_bv::approximate_term(n)`: with
`m_bv_blast_max_size == INT_MAX` nothing is approximated; otherwise the
arguments and then the term itself are scanned, and at the first
bit-vector sort wider than the maximum the flag is raised (pushing a
value-restoring trail entry the first time) and `true` is returned. -/
def approximate_term (maxSize : Nat) (t : ApproxTerm) (S : ApproxState) :
    Bool × ApproxState :=
  if maxSize = intMax then (false, S)
  else if (t.args ++ [t.own]).any (oversized maxSize) then
    (true,
      if S.approximatesLargeBvs then S
      else { S with approximatesLargeBvs := true,
                    ctxTrail := S.approximatesLargeBvs :: S.ctxTrail })
  else (false, S)

/-- Embedding of the entry guard of `theory_bv::internalize_term(term)`:
when `approximate_term` fires the method returns `false` without
internalizing; otherwise the per-operator switch (passed in as
`dispatch`, since its body internalizes through the external core)
decides the result. -/
def internalize_term (dispatch : ApproxTerm → Bool) (maxSize : Nat)
    (t : ApproxTerm) (S : ApproxState) : Bool × ApproxState :=
  let r := approximate_term maxSize t S
  if r.1 then (false, r.2) else (dispatch t, r.2)

/-- Embedding of the entry guard of
`theory_bv::internalize_atom(atom, gate_ctx)`, identical to the term
case. -/
def internalize_atom (dispatch : ApproxTerm → Bool) (maxSize : Nat)
    (t : ApproxTerm) (S : ApproxState) : Bool × ApproxState :=
  let r := approximate_term maxSize t S
  if r.1 then (false, r.2) else (dispatch t, r.2)

/-- Result of `final_check_eh`. -/
inductive FinalCheckStatus where
  | done
  | giveup
deriving DecidableEq, Repr

/-- Embedding of `theory_bv::final_check_eh()`: give up while the
approximation flag holds, otherwise done. -/
def final_check_eh (S : ApproxState) : FinalCheckStatus :=
  if S.approximatesLargeBvs then FinalCheckStatus.giveup
  else FinalCheckStatus.done

/-- C8.  When the configured maximum is not `INT_MAX` and the term or
one of its arguments has a bit-vector sort wider than the maximum:
`internalize_term` and `internalize_atom` return false, the flag
recording the approximation is raised in the resulting state, and final
check on any state where that record holds returns give-up, never done. -/
theorem approximate_refusal (dispatch : ApproxTerm → Bool) (maxSize : Nat)
    (t : ApproxTerm) (S : ApproxState) (hmax : maxSize ≠ intMax)
    (hover : (t.args ++ [t.own]).any (oversized maxSize) = true) :
    (internalize_term dispatch maxSize t S).1 = false ∧
    (internalize_atom dispatch maxSize t S).1 = false ∧
    (internalize_term dispatch maxSize t S).2.approximatesLargeBvs = true ∧
    final_check_eh (internalize_term dispatch maxSize t S).2 =
      FinalCheckStatus.giveup ∧
    (∀ S' : ApproxState, S'.approximatesLargeBvs = true →
      final_check_eh S' = FinalCheckStatus.giveup) ∧
    (∀ S' : ApproxState, S'.approximatesLargeBvs = false →
      final_check_eh S' = FinalCheckStatus.done) := by
  have happ : approximate_term maxSize t S =
      (true,
        if S.approximatesLargeBvs then S
        else { S with approximatesLargeBvs := true,
                      ctxTrail := S.approximatesLargeBvs :: S.ctxTrail }) := by
    unfold approximate_term
    rw [if_neg hmax, if_pos hover]
  have hflag2 : (if S.approximatesLargeBvs then S
      else { S with approximatesLargeBvs := true,
                    ctxTrail := S.approximatesLargeBvs :: S.ctxTrail
             } : ApproxState).approximatesLargeBvs = true := by
    by_cases h : S.approximatesLargeBvs
    · simp [h]
    · simp [h]
  refine ⟨?_, ?_, ?_, ?_, ?_, ?_⟩
  · simp [internalize_term, happ]
  · simp [internalize_atom, happ]
  · simp [internalize_term, happ, hflag2]
  · simp [internalize_term, final_check_eh, happ, hflag2]
  · intro S' h
    unfold final_check_eh
    rw [if_pos h]
  · intro S' h
    unfold final_check_eh
    rw [if_neg (by simp [h])]

/-- A context-level operation affecting the approximation flag: an
`internalize_term` call, an `internalize_atom` call, or a nested scope
(`push_scope` … operations … `pop_scope(1)`). -/
inductive ApproxOp where
  | internT (t : ApproxTerm) : ApproxOp
  | internA (t : ApproxTerm) : ApproxOp
  | nest (seq : List ApproxOp) : ApproxOp

/-- Embedding of the context's `push_scope` as seen by the value trail:
the current trail length is recorded as the scope marker. -/
def pushCtxScope (S : ApproxState) : ApproxState :=
  { S with ctxScopes := S.ctxTrail.length :: S.ctxScopes }

/-- Replay of the context trail down to a marker: each
`value_trail<context, bool>` entry restores the saved flag value, newest
first. -/
def undoCtxTo : Bool → List Bool → Nat → Bool × List Bool
  | flag, [], _ => (flag, [])
  | flag, s :: rest, m =>
    if rest.length + 1 ≤ m then (flag, s :: rest) else undoCtxTo s rest m

/-- Embedding of the context's `pop_scope(1)` restricted to the modelled
trail: undo every trail entry above the innermost scope marker. -/
def popCtxScope (S : ApproxState) : ApproxState :=
  match S.ctxScopes with
  | [] => S
  | m :: ms =>
    let r := undoCtxTo S.approximatesLargeBvs S.ctxTrail m
    { approximatesLargeBvs := r.1, ctxTrail := r.2, ctxScopes := ms }

mutual

/-- Run a single context-level operation. -/
def runApproxOp (dispatch : ApproxTerm → Bool) (maxSize : Nat) :
    ApproxOp → ApproxState → ApproxState
  | ApproxOp.internT t, S => (internalize_term dispatch maxSize t S).2
  | ApproxOp.internA t, S => (internalize_atom dispatch maxSize t S).2
  | ApproxOp.nest seq, S =>
    popCtxScope (runApproxSeq dispatch maxSize seq (pushCtxScope S))

/-- Run a sequence of context-level operations. -/
def runApproxSeq (dispatch : ApproxTerm → Bool) (maxSize : Nat) :
    List ApproxOp → ApproxState → ApproxState
  | [], S => S
  | op :: rest, S =>
    runApproxSeq dispatch maxSize rest (runApproxOp dispatch maxSize op S)

end

theorem undoCtxTo_self (flag : Bool) (trail : List Bool) :
    undoCtxTo flag trail trail.length = (flag, trail) := by
  cases trail with
  | nil => rfl
  | cons s rest => simp [undoCtxTo]

theorem undoCtxTo_cons (flag s : Bool) (rest : List Bool) (m : Nat)
    (h : m ≤ rest.length) :
    undoCtxTo flag (s :: rest) m = undoCtxTo s rest m := by
  show (if rest.length + 1 ≤ m then (flag, s :: rest)
        else undoCtxTo s rest m) = undoCtxTo s rest m
  rw [if_neg (by omega)]

/-- Restoration relation for the context trail: `T` extends `S` by trail
entries whose replay restores the flag and trail of `S`, with the scope
stack unchanged. -/
def CtxRestores (S T : ApproxState) : Prop :=
  S.ctxTrail.length ≤ T.ctxTrail.length ∧
  undoCtxTo T.approximatesLargeBvs T.ctxTrail S.ctxTrail.length =
    (S.approximatesLargeBvs, S.ctxTrail) ∧
  T.ctxScopes = S.ctxScopes

theorem ctxRestores_refl (S : ApproxState) : CtxRestores S S :=
  ⟨Nat.le_refl _, undoCtxTo_self _ _, rfl⟩

theorem undoCtxTo_split (flag : Bool) (trail : List Bool) (m n : Nat)
    (hmn : m ≤ n) :
    undoCtxTo flag trail m =
      undoCtxTo (undoCtxTo flag trail n).1 (undoCtxTo flag trail n).2 m := by
  induction trail generalizing flag with
  | nil => simp [undoCtxTo]
  | cons s rest ih =>
    by_cases h : rest.length + 1 ≤ n
    · rw [show undoCtxTo flag (s :: rest) n = (flag, s :: rest) by
        unfold undoCtxTo; rw [if_pos h]]
    · rw [undoCtxTo_cons flag s rest n (by omega)]
      rw [undoCtxTo_cons flag s rest m (by omega)]
      exact ih s

theorem ctxRestores_trans {S T U : ApproxState} (h1 : CtxRestores S T)
    (h2 : CtxRestores T U) : CtxRestores S U := by
  obtain ⟨hl1, hu1, hs1⟩ := h1
  obtain ⟨hl2, hu2, hs2⟩ := h2
  refine ⟨Nat.le_trans hl1 hl2, ?_, hs2.trans hs1⟩
  rw [undoCtxTo_split U.approximatesLargeBvs U.ctxTrail
        S.ctxTrail.length T.ctxTrail.length hl1]
  rw [hu2]
  exact hu1

theorem ctxRestores_approx (maxSize : Nat) (t : ApproxTerm)
    (S : ApproxState) : CtxRestores S (approximate_term maxSize t S).2 := by
  unfold approximate_term
  by_cases hmax : maxSize = intMax
  · rw [if_pos hmax]; exact ctxRestores_refl S
  · rw [if_neg hmax]
    by_cases hover : (t.args ++ [t.own]).any (oversized maxSize) = true
    · rw [if_pos hover]
      by_cases hflag : S.approximatesLargeBvs
      · simp only [if_pos hflag]
        exact ctxRestores_refl S
      · simp only [if_neg hflag]
        refine ⟨by simp, ?_, rfl⟩
        simp only
        rw [undoCtxTo_cons _ _ _ _ (Nat.le_refl _)]
        rw [undoCtxTo_self]
    · rw [if_neg hover]
      exact ctxRestores_refl S

/-- Popping a scope whose trail additions restore the pre-push state
yields exactly that state. -/
theorem popCtx_of_restores (S T : ApproxState)
    (hu : undoCtxTo T.approximatesLargeBvs T.ctxTrail (pushCtxScope S).ctxTrail.length =
      ((pushCtxScope S).approximatesLargeBvs, (pushCtxScope S).ctxTrail))
    (hs : T.ctxScopes = (pushCtxScope S).ctxScopes) :
    popCtxScope T = S := by
  have hu' : undoCtxTo T.approximatesLargeBvs T.ctxTrail S.ctxTrail.length =
      (S.approximatesLargeBvs, S.ctxTrail) := hu
  have hs' : T.ctxScopes = S.ctxTrail.length :: S.ctxScopes := hs
  unfold popCtxScope
  rw [hs']
  simp only
  rw [hu']

mutual

/-- Any single operation leaves behind a state whose extra trail entries
restore the pre-state. -/
theorem ctxRestores_runOp (dispatch : ApproxTerm → Bool) (maxSize : Nat)
    (op : ApproxOp) (S : ApproxState) :
    CtxRestores S (runApproxOp dispatch maxSize op S) := by
  cases op with
  | internT t =>
    show CtxRestores S (internalize_term dispatch maxSize t S).2
    have h := ctxRestores_approx maxSize t S
    unfold internalize_term
    by_cases hr : (approximate_term maxSize t S).1 <;> simp [hr, h]
  | internA t =>
    show CtxRestores S (internalize_atom dispatch maxSize t S).2
    have h := ctxRestores_approx maxSize t S
    unfold internalize_atom
    by_cases hr : (approximate_term maxSize t S).1 <;> simp [hr, h]
  | nest seq =>
    show CtxRestores S
      (popCtxScope (runApproxSeq dispatch maxSize seq (pushCtxScope S)))
    have h := ctxRestores_runSeq dispatch maxSize seq (pushCtxScope S)
    obtain ⟨hl, hu, hs⟩ := h
    have hexp : popCtxScope
        (runApproxSeq dispatch maxSize seq (pushCtxScope S)) = S :=
      popCtx_of_restores S _ hu hs
    rw [hexp]
    exact ctxRestores_refl S

/-- Any sequence of operations leaves behind a state whose extra trail
entries restore the pre-state. -/
theorem ctxRestores_runSeq (dispatch : ApproxTerm → Bool) (maxSize : Nat)
    (seq : List ApproxOp) (S : ApproxState) :
    CtxRestores S (runApproxSeq dispatch maxSize seq S) := by
  cases seq with
  | nil => exact ctxRestores_refl S
  | cons op rest =>
    show CtxRestores S (runApproxSeq dispatch maxSize rest
      (runApproxOp dispatch maxSize op S))
    exact ctxRestores_trans (ctxRestores_runOp dispatch maxSize op S)
      (ctxRestores_runSeq dispatch maxSize rest
        (runApproxOp dispatch maxSize op S))

end

/-- A completed scope is the identity on the modelled context state. -/
theorem runOp_scoped_eq (dispatch : ApproxTerm → Bool) (maxSize : Nat)
    (seq : List ApproxOp) (S : ApproxState) :
    runApproxOp dispatch maxSize (ApproxOp.nest seq) S = S := by
  have h := ctxRestores_runSeq dispatch maxSize seq (pushCtxScope S)
  obtain ⟨hl, hu, hs⟩ := h
  show popCtxScope (runApproxSeq dispatch maxSize seq (pushCtxScope S)) = S
  exact popCtx_of_restores S _ hu hs

/-- C10.  The approximation mark is scope-local: the `value_trail` entry
pushed when `approximate_term` first raises the flag is replayed on pop,
so after a scope containing any internalization attempts (oversized or
not, with further nested scopes) the flag returns to its value at the
push; in particular, from a state without the mark, popping past the
scope resets the flag to false and `final_check_eh` is done again. -/
theorem approximate_scope_local (dispatch : ApproxTerm → Bool)
    (maxSize : Nat) (seq : List ApproxOp) (S : ApproxState)
    (h : S.approximatesLargeBvs = false) :
    (runApproxOp dispatch maxSize (ApproxOp.nest seq) S).approximatesLargeBvs
      = false ∧
    final_check_eh (runApproxOp dispatch maxSize (ApproxOp.nest seq) S) =
      FinalCheckStatus.done := by
  rw [runOp_scoped_eq]
  exact ⟨h, by unfold final_check_eh; rw [if_neg (by simp [h])]⟩

/-- A `var_pos` occurrence: a theory variable together with a bit
index. -/
abbrev VarPos := TVar × Nat

/-- A `zero_one_bit` entry of `m_zero_one_bits`: an owner variable, a
bit index, and whether the owner's bit at that index is the true
literal. -/
structure ZOBit where
  owner : TVar
  idx : Nat
  isTrue : Bool
deriving DecidableEq, Repr

/-- Undo-trail entries pushed by the plugin: `mk_atom_trail(b)` (delete
the atom of bool var `b`), `add_var_pos_trail(b)` (drop the newest
occurrence of the atom of `b`), and the union-find merge undo recorded
by `m_find.merge` (modelled from the spec: reverse exactly the last
merge, `r1` the surviving root and `r2` the absorbed one). -/
inductive TrailEntry where
  | mkAtomTrail (b : Nat) : TrailEntry
  | addVarPosTrail (b : Nat) : TrailEntry
  | unmergeTrail (r1 r2 : TVar) : TrailEntry
deriving DecidableEq, Repr

/-- The plugin state together with the modelled parts of the core it
mutates.  `mergeLog` is the union-find modelled from the spec as the
stack of performed merges (kept root, absorbed root), oldest first;
`eqProps` records the equalities proposed through `ctx.assign_eq`
together with the literals their justification marks, and `diseqs` the
disequality axioms asserted through `mk_new_diseq_axiom`. -/
structure BvState where
  numVars : Nat
  bits : List (List Lit)
  wpos : List Nat
  zeroOneBits : List (List ZOBit)
  sizes : List Nat
  isBv : List Bool
  atoms : List (Nat × List VarPos)
  coreAssign : Assignment
  mergeLog : List (TVar × TVar)
  conflictFlag : Bool
  propQueue : List VarPos
  fixedVarTable : List ((Nat × Nat) × TVar)
  eqProps : List (TVar × TVar × List Lit)
  diseqs : List (TVar × TVar × Nat)
  trail : List TrailEntry
  scopeTrailLens : List Nat
  scopeNumVars : List Nat

/-- The bit array `m_bits[v]`. -/
def bitsOf (S : BvState) (v : TVar) : List Lit := S.bits.getD v []

/-- The watch position `m_wpos[v]`. -/
def wposOf (S : BvState) (v : TVar) : Nat := S.wpos.getD v 0

/-- The zero-one-bit summary `m_zero_one_bits[v]`. -/
def zobOf (S : BvState) (v : TVar) : List ZOBit := S.zeroOneBits.getD v []

/-- The declared bit width `get_bv_size(v)` (from the term's sort). -/
def sizeAt (S : BvState) (v : TVar) : Nat := S.sizes.getD v 0

/-- Whether `v`'s term has bit-vector sort (`is_bv(v)`). -/
def isBvAt (S : BvState) (v : TVar) : Bool := S.isBv.getD v false

/-- The bit atom attached to bool var `b` (`get_bv2a`), as its
occurrence list; `none` when `b` carries no bit atom. -/
def getAtom (S : BvState) (b : Nat) : Option (List VarPos) :=
  (S.atoms.find? (fun e => e.1 = b)).map (fun e => e.2)

/-- The literal value under the state's core assignment. -/
def litv (S : BvState) (l : Lit) : Option Bool := litVal S.coreAssign l

/-- The union-find root, modelled from the spec: replay the merge log,
each merge redirecting the absorbed root to the kept root. -/
def findOf (log : List (TVar × TVar)) (v : TVar) : TVar :=
  log.foldl (fun f p => if f = p.2 then p.1 else f) v

/-- Root of `v` in the state (`find(v)`). -/
def rootOf (S : BvState) (v : TVar) : TVar := findOf S.mergeLog v

/-- Embedding of `theory_bv::register_true_false_bit(v, idx)`: record in
the zero-one-bit cache whether the (constant) bit at `idx` is the true
literal. -/
def register_true_false_bit (S : BvState) (v : TVar) (idx : Nat) : BvState :=
  let isTrue := (bitsOf S v).getD idx trueLit = trueLit
  { S with zeroOneBits :=
      S.zeroOneBits.set v (zobOf S v ++ [⟨v, idx, isTrue⟩]) }

/-- Embedding of `theory_bv::find_new_diseq_axioms(occs, v, idx)` as the
list of axioms it emits: one `mk_new_diseq_axiom(v, v2, idx)` for every
occurrence `(v2, idx2)` with `idx2 == idx`, stored literal equal to the
negation of `m_bits[v][idx]`, and `get_bv_size(v2) == get_bv_size(v)`. -/
def find_new_diseq_axioms (S : BvState) (occs : List VarPos) (v : TVar)
    (idx : Nat) : List (TVar × TVar × Nat) :=
  let l := lneg ((bitsOf S v).getD idx trueLit)
  occs.filterMap (fun o =>
    if o.2 = idx ∧ (bitsOf S o.1).getD o.2 trueLit = l ∧
        sizeAt S o.1 = sizeAt S v
    then some (v, o.1, idx) else none)

/-- Embedding of `theory_bv::add_bit(v, l)`: append `l` to `m_bits[v]`;
for the constant bool var record a zero-one bit; otherwise either extend
the existing bit atom of `l.var()` (after scanning its occurrences for
new static disequality axioms) or create a fresh atom, pushing the
matching undo-trail entry. -/
def add_bit (S : BvState) (v : TVar) (l : Lit) : BvState :=
  if l.bvar = 0 then
    register_true_false_bit
      { S with bits := S.bits.set v (bitsOf S v ++ [l]) } v
      (bitsOf S v).length
  else
    match getAtom { S with bits := S.bits.set v (bitsOf S v ++ [l]) }
        l.bvar with
    | some occs =>
      { S with
        bits := S.bits.set v (bitsOf S v ++ [l])
        diseqs := S.diseqs ++ find_new_diseq_axioms
          { S with bits := S.bits.set v (bitsOf S v ++ [l]) } occs v
          (bitsOf S v).length
        atoms := S.atoms.map (fun e =>
          if e.1 = l.bvar then (e.1, (v, (bitsOf S v).length) :: e.2) else e)
        trail := TrailEntry.addVarPosTrail l.bvar :: S.trail }
    | none =>
      { S with
        bits := S.bits.set v (bitsOf S v ++ [l])
        atoms := (l.bvar, [(v, (bitsOf S v).length)]) :: S.atoms
        trail := TrailEntry.mkAtomTrail l.bvar :: S.trail }

theorem mem_find_new_diseq_axioms (S : BvState) (occs : List VarPos)
    (v : TVar) (idx : Nat) (v2 : TVar) :
    (v, v2, idx) ∈ find_new_diseq_axioms S occs v idx ↔
      ((v2, idx) ∈ occs ∧
        (bitsOf S v2).getD idx trueLit =
          lneg ((bitsOf S v).getD idx trueLit) ∧
        sizeAt S v2 = sizeAt S v) := by
  unfold find_new_diseq_axioms
  rw [List.mem_filterMap]
  constructor
  · rintro ⟨⟨oa, ob⟩, ho, hf⟩
    split at hf
    next hc =>
      simp only [Option.some.injEq, Prod.mk.injEq] at hf
      obtain ⟨-, hoa, -⟩ := hf
      obtain ⟨hob, h2, h3⟩ := hc
      have hoa' : oa = v2 := hoa
      have hob' : ob = idx := hob
      have h2' : (bitsOf S oa).getD ob trueLit =
          lneg ((bitsOf S v).getD idx trueLit) := h2
      have h3' : sizeAt S oa = sizeAt S v := h3
      subst hoa'
      subst hob'
      exact ⟨ho, h2', h3'⟩
    next hc => exact absurd hf (by simp)
  · rintro ⟨ho, h2, h3⟩
    refine ⟨(v2, idx), ho, ?_⟩
    rw [if_pos ⟨rfl, h2, h3⟩]

theorem find_new_diseq_axioms_shape (S : BvState) (occs : List VarPos)
    (v : TVar) (idx : Nat) :
    ∀ e ∈ find_new_diseq_axioms S occs v idx,
      e.1 = v ∧ e.2.2 = idx ∧ sizeAt S e.2.1 = sizeAt S v := by
  intro e he
  unfold find_new_diseq_axioms at he
  rw [List.mem_filterMap] at he
  obtain ⟨⟨oa, ob⟩, ho, hf⟩ := he
  split at hf
  next hc =>
    simp only [Option.some.injEq] at hf
    subst hf
    have h3' : sizeAt S oa = sizeAt S v := hc.2.2
    exact ⟨rfl, rfl, h3'⟩
  next hc => exact absurd hf (by simp)

theorem find?_map_update {β : Type} (xs : List (Nat × β)) (b : Nat)
    (f : β → β) :
    (xs.map (fun e => if e.1 = b then (e.1, f e.2) else e)).find?
        (fun e => e.1 = b) =
      (xs.find? (fun e => e.1 = b)).map (fun e => (e.1, f e.2)) := by
  induction xs with
  | nil => rfl
  | cons x rest ih =>
    by_cases hx : x.1 = b
    · rw [show (x :: rest).map (fun e => if e.1 = b then (e.1, f e.2) else e) =
          (x.1, f x.2) :: rest.map (fun e => if e.1 = b then (e.1, f e.2) else e) by
        simp [hx]]
      rw [List.find?_cons_of_pos _ (by simpa using hx)]
      rw [List.find?_cons_of_pos _ (by simpa using hx)]
      rfl
    · rw [show (x :: rest).map (fun e => if e.1 = b then (e.1, f e.2) else e) =
          x :: rest.map (fun e => if e.1 = b then (e.1, f e.2) else e) by
        simp [hx]]
      rw [List.find?_cons_of_neg _ (by simpa using hx)]
      rw [List.find?_cons_of_neg _ (by simpa using hx)]
      exact ih

theorem add_bit_existing_shape (S : BvState) (v : TVar) (l : Lit)
    (occs : List VarPos) (hb : l.bvar ≠ 0)
    (ha : getAtom S l.bvar = some occs) :
    (add_bit S v l).diseqs =
      S.diseqs ++ find_new_diseq_axioms
        { S with bits := S.bits.set v (bitsOf S v ++ [l]) } occs v
        (bitsOf S v).length ∧
    getAtom (add_bit S v l) l.bvar =
      some ((v, (bitsOf S v).length) :: occs) := by
  have ha1 : getAtom { S with bits := S.bits.set v (bitsOf S v ++ [l]) }
      l.bvar = some occs := ha
  unfold add_bit
  rw [if_neg hb, ha1]
  constructor
  · rfl
  · show (((({ S with bits := S.bits.set v (bitsOf S v ++ [l]) } : BvState).atoms.map
        (fun e => if e.1 = l.bvar then (e.1, (v, (bitsOf S v).length) :: e.2) else e)).find?
        (fun e => e.1 = l.bvar)).map (fun e => e.2)) =
      some ((v, (bitsOf S v).length) :: occs)
    rw [find?_map_update]
    unfold getAtom at ha1
    cases hf : (({ S with bits := S.bits.set v (bitsOf S v ++ [l]) } : BvState).atoms.find?
        (fun e => e.1 = l.bvar)) with
    | none => rw [hf] at ha1; exact absurd ha1 (by simp)
    | some e =>
      rw [hf] at ha1
      simp only [Option.map_some', Option.some.injEq] at ha1
      simp only [Option.map_some', Option.some.injEq]
      rw [ha1]

theorem getD_append_len {α : Type} (xs : List α) (x d : α) :
    (xs ++ [x]).getD xs.length d = x := by
  rw [List.getD_eq_getElem?_getD,
    List.getElem?_append_right (Nat.le_refl _)]
  simp

theorem bitsOf_set_self (S : BvState) (v : TVar) (bl : List Lit)
    (hv : v < S.bits.length) :
    bitsOf { S with bits := S.bits.set v bl } v = bl := by
  unfold bitsOf
  simp only
  rw [List.getD_eq_getElem?_getD, List.getElem?_set_eq_of_lt _ hv]
  rfl

theorem bitsOf_set_ne (S : BvState) (v w : TVar) (bl : List Lit)
    (hw : w ≠ v) :
    bitsOf { S with bits := S.bits.set v bl } w = bitsOf S w := by
  unfold bitsOf
  simp only
  rw [List.getD_eq_getElem?_getD,
    List.getElem?_set_ne (Ne.symm hw),
    ← List.getD_eq_getElem?_getD]

theorem add_bit_bits (S : BvState) (v : TVar) (l : Lit) :
    (add_bit S v l).bits = S.bits.set v (bitsOf S v ++ [l]) := by
  unfold add_bit
  by_cases hb : l.bvar = 0
  · rw [if_pos hb]
    rfl
  · rw [if_neg hb]
    cases getAtom { S with bits := S.bits.set v (bitsOf S v ++ [l]) }
        l.bvar <;> rfl

/-- C9.  The static-disequality scan of `add_bit` emits an axiom for an
existing occurrence `(v2, idx2)` exactly when `idx2` equals the new
bit's index, the occurrence's stored literal is the negation of the new
literal, and additionally `get_bv_size(v2) == get_bv_size(v)`; every
emitted axiom has equal widths, so a pair sharing a complementary
literal at the same index but having different widths produces no axiom
through this path. -/
theorem add_bit_diseq_width_guard (S : BvState) (v : TVar) (l : Lit)
    (occs : List VarPos) (hv : v < S.bits.length) (hb : l.bvar ≠ 0)
    (ha : getAtom S l.bvar = some occs) :
    ∃ news, (add_bit S v l).diseqs = S.diseqs ++ news ∧
      (∀ v2, (v, v2, (bitsOf S v).length) ∈ news ↔
        ((v2, (bitsOf S v).length) ∈ occs ∧
          (bitsOf (add_bit S v l) v2).getD (bitsOf S v).length trueLit =
            lneg l ∧
          sizeAt S v2 = sizeAt S v)) ∧
      (∀ e ∈ news, e.1 = v ∧ e.2.2 = (bitsOf S v).length ∧
        sizeAt S e.2.1 = sizeAt S v) := by
  obtain ⟨hd, hat⟩ := add_bit_existing_shape S v l occs hb ha
  refine ⟨find_new_diseq_axioms
    { S with bits := S.bits.set v (bitsOf S v ++ [l]) } occs v
    (bitsOf S v).length, hd, ?_, ?_⟩
  · intro v2
    rw [mem_find_new_diseq_axioms]
    have hsz : sizeAt { S with bits := S.bits.set v (bitsOf S v ++ [l]) }
        = sizeAt S := rfl
    have hself : (bitsOf { S with bits := S.bits.set v (bitsOf S v ++ [l]) }
        v).getD (bitsOf S v).length trueLit = l := by
      rw [bitsOf_set_self S v _ hv, getD_append_len]
    have hbits2 : bitsOf (add_bit S v l) v2 =
        bitsOf { S with bits := S.bits.set v (bitsOf S v ++ [l]) } v2 := by
      show ((add_bit S v l).bits).getD v2 [] = _
      rw [add_bit_bits]
      rfl
    rw [hself, hsz, hbits2]
  · intro e he
    have := find_new_diseq_axioms_shape
      { S with bits := S.bits.set v (bitsOf S v ++ [l]) } occs v
      (bitsOf S v).length e he
    exact this

/-- Concrete state refuting C2 as stated: bool var 5 is shared as bit 0
of variable 1 (width 2, negatively) and is about to become bit 0 of
variable 0 (width 4, positively).  The occurrence matches the new bit's
index with a complementary literal, but the widths differ. -/
def ceC2State : BvState :=
  { numVars := 2
    bits := [[], [⟨5, true⟩]]
    wpos := [0, 0]
    zeroOneBits := [[], []]
    sizes := [4, 2]
    isBv := [true, true]
    atoms := [(5, [(1, 0)])]
    coreAssign := fun b => if b = 0 then some true else none
    mergeLog := []
    conflictFlag := false
    propQueue := []
    fixedVarTable := []
    eqProps := []
    diseqs := []
    trail := []
    scopeTrailLens := []
    scopeNumVars := [] }

/-- Counterexample to C2.  In `ceC2State`, adding the bit `(5, +)` to
variable 0 at index 0 finds the occurrence `(1, 0)` of bool var 5 at the
same bit index with the stored literal equal to the negation of the new
literal, yet `add_bit` emits no disequality axiom, because the widths of
variables 0 and 1 differ. -/
theorem add_bit_diseq_counterexample :
    getAtom ceC2State 5 = some [(1, 0)] ∧
    (bitsOf ceC2State 1).getD 0 trueLit = lneg ⟨5, false⟩ ∧
    (bitsOf ceC2State 0).length = 0 ∧
    (add_bit ceC2State 0 ⟨5, false⟩).diseqs = [] := by
  refine ⟨rfl, rfl, rfl, ?_⟩
  rfl

/-- C2 (amended).  `add_bit(v, l)` with `l`'s bool var already owned by
a bit atom scans the atom's occurrence list and, for every occurrence
`(v2, idx2)` at the same bit index as the new bit whose stored literal
is the logical negation of `l` *and whose owner has the same total
bit-width as `v`*, emits the disequality axiom `v != v2`; afterwards the
occurrence `(v, idx)` is prepended to the occurrence list, the scan
having used the list without it. -/
theorem add_bit_diseq_amended (S : BvState) (v : TVar) (l : Lit)
    (occs : List VarPos) (hv : v < S.bits.length) (hb : l.bvar ≠ 0)
    (ha : getAtom S l.bvar = some occs) :
    (∀ v2 idx2, (v2, idx2) ∈ occs → idx2 = (bitsOf S v).length →
      (bitsOf (add_bit S v l) v2).getD idx2 trueLit = lneg l →
      sizeAt S v2 = sizeAt S v →
      (v, v2, (bitsOf S v).length) ∈ (add_bit S v l).diseqs) ∧
    getAtom (add_bit S v l) l.bvar =
      some ((v, (bitsOf S v).length) :: occs) := by
  obtain ⟨hd, hat⟩ := add_bit_existing_shape S v l occs hb ha
  refine ⟨?_, hat⟩
  intro v2 idx2 ho hidx hlit hsz
  subst hidx
  rw [hd]
  apply List.mem_append_right
  rw [mem_find_new_diseq_axioms]
  have hself : (bitsOf { S with bits := S.bits.set v (bitsOf S v ++ [l]) }
      v).getD (bitsOf S v).length trueLit = l := by
    rw [bitsOf_set_self S v _ hv, getD_append_len]
  have hbits2 : bitsOf (add_bit S v l) v2 =
      bitsOf { S with bits := S.bits.set v (bitsOf S v ++ [l]) } v2 := by
    show ((add_bit S v l).bits).getD v2 [] = _
    rw [add_bit_bits]
    rfl
  rw [hself]
  rw [hbits2] at hlit
  exact ⟨ho, hlit, hsz⟩


/-- Embedding of `fixed_eq_justification::mark_bits`: mark each bit
literal of the array in its currently assigned polarity (the literal
itself when assigned true, its negation otherwise), skipping literals on
the reserved constant bool var. -/
def mark_bits (a : Assignment) (bits : List Lit) : List Lit :=
  bits.filterMap (fun l =>
    if l.bvar = 0 then none
    else if litVal a l = some true then some l else some (lneg l))

/-- The antecedent literals marked by `fixed_eq_justification(th, v1,
v2)::get_antecedents`: the marks of `m_bits[v1]` followed by those of
`m_bits[v2]`. -/
def fixed_eq_justification (S : BvState) (v1 v2 : TVar) : List Lit :=
  mark_bits S.coreAssign (bitsOf S v1) ++ mark_bits S.coreAssign (bitsOf S v2)

/-- Validity check performed by `fixed_var_eh` on the table entry `v2`:
`v2 < get_num_vars() && is_bv(v2) && get_bv_size(v2) == sz &&
get_fixed_value(v2, val2) && val == val2`. -/
def fixedEntryValid (S : BvState) (v2 : TVar) (val sz : Nat) : Prop :=
  v2 < S.numVars ∧ isBvAt S v2 = true ∧ sizeAt S v2 = sz ∧
    getFixedValue S.coreAssign (bitsOf S v2) = some val

instance (S : BvState) (v2 : TVar) (val sz : Nat) :
    Decidable (fixedEntryValid S v2 val sz) := by
  unfold fixedEntryValid
  infer_instance

/-- Embedding of `theory_bv::fixed_var_eh(v)`: compute `v`'s numeral
value (asserted to exist), look up `(val, sz)` in the fixed-value
table.  A valid entry for a variable in a different equivalence class
triggers `ctx.assign_eq` with a `fixed_eq_justification`; a stale entry
is replaced by `v`; a missing entry is created.  The enode-root
comparison is modelled by the theory union-find, which mirrors the
egraph classes for attached variables. -/
def fixed_var_eh (S : BvState) (v : TVar) : BvState :=
  match getFixedValue S.coreAssign (bitsOf S v) with
  | none => S
  | some val =>
    match S.fixedVarTable.find? (fun e => e.1 = (val, sizeAt S v)) with
    | some e =>
      if fixedEntryValid S e.2 val (sizeAt S v) then
        if rootOf S v ≠ rootOf S e.2 then
          { S with eqProps :=
              S.eqProps ++ [(v, e.2, fixed_eq_justification S v e.2)] }
        else S
      else
        { S with fixedVarTable :=
            ((val, sizeAt S v), v) ::
              S.fixedVarTable.eraseP (fun e => e.1 = (val, sizeAt S v)) }
    | none =>
      { S with fixedVarTable := ((val, sizeAt S v), v) :: S.fixedVarTable }

/-- Concrete state refuting the justification clause of C5: variables 0
and 1 are both the numeral 1 of width 1, with constant true bits, the
table maps `(1, 1)` to variable 0, and the two are in different
classes. -/
def ceC5State : BvState :=
  { numVars := 2
    bits := [[trueLit], [trueLit]]
    wpos := [0, 0]
    zeroOneBits := [[⟨0, 0, true⟩], [⟨1, 0, true⟩]]
    sizes := [1, 1]
    isBv := [true, true]
    atoms := []
    coreAssign := fun b => if b = 0 then some true else none
    mergeLog := []
    conflictFlag := false
    propQueue := []
    fixedVarTable := [((1, 1), 0)]
    eqProps := []
    diseqs := []
    trail := []
    scopeTrailLens := []
    scopeNumVars := [] }

/-- Counterexample to C5 as stated.  `fixed_var_eh(1)` in `ceC5State`
proposes the equality of variables 1 and 0, but its justification marks
no literal at all — in particular not the bit literal `trueLit` that
both bit arrays contain — because `mark_bits` skips literals on the
reserved constant bool var.  So the justification does not mark every
bit literal of both variables as an antecedent. -/
theorem fixed_var_eh_counterexample :
    (fixed_var_eh ceC5State 1).eqProps = [(1, 0, [])] ∧
    trueLit ∈ bitsOf ceC5State 1 ∧
    trueLit ∉ ([] : List Lit) ∧ lneg trueLit ∉ ([] : List Lit) := by
  refine ⟨?_, ?_, ?_, ?_⟩
  · rfl
  · show trueLit ∈ [trueLit]
    simp
  · simp
  · simp

/-- C5 (amended).  `fixed_var_eh(v)` with value `val` and width `sz`:
a still-valid table entry `v2` in a different equivalence class makes
the plugin propose `v == v2` with a justification marking, for every bit
literal of both variables *other than those on the reserved constant
bool var*, that literal in its assigned polarity; a stale entry is
replaced by `v`; a missing entry is created with no equality proposed. -/
theorem fixed_var_eh_spec (S : BvState) (v : TVar) (val : Nat)
    (hval : getFixedValue S.coreAssign (bitsOf S v) = some val) :
    (∀ e, S.fixedVarTable.find? (fun e => e.1 = (val, sizeAt S v)) = some e →
      fixedEntryValid S e.2 val (sizeAt S v) →
      rootOf S v ≠ rootOf S e.2 →
      (fixed_var_eh S v).eqProps =
        S.eqProps ++ [(v, e.2, fixed_eq_justification S v e.2)] ∧
      (fixed_var_eh S v).fixedVarTable = S.fixedVarTable ∧
      (∀ l ∈ bitsOf S v ++ bitsOf S e.2, l.bvar ≠ 0 →
        (if litVal S.coreAssign l = some true then l else lneg l) ∈
          fixed_eq_justification S v e.2)) ∧
    (∀ e, S.fixedVarTable.find? (fun e => e.1 = (val, sizeAt S v)) = some e →
      ¬ fixedEntryValid S e.2 val (sizeAt S v) →
      (fixed_var_eh S v).fixedVarTable =
        ((val, sizeAt S v), v) ::
          S.fixedVarTable.eraseP (fun e => e.1 = (val, sizeAt S v)) ∧
      (fixed_var_eh S v).eqProps = S.eqProps) ∧
    (S.fixedVarTable.find? (fun e => e.1 = (val, sizeAt S v)) = none →
      (fixed_var_eh S v).fixedVarTable =
        ((val, sizeAt S v), v) :: S.fixedVarTable ∧
      (fixed_var_eh S v).eqProps = S.eqProps) := by
  have hmark : ∀ bl : List Lit, ∀ l ∈ bl, l.bvar ≠ 0 →
      (if litVal S.coreAssign l = some true then l else lneg l) ∈
        mark_bits S.coreAssign bl := by
    intro bl l hl hb
    unfold mark_bits
    rw [List.mem_filterMap]
    refine ⟨l, hl, ?_⟩
    rw [if_neg hb]
    by_cases ht : litVal S.coreAssign l = some true
    · rw [if_pos ht, if_pos ht]
    · rw [if_neg ht, if_neg ht]
  refine ⟨?_, ?_, ?_⟩
  · intro e hfind hvalid hroot
    simp only [fixed_var_eh, hval, hfind]
    rw [if_pos hvalid, if_pos hroot]
    refine ⟨rfl, rfl, ?_⟩
    intro l hl hb
    unfold fixed_eq_justification
    rcases List.mem_append.mp hl with hl | hl
    · exact List.mem_append_left _ (hmark _ l hl hb)
    · exact List.mem_append_right _ (hmark _ l hl hb)
  · intro e hfind hvalid
    simp only [fixed_var_eh, hval, hfind]
    rw [if_neg hvalid]
    constructor <;> trivial
  · intro hfind
    simp only [fixed_var_eh, hval, hfind]
    constructor <;> trivial

/-- Embedding of `ctx.assign(l, js)`: assigning an already-true literal
is a no-op, assigning an already-false literal is a conflict, and
assigning an undefined literal sets its bool var so the literal holds.
The justification is a `bit_eq_justification`, marked as owned by this
theory, so the core does not notify the assignment back (see the remark
in `assign_bit`). -/
def ctxAssign (S : BvState) (l : Lit) : BvState :=
  match litv S l with
  | some true => S
  | some false => { S with conflictFlag := true }
  | none =>
    { S with coreAssign := fun b =>
        if b = l.bvar then some (!l.sign) else S.coreAssign b }

/-- Embedding of `theory_bv::find_wpos(v)`: advance `m_wpos[v]` to the
next unassigned bit, scanning from the current position to the end and
then wrapping from 0; when every bit is assigned, leave the position
where it started and invoke `fixed_var_eh(v)`. -/
def find_wpos (S : BvState) (v : TVar) : BvState :=
  match (List.range' (wposOf S v) ((bitsOf S v).length - wposOf S v)).find?
      (fun i => litv S ((bitsOf S v).getD i trueLit) = none) with
  | some i => { S with wpos := S.wpos.set v i }
  | none =>
    match (List.range' 0 (wposOf S v)).find?
        (fun i => litv S ((bitsOf S v).getD i trueLit) = none) with
    | some i => { S with wpos := S.wpos.set v i }
    | none => fixed_var_eh { S with wpos := S.wpos.set v (wposOf S v) } v

/-- Embedding of `theory_bv::assign_bit(consequent, v1, v2, idx,
antecedent, propagate_eqc)`: a permanently-false consequent is a theory
conflict; otherwise the consequent is assigned in the core, the watch
position of `v2` is advanced if it pointed at `idx`, and every
occurrence of the consequent's bool var is pushed onto the propagation
queue — except, when `propagate_eqc` is false, occurrences in `v2`'s
equivalence class at the same index, which the caller handles. -/
def assign_bit_push (S2 : BvState) (consequent : Lit) (v2 : TVar)
    (idx : Nat) (propagateEqc : Bool) : BvState :=
  { S2 with propQueue := S2.propQueue ++
      ((getAtom S2 consequent.bvar).getD []).filter (fun o =>
        propagateEqc || decide (rootOf S2 o.1 ≠ rootOf S2 v2) ||
          decide (o.2 ≠ idx)) }

def assign_bit (S : BvState) (consequent : Lit) (v1 v2 : TVar) (idx : Nat)
    (antecedent : Lit) (propagateEqc : Bool) : BvState :=
  if consequent = falseLit then { S with conflictFlag := true }
  else
    assign_bit_push
      (if wposOf (ctxAssign S consequent) v2 = idx
       then find_wpos (ctxAssign S consequent) v2
       else ctxAssign S consequent) consequent v2 idx propagateEqc

/-- The members of `v`'s equivalence class other than `v`.  Modelled
from the spec: the union-find keeps each class in a circular list, and
the walk `v2 = next(v); while (v2 != v) … v2 = next(v2)` enumerates
exactly the other members of the class. -/
def eqcOthers (S : BvState) (v : TVar) : List TVar :=
  (List.range S.numVars).filter
    (fun w => decide (w ≠ v ∧ rootOf S w = rootOf S v))

/-- The inner while loop of `theory_bv::propagate_bits`: walk the other
members of the entry's equivalence class, propagating the entry's value
`val` (read once, from bit `bit`) onto every member whose bit at `idx`
differs, and stop returning `true` as soon as the context becomes
inconsistent. -/
def walkAssign (S : BvState) (bit : Lit) (val : Option Bool) (v v2 : TVar)
    (idx : Nat) : BvState :=
  assign_bit S
    (if val = some false then lneg ((bitsOf S v2).getD idx trueLit)
     else (bitsOf S v2).getD idx trueLit) v v2 idx
    (if val = some false then lneg bit else bit) false

def walkOthers (bit : Lit) (val : Option Bool) (v : TVar) (idx : Nat) :
    List TVar → BvState → BvState × Bool
  | [], S => (S, false)
  | v2 :: rest, S =>
    if val = litv S ((bitsOf S v2).getD idx trueLit) then
      walkOthers bit val v idx rest S
    else if (walkAssign S bit val v v2 idx).conflictFlag then
      (walkAssign S bit val v v2 idx, true)
    else walkOthers bit val v idx rest (walkAssign S bit val v v2 idx)

/-- One entry of the loop body of `theory_bv::propagate_bits`: advance
the watch position if it points at this bit, read the entry's current
value, and walk the equivalence class. -/
def propStepAt (S0 : BvState) (v : TVar) (idx : Nat) : BvState × Bool :=
  walkOthers ((bitsOf S0 v).getD idx trueLit)
    (litv S0 ((bitsOf S0 v).getD idx trueLit)) v idx (eqcOthers S0 v) S0

def propStep (S : BvState) (v : TVar) (idx : Nat) : BvState × Bool :=
  propStepAt (if wposOf S v = idx then find_wpos S v else S) v idx

/-- Embedding of `theory_bv::propagate_bits()`: process the propagation
queue in order (entries pushed by `assign_bit` are appended and
processed later, as with the growing index of the source loop),
returning early on inconsistency and resetting the queue at the end.
The second component is false only when the fuel ran out, which the
theorems take as a hypothesis; the source loop terminates because every
queue entry is pushed by an assignment of a previously unassigned bool
var. -/
def processQueue : Nat → BvState → BvState × Bool
  | 0, S => (S, false)
  | fuel + 1, S =>
    match S.propQueue with
    | [] => ({ S with propQueue := [] }, true)
    | e :: rest =>
      if (propStep { S with propQueue := rest } e.1 e.2).2 then
        ((propStep { S with propQueue := rest } e.1 e.2).1, true)
      else processQueue fuel (propStep { S with propQueue := rest } e.1 e.2).1

/-- The last matching seed of `m_merge_aux[b][i]` after the seeding loop
of `merge_zero_one_bits` (later seeds overwrite earlier ones). -/
def zoAuxLast (orig1 : List ZOBit) (b : Bool) (i : Nat) : Option TVar :=
  ((orig1.filter (fun e => decide (e.isTrue = b ∧ e.idx = i))).getLast?).map
    (fun e => e.owner)

/-- The scan loop of `merge_zero_one_bits` over `r2`'s summary: against
the seeds from `r1`'s original summary, detect a complementary entry
(conflict, reported as a disequality axiom between the two owners) or
collect the entries missing from `r1`'s summary.  Entries copied before
a conflict is found stay copied, as in the source. -/
def mergeZeroOneGo (orig1 : List ZOBit) :
    List ZOBit → List ZOBit → List ZOBit × Option (TVar × TVar × Nat)
  | [], acc => (acc, none)
  | e :: rest, acc =>
    match zoAuxLast orig1 (!e.isTrue) e.idx with
    | some v1 => (acc, some (v1, e.owner, e.idx))
    | none =>
      if orig1.any (fun e1 => decide (e1.isTrue = e.isTrue ∧ e1.idx = e.idx))
      then mergeZeroOneGo orig1 rest acc
      else mergeZeroOneGo orig1 rest (acc ++ [e])

/-- Embedding of `theory_bv::merge_zero_one_bits(r1, r2)`: reconcile the
two root summaries; on a complementary pair emit
`mk_new_diseq_axiom(v1, v2, idx)` and fail, otherwise copy the missing
entries of `r2`'s summary into `r1`'s. -/
def merge_zero_one_bits (S : BvState) (r1 r2 : TVar) : BvState × Bool :=
  if (zobOf S r2).isEmpty then (S, true)
  else
    match mergeZeroOneGo (zobOf S r1) (zobOf S r2) [] with
    | (acc, none) =>
      ({ S with zeroOneBits :=
          (S.zeroOneBits.set r1 (zobOf S r1 ++ acc)) }, true)
    | (acc, some d) =>
      ({ S with
          zeroOneBits := (S.zeroOneBits.set r1 (zobOf S r1 ++ acc))
          diseqs := S.diseqs ++ [d] }, false)

/-- One full pass of the reconciliation loop of `theory_bv::merge_eh`
over the remaining bit indices: where the assignments of
`m_bits[v1][idx]` and `m_bits[v2][idx]` differ, propagate the assigned
side onto the other via `assign_bit` (with `propagate_eqc` true),
returning early when the context becomes inconsistent.  Results:
(state, changed, returned-early). -/
def mergeStepAssign (S : BvState) (v1 v2 : TVar) (idx : Nat) : BvState :=
  if litv S ((bitsOf S v1).getD idx trueLit) ≠ none then
    assign_bit S
      (if litv S ((bitsOf S v1).getD idx trueLit) = some false
       then lneg ((bitsOf S v2).getD idx trueLit)
       else (bitsOf S v2).getD idx trueLit) v1 v2 idx
      (if litv S ((bitsOf S v1).getD idx trueLit) = some false
       then lneg ((bitsOf S v1).getD idx trueLit)
       else (bitsOf S v1).getD idx trueLit) true
  else if litv S ((bitsOf S v2).getD idx trueLit) ≠ none then
    assign_bit S
      (if litv S ((bitsOf S v2).getD idx trueLit) = some false
       then lneg ((bitsOf S v1).getD idx trueLit)
       else (bitsOf S v1).getD idx trueLit) v2 v1 idx
      (if litv S ((bitsOf S v2).getD idx trueLit) = some false
       then lneg ((bitsOf S v2).getD idx trueLit)
       else (bitsOf S v2).getD idx trueLit) true
  else S

def mergePassGo (v1 v2 : TVar) :
    List Nat → Bool → BvState → BvState × Bool × Bool
  | [], changed, S => (S, changed, false)
  | idx :: rest, changed, S =>
    if litv S ((bitsOf S v1).getD idx trueLit) =
        litv S ((bitsOf S v2).getD idx trueLit) then
      mergePassGo v1 v2 rest changed S
    else if (mergeStepAssign S v1 v2 idx).conflictFlag then
      (mergeStepAssign S v1 v2 idx, true, true)
    else mergePassGo v1 v2 rest true (mergeStepAssign S v1 v2 idx)

/-- The do-while loop of `theory_bv::merge_eh`: repeat full passes until
a pass makes no change (or the context becomes inconsistent).  The
second component is false only on fuel exhaustion; the source loop
terminates because every changing pass assigns an unassigned bool
var. -/
def mergeLoop (v1 v2 : TVar) (sz : Nat) : Nat → BvState → BvState × Bool
  | 0, S => (S, false)
  | fuel + 1, S =>
    match mergePassGo v1 v2 (List.range sz) false S with
    | (S', changed, early) =>
      if early then (S', true)
      else if changed then mergeLoop v1 v2 sz fuel S'
      else (S', true)

/-- Embedding of `theory_bv::merge_eh(r1, r2, v1, v2)` (invoked after
the union-find has made `r1` the root of the united class): reconcile
the zero-one summaries (aborting on a conflict), then reset the queue,
run the bit-reconciliation fixed point on `v1`/`v2`, and finally run
`propagate_bits` on the queued occurrences. -/
def merge_eh (fuel : Nat) (S : BvState) (r1 r2 v1 v2 : TVar) :
    BvState × Bool :=
  match merge_zero_one_bits S r1 r2 with
  | (S1, false) => (S1, true)
  | (S1, true) =>
    match mergeLoop v1 v2 (bitsOf S1 v1).length fuel
        { S1 with propQueue := [] } with
    | (S3, false) => (S3, false)
    | (S3, true) =>
      if S3.conflictFlag then (S3, true)
      else processQueue fuel S3

/-- Embedding of `theory_bv::assign_eh(b, is_true)` (the core has just
assigned bool var `b`): for a bit atom, reset the queue, seed it with
every occurrence of the atom, and run `propagate_bits`.  Non-bit atoms
trigger no propagation. -/
def assign_eh (fuel : Nat) (S : BvState) (b : Nat) : BvState × Bool :=
  match getAtom S b with
  | some occs => processQueue fuel { S with propQueue := occs }
  | none => (S, true)

/-- Embedding of `theory_bv::unmerge_eh(v1, v2)` (called while undoing
the last merge, `v1` the root that survived): drop from the end of
`v1`'s zero-one summary the entries whose owner is no longer in `v1`'s
class, stopping at the first entry (from the end) still owned by the
class. -/
def unmerge_eh (S : BvState) (v1 : TVar) : BvState :=
  { S with zeroOneBits := (S.zeroOneBits.set v1
      (((zobOf S v1).reverse.dropWhile
          (fun e => decide (rootOf S e.owner ≠ v1))).reverse)) }

/-- Replay one undo-trail entry: `mk_atom_trail` erases the atom,
`add_var_pos_trail` drops the newest occurrence, and the union-find
undo (modelled from the spec) reverses the last merge and calls
`unmerge_eh`. -/
def applyUndo (S : BvState) (e : TrailEntry) : BvState :=
  match e with
  | TrailEntry.mkAtomTrail b =>
    { S with atoms := S.atoms.eraseP (fun x => x.1 = b) }
  | TrailEntry.addVarPosTrail b =>
    { S with atoms := S.atoms.map (fun x =>
        if x.1 = b then (x.1, x.2.tail) else x) }
  | TrailEntry.unmergeTrail r1 _r2 =>
    unmerge_eh { S with mergeLog := S.mergeLog.dropLast } r1

/-- Replay the trail (newest first) down to length `m`, LIFO. -/
def replayGo (m : Nat) : List TrailEntry → BvState → BvState
  | [], S => { S with trail := [] }
  | e :: rest, S =>
    if rest.length + 1 ≤ m then { S with trail := e :: rest }
    else replayGo m rest (applyUndo S e)

/-- Embedding of `theory_bv::push_scope_eh()`: record the trail length
and (for the base `theory::push_scope_eh`) the current variable
count. -/
def push_scope_eh (S : BvState) : BvState :=
  { S with scopeTrailLens := S.trail.length :: S.scopeTrailLens,
           scopeNumVars := S.numVars :: S.scopeNumVars }

/-- Embedding of `theory_bv::pop_scope_eh(1)`: replay the trail down to
the innermost scope marker, then shrink the per-variable arrays to the
old variable count. -/
def pop_scope_eh (S : BvState) : BvState :=
  match S.scopeTrailLens, S.scopeNumVars with
  | m :: ms, n :: ns =>
    let S1 := replayGo m S.trail S
    { S1 with
      numVars := n
      bits := S1.bits.take n
      wpos := S1.wpos.take n
      zeroOneBits := S1.zeroOneBits.take n
      sizes := S1.sizes.take n
      isBv := S1.isBv.take n
      scopeTrailLens := ms
      scopeNumVars := ns }
  | _, _ => S

/-- Embedding of `theory_bv::mk_var(n)`: a fresh variable with empty bit
array, watch position 0 and empty zero-one summary; the width and
sort flag come from the attached term. -/
def mk_var (S : BvState) (w : Nat) (bv : Bool) : BvState :=
  { S with
    numVars := S.numVars + 1
    bits := S.bits ++ [[]]
    wpos := S.wpos ++ [0]
    zeroOneBits := S.zeroOneBits ++ [[]]
    sizes := S.sizes ++ [w]
    isBv := S.isBv ++ [bv] }

/-- Embedding of `m_find.merge(v1, v2)` as driven by `new_eq_eh`
(modelled from the spec: the union makes `find(v1)` the surviving root,
records the undo on the trail, and then notifies
`merge_eh(r1, r2, v1, v2)`); equal roots are a no-op. -/
def mergeOp (fuel : Nat) (S : BvState) (v1 v2 : TVar) : BvState × Bool :=
  if rootOf S v1 = rootOf S v2 then (S, true)
  else
    merge_eh fuel
      { S with
        mergeLog := S.mergeLog ++ [(rootOf S v1, rootOf S v2)]
        trail := TrailEntry.unmergeTrail (rootOf S v1) (rootOf S v2)
          :: S.trail }
      (rootOf S v1) (rootOf S v2) v1 v2

/-- The theory-level operations a scope of the backtracking claims may
contain: variable creation, `add_bit`, and a core-driven merge. -/
inductive TOp where
  | mkVarOp (w : Nat) (bv : Bool) : TOp
  | addBitOp (v : TVar) (l : Lit) : TOp
  | mergeEhOp (v1 v2 : TVar) : TOp
deriving DecidableEq, Repr

/-- Run one theory-level operation (merges with the given fuel). -/
def runTOp (fuel : Nat) (S : BvState) : TOp → BvState
  | TOp.mkVarOp w bv => mk_var S w bv
  | TOp.addBitOp v l => add_bit S v l
  | TOp.mergeEhOp v1 v2 => (mergeOp fuel S v1 v2).1

/-- Run a sequence of theory-level operations. -/
def runTOps (fuel : Nat) : List TOp → BvState → BvState
  | [], S => S
  | op :: rest, S => runTOps fuel rest (runTOp fuel S op)

/-- Equality of the state components that the propagation engine never
touches: variable count, bit arrays, widths, sorts, atom table,
union-find log, trail and scope stacks. -/
def SameSkel (S T : BvState) : Prop :=
  T.numVars = S.numVars ∧ T.bits = S.bits ∧ T.sizes = S.sizes ∧
  T.isBv = S.isBv ∧ T.atoms = S.atoms ∧ T.mergeLog = S.mergeLog ∧
  T.trail = S.trail ∧ T.scopeTrailLens = S.scopeTrailLens ∧
  T.scopeNumVars = S.scopeNumVars

theorem sameSkel_refl (S : BvState) : SameSkel S S :=
  ⟨rfl, rfl, rfl, rfl, rfl, rfl, rfl, rfl, rfl⟩

theorem sameSkel_trans {S T U : BvState} (h1 : SameSkel S T)
    (h2 : SameSkel T U) : SameSkel S U := by
  obtain ⟨a1, b1, c1, d1, e1, f1, g1, h1', i1⟩ := h1
  obtain ⟨a2, b2, c2, d2, e2, f2, g2, h2', i2⟩ := h2
  exact ⟨a2.trans a1, b2.trans b1, c2.trans c1, d2.trans d1, e2.trans e1,
    f2.trans f1, g2.trans g1, h2'.trans h1', i2.trans i1⟩

theorem skel_fixed_var_eh (S : BvState) (v : TVar) :
    SameSkel S (fixed_var_eh S v) := by
  unfold fixed_var_eh
  repeat' split
  all_goals exact ⟨rfl, rfl, rfl, rfl, rfl, rfl, rfl, rfl, rfl⟩

theorem skel_ctxAssign (S : BvState) (l : Lit) :
    SameSkel S (ctxAssign S l) := by
  unfold ctxAssign
  repeat' split
  all_goals exact ⟨rfl, rfl, rfl, rfl, rfl, rfl, rfl, rfl, rfl⟩

theorem skel_find_wpos (S : BvState) (v : TVar) :
    SameSkel S (find_wpos S v) := by
  unfold find_wpos
  repeat' split
  · exact ⟨rfl, rfl, rfl, rfl, rfl, rfl, rfl, rfl, rfl⟩
  · exact ⟨rfl, rfl, rfl, rfl, rfl, rfl, rfl, rfl, rfl⟩
  · exact skel_fixed_var_eh _ v

theorem skel_assign_bit (S : BvState) (c : Lit) (v1 v2 : TVar) (idx : Nat)
    (a : Lit) (p : Bool) : SameSkel S (assign_bit S c v1 v2 idx a p) := by
  unfold assign_bit
  split
  · exact ⟨rfl, rfl, rfl, rfl, rfl, rfl, rfl, rfl, rfl⟩
  · have h1 : SameSkel S (ctxAssign S c) := skel_ctxAssign S c
    have h2 : SameSkel (ctxAssign S c)
        (if wposOf (ctxAssign S c) v2 = idx then find_wpos (ctxAssign S c) v2
         else ctxAssign S c) := by
      split
      · exact skel_find_wpos _ v2
      · exact sameSkel_refl _
    exact sameSkel_trans (sameSkel_trans h1 h2)
      ⟨rfl, rfl, rfl, rfl, rfl, rfl, rfl, rfl, rfl⟩

theorem skel_walkAssign (S : BvState) (bit : Lit) (val : Option Bool)
    (v v2 : TVar) (idx : Nat) :
    SameSkel S (walkAssign S bit val v v2 idx) :=
  skel_assign_bit S _ v v2 idx _ false

theorem skel_walkOthers (bit : Lit) (val : Option Bool) (v : TVar)
    (idx : Nat) (others : List TVar) :
    ∀ S : BvState, SameSkel S (walkOthers bit val v idx others S).1 := by
  induction others with
  | nil => intro S; exact sameSkel_refl S
  | cons v2 rest ih =>
    intro S
    unfold walkOthers
    split
    · exact ih S
    · split
      · exact skel_walkAssign S bit val v v2 idx
      · exact sameSkel_trans (skel_walkAssign S bit val v v2 idx) (ih _)

theorem skel_propStep (S : BvState) (v : TVar) (idx : Nat) :
    SameSkel S (propStep S v idx).1 := by
  unfold propStep propStepAt
  refine sameSkel_trans ?_ (skel_walkOthers _ _ v idx _ _)
  split
  · exact skel_find_wpos S v
  · exact sameSkel_refl S

/-- Components of `SameSkel` restricted to the queue-independent parts;
`processQueue` changes the queue field of the pre-state, so its skeleton
lemma relates the queue-stripped states. -/
theorem skel_processQueue (fuel : Nat) :
    ∀ S : BvState, SameSkel S (processQueue fuel S).1 := by
  induction fuel with
  | zero => intro S; exact sameSkel_refl S
  | succ fuel ih =>
    intro S
    unfold processQueue
    split
    · exact ⟨rfl, rfl, rfl, rfl, rfl, rfl, rfl, rfl, rfl⟩
    next e rest heq =>
      split
      · exact skel_propStep { S with propQueue := rest } e.1 e.2
      · exact sameSkel_trans
          (skel_propStep { S with propQueue := rest } e.1 e.2)
          (ih (propStep { S with propQueue := rest } e.1 e.2).1)

theorem skel_processQueue_of (fuel : Nat) (S : BvState) :
    SameSkel S (processQueue fuel S).1 := skel_processQueue fuel S

theorem skel_merge_zero_one_bits (S : BvState) (r1 r2 : TVar) :
    SameSkel S (merge_zero_one_bits S r1 r2).1 := by
  unfold merge_zero_one_bits
  repeat' split
  all_goals exact ⟨rfl, rfl, rfl, rfl, rfl, rfl, rfl, rfl, rfl⟩

theorem skel_mergeStepAssign (S : BvState) (v1 v2 : TVar) (idx : Nat) :
    SameSkel S (mergeStepAssign S v1 v2 idx) := by
  unfold mergeStepAssign
  split
  · exact skel_assign_bit S _ v1 v2 idx _ true
  · split
    · exact skel_assign_bit S _ v2 v1 idx _ true
    · exact sameSkel_refl S

theorem skel_mergePassGo (v1 v2 : TVar) (idxs : List Nat) :
    ∀ (changed : Bool) (S : BvState),
      SameSkel S (mergePassGo v1 v2 idxs changed S).1 := by
  induction idxs with
  | nil => intro changed S; exact sameSkel_refl S
  | cons idx rest ih =>
    intro changed S
    unfold mergePassGo
    split
    · exact ih changed S
    · split
      · exact skel_mergeStepAssign S v1 v2 idx
      · exact sameSkel_trans (skel_mergeStepAssign S v1 v2 idx) (ih true _)

theorem skel_mergeLoop (v1 v2 : TVar) (sz : Nat) (fuel : Nat) :
    ∀ S : BvState, SameSkel S (mergeLoop v1 v2 sz fuel S).1 := by
  induction fuel with
  | zero => intro S; exact sameSkel_refl S
  | succ fuel ih =>
    intro S
    unfold mergeLoop
    split
    next S' changed early heq =>
      have hsk : SameSkel S S' := by
        have h := skel_mergePassGo v1 v2 (List.range sz) false S
        rw [heq] at h
        exact h
      split
      · exact hsk
      · split
        · exact sameSkel_trans hsk (ih S')
        · exact hsk

theorem skel_merge_eh (fuel : Nat) (S : BvState) (r1 r2 v1 v2 : TVar) :
    SameSkel S (merge_eh fuel S r1 r2 v1 v2).1 := by
  unfold merge_eh
  split
  next S1 heq =>
    have h1 : SameSkel S S1 := by
      have := skel_merge_zero_one_bits S r1 r2
      rw [heq] at this
      exact this
    exact h1
  next S1 heq =>
    have h1 : SameSkel S S1 := by
      have := skel_merge_zero_one_bits S r1 r2
      rw [heq] at this
      exact this
    have h2 : SameSkel S1 { S1 with propQueue := ([] : List VarPos) } :=
      ⟨rfl, rfl, rfl, rfl, rfl, rfl, rfl, rfl, rfl⟩
    split
    next S3 heq3 =>
      have h3 : SameSkel { S1 with propQueue := ([] : List VarPos) } S3 := by
        have := skel_mergeLoop v1 v2 (bitsOf S1 v1).length fuel
          { S1 with propQueue := ([] : List VarPos) }
        rw [heq3] at this
        exact this
      exact sameSkel_trans (sameSkel_trans h1 h2) h3
    next S3 heq3 =>
      have h3 : SameSkel { S1 with propQueue := ([] : List VarPos) } S3 := by
        have := skel_mergeLoop v1 v2 (bitsOf S1 v1).length fuel
          { S1 with propQueue := ([] : List VarPos) }
        rw [heq3] at this
        exact this
      have h13 := sameSkel_trans (sameSkel_trans h1 h2) h3
      split
      · exact h13
      · exact sameSkel_trans h13 (skel_processQueue fuel S3)

theorem take_set_of_le {α : Type} (l : List α) (i n : Nat) (a : α)
    (h : n ≤ i) : (l.set i a).take n = l.take n := by
  induction l generalizing i n with
  | nil => simp
  | cons x xs ih =>
    cases i with
    | zero =>
      have hn : n = 0 := Nat.le_zero.mp h
      simp [hn]
    | succ i =>
      cases n with
      | zero => simp
      | succ n =>
        simp only [List.set_cons_succ, List.take_succ_cons]
        rw [ih i n (by omega)]

theorem replayGo_stop (m : Nat) (tr : List TrailEntry) (S : BvState)
    (h : tr.length ≤ m) : replayGo m tr S = { S with trail := tr } := by
  cases tr with
  | nil => rfl
  | cons e rest =>
    unfold replayGo
    rw [if_pos (by simpa using h)]

theorem replayGo_cons (m : Nat) (e : TrailEntry) (tr : List TrailEntry)
    (S : BvState) (h : m ≤ tr.length) :
    replayGo m (e :: tr) S = replayGo m tr (applyUndo S e) := by
  conv_lhs => unfold replayGo
  rw [if_neg (by omega)]

theorem applyUndo_parts (S T : BvState) (e : TrailEntry)
    (ha : S.atoms = T.atoms) (hl : S.mergeLog = T.mergeLog) :
    (applyUndo S e).atoms = (applyUndo T e).atoms ∧
    (applyUndo S e).mergeLog = (applyUndo T e).mergeLog := by
  cases e with
  | mkAtomTrail b => exact ⟨by simp [applyUndo, ha], by simp [applyUndo, hl]⟩
  | addVarPosTrail b =>
    exact ⟨by simp [applyUndo, ha], by simp [applyUndo, hl]⟩
  | unmergeTrail r1 r2 =>
    exact ⟨by simp [applyUndo, unmerge_eh, ha],
      by simp [applyUndo, unmerge_eh, hl]⟩

theorem applyUndo_keeps (S : BvState) (e : TrailEntry) :
    (applyUndo S e).bits = S.bits ∧ (applyUndo S e).numVars = S.numVars ∧
    (applyUndo S e).scopeTrailLens = S.scopeTrailLens ∧
    (applyUndo S e).scopeNumVars = S.scopeNumVars := by
  cases e with
  | mkAtomTrail b => exact ⟨rfl, rfl, rfl, rfl⟩
  | addVarPosTrail b => exact ⟨rfl, rfl, rfl, rfl⟩
  | unmergeTrail r1 r2 => exact ⟨rfl, rfl, rfl, rfl⟩

theorem replayGo_parts (m : Nat) (tr : List TrailEntry) :
    ∀ S T : BvState, S.atoms = T.atoms → S.mergeLog = T.mergeLog →
      (replayGo m tr S).atoms = (replayGo m tr T).atoms ∧
      (replayGo m tr S).mergeLog = (replayGo m tr T).mergeLog ∧
      (replayGo m tr S).trail = (replayGo m tr T).trail := by
  induction tr with
  | nil => intro S T ha hl; exact ⟨ha, hl, rfl⟩
  | cons e rest ih =>
    intro S T ha hl
    by_cases h : rest.length + 1 ≤ m
    · unfold replayGo
      rw [if_pos h, if_pos h]
      exact ⟨ha, hl, rfl⟩
    · unfold replayGo
      rw [if_neg h, if_neg h]
      exact ih (applyUndo S e) (applyUndo T e)
        (applyUndo_parts S T e ha hl).1 (applyUndo_parts S T e ha hl).2

theorem replayGo_keeps (m : Nat) (tr : List TrailEntry) :
    ∀ S : BvState, (replayGo m tr S).bits = S.bits ∧
      (replayGo m tr S).numVars = S.numVars := by
  induction tr with
  | nil => intro S; exact ⟨rfl, rfl⟩
  | cons e rest ih =>
    intro S
    by_cases h : rest.length + 1 ≤ m
    · unfold replayGo
      rw [if_pos h]
      exact ⟨rfl, rfl⟩
    · unfold replayGo
      rw [if_neg h]
      refine ⟨?_, ?_⟩
      · rw [(ih (applyUndo S e)).1, (applyUndo_keeps S e).1]
      · rw [(ih (applyUndo S e)).2, (applyUndo_keeps S e).2.1]

/-- The backtracking invariant: replaying `T`'s trail down to `B`'s
trail length restores `B`'s atom table, union-find log, and trail. -/
def Restores (B T : BvState) : Prop :=
  B.trail.length ≤ T.trail.length ∧
  (replayGo B.trail.length T.trail T).atoms = B.atoms ∧
  (replayGo B.trail.length T.trail T).mergeLog = B.mergeLog ∧
  (replayGo B.trail.length T.trail T).trail = B.trail

theorem restores_refl (B : BvState) : Restores B B := by
  have h := replayGo_stop B.trail.length B.trail B (Nat.le_refl _)
  exact ⟨Nat.le_refl _, by rw [h], by rw [h], by rw [h]⟩

theorem restores_of_same (B T T' : BvState) (h : Restores B T)
    (ht : T'.trail = T.trail) (ha : T'.atoms = T.atoms)
    (hl : T'.mergeLog = T.mergeLog) : Restores B T' := by
  obtain ⟨h1, h2, h3, h4⟩ := h
  have hp := replayGo_parts B.trail.length T.trail T' T ha hl
  refine ⟨by rw [ht]; exact h1, ?_, ?_, ?_⟩
  · rw [ht, hp.1, h2]
  · rw [ht, hp.2.1, h3]
  · rw [ht, hp.2.2, h4]

theorem restores_push (B T T' : BvState) (e : TrailEntry)
    (h : Restores B T) (ht : T'.trail = e :: T.trail)
    (ha : (applyUndo T' e).atoms = T.atoms)
    (hl : (applyUndo T' e).mergeLog = T.mergeLog) : Restores B T' := by
  obtain ⟨h1, h2, h3, h4⟩ := h
  have hc : replayGo B.trail.length T'.trail T' =
      replayGo B.trail.length T.trail (applyUndo T' e) := by
    rw [ht]
    exact replayGo_cons _ e _ T' h1
  have hp := replayGo_parts B.trail.length T.trail (applyUndo T' e) T ha hl
  refine ⟨by rw [ht]; simp; omega, ?_, ?_, ?_⟩
  · rw [hc, hp.1, h2]
  · rw [hc, hp.2.1, h3]
  · rw [hc, hp.2.2, h4]

theorem map_tail_prepend (xs : List (Nat × List VarPos)) (b : Nat)
    (o : VarPos) :
    (xs.map (fun e => if e.1 = b then (e.1, o :: e.2) else e)).map
        (fun e => if e.1 = b then (e.1, e.2.tail) else e) = xs := by
  rw [List.map_map]
  conv_rhs => rw [← List.map_id xs]
  apply List.map_congr_left
  intro x _
  by_cases hx : x.1 = b
  · simp [hx]
    rw [← hx]
  · simp [hx]

/-- The three shapes of `add_bit`'s effect on atoms, trail and log. -/
theorem add_bit_shapes (S : BvState) (v : TVar) (l : Lit) :
    (l.bvar = 0 ∧ (add_bit S v l).atoms = S.atoms ∧
      (add_bit S v l).trail = S.trail ∧
      (add_bit S v l).mergeLog = S.mergeLog) ∨
    ((add_bit S v l).atoms = S.atoms.map (fun e =>
        if e.1 = l.bvar then (e.1, (v, (bitsOf S v).length) :: e.2) else e) ∧
      (add_bit S v l).trail =
        TrailEntry.addVarPosTrail l.bvar :: S.trail ∧
      (add_bit S v l).mergeLog = S.mergeLog) ∨
    ((add_bit S v l).atoms =
        (l.bvar, [(v, (bitsOf S v).length)]) :: S.atoms ∧
      (add_bit S v l).trail = TrailEntry.mkAtomTrail l.bvar :: S.trail ∧
      (add_bit S v l).mergeLog = S.mergeLog) := by
  unfold add_bit
  split
  · exact Or.inl ⟨by assumption, rfl, rfl, rfl⟩
  · split
    · exact Or.inr (Or.inl ⟨rfl, rfl, rfl⟩)
    · exact Or.inr (Or.inr ⟨rfl, rfl, rfl⟩)

theorem restores_add_bit (B S : BvState) (v : TVar) (l : Lit)
    (h : Restores B S) : Restores B (add_bit S v l) := by
  rcases add_bit_shapes S v l with ⟨_, ha, ht, hl⟩ |
    ⟨ha, ht, hl⟩ | ⟨ha, ht, hl⟩
  · exact restores_of_same B S _ h ht ha hl
  · refine restores_push B S _ (TrailEntry.addVarPosTrail l.bvar) h ht ?_ ?_
    · show (add_bit S v l).atoms.map (fun e =>
          if e.1 = l.bvar then (e.1, e.2.tail) else e) = S.atoms
      rw [ha]
      exact map_tail_prepend S.atoms l.bvar (v, (bitsOf S v).length)
    · show (add_bit S v l).mergeLog = S.mergeLog
      exact hl
  · refine restores_push B S _ (TrailEntry.mkAtomTrail l.bvar) h ht ?_ ?_
    · show (add_bit S v l).atoms.eraseP (fun x => x.1 = l.bvar) = S.atoms
      rw [ha]
      rw [List.eraseP_cons_of_pos (by simp)]
    · show (add_bit S v l).mergeLog = S.mergeLog
      exact hl

theorem restores_mergeOp (B S : BvState) (fuel : Nat) (v1 v2 : TVar)
    (h : Restores B S) : Restores B (mergeOp fuel S v1 v2).1 := by
  unfold mergeOp
  split
  · exact h
  · have hsk := skel_merge_eh fuel
      { S with mergeLog := S.mergeLog ++ [(rootOf S v1, rootOf S v2)],
               trail := TrailEntry.unmergeTrail (rootOf S v1) (rootOf S v2)
                 :: S.trail } (rootOf S v1) (rootOf S v2) v1 v2
    obtain ⟨_, _, _, _, hatoms, hlog, htrail, _, _⟩ := hsk
    refine restores_push B S _
      (TrailEntry.unmergeTrail (rootOf S v1) (rootOf S v2)) h ?_ ?_ ?_
    · rw [htrail]
    · show (applyUndo _ _).atoms = S.atoms
      have : ∀ U : BvState, ∀ r1 r2,
          (applyUndo U (TrailEntry.unmergeTrail r1 r2)).atoms = U.atoms :=
        fun U r1 r2 => rfl
      rw [this, hatoms]
    · show (applyUndo _ _).mergeLog = S.mergeLog
      have hun : ∀ U : BvState, ∀ r1 r2,
          (applyUndo U (TrailEntry.unmergeTrail r1 r2)).mergeLog =
            U.mergeLog.dropLast := fun U r1 r2 => rfl
      rw [hun, hlog]
      exact List.dropLast_concat

/-- Per-operation condition of the amended backtracking claim: every
`add_bit` in the scope targets a variable created after the push. -/
def C4OpOk (n0 : Nat) : TOp → Prop
  | TOp.addBitOp v _ => n0 ≤ v
  | _ => True

theorem add_bit_stacks (S : BvState) (v : TVar) (l : Lit) :
    (add_bit S v l).scopeTrailLens = S.scopeTrailLens ∧
    (add_bit S v l).scopeNumVars = S.scopeNumVars := by
  unfold add_bit
  repeat' split
  all_goals exact ⟨rfl, rfl⟩

theorem mergeOp_shape (fuel : Nat) (S : BvState) (v1 v2 : TVar) :
    (mergeOp fuel S v1 v2).1.bits = S.bits ∧
    (mergeOp fuel S v1 v2).1.scopeTrailLens = S.scopeTrailLens ∧
    (mergeOp fuel S v1 v2).1.scopeNumVars = S.scopeNumVars ∧
    (mergeOp fuel S v1 v2).1.numVars = S.numVars ∧
    (mergeOp fuel S v1 v2).1.sizes = S.sizes := by
  unfold mergeOp
  split
  · exact ⟨rfl, rfl, rfl, rfl, rfl⟩
  · obtain ⟨ha1, ha2, ha3, ha4, ha5, ha6, ha7, ha8, ha9⟩ :=
      skel_merge_eh fuel
        { S with
          mergeLog := S.mergeLog ++ [(rootOf S v1, rootOf S v2)]
          trail := TrailEntry.unmergeTrail (rootOf S v1) (rootOf S v2)
            :: S.trail }
        (rootOf S v1) (rootOf S v2) v1 v2
    exact ⟨ha2, ha8, ha9, ha1, ha3⟩

/-- The running invariant for the backtracking round trip, relative to
the state `B` right after the push. -/
def C4Inv (n0 : Nat) (B T : BvState) : Prop :=
  Restores B T ∧ T.bits.take n0 = B.bits ∧ n0 ≤ T.bits.length ∧
  T.scopeTrailLens = B.scopeTrailLens ∧ T.scopeNumVars = B.scopeNumVars

theorem c4_step (fuel n0 : Nat) (B T : BvState) (op : TOp)
    (hok : C4OpOk n0 op) (h : C4Inv n0 B T) :
    C4Inv n0 B (runTOp fuel T op) := by
  obtain ⟨hr, htk, hln, hs1, hs2⟩ := h
  cases op with
  | mkVarOp w bv =>
    refine ⟨restores_of_same B T _ hr rfl rfl rfl, ?_, ?_, hs1, hs2⟩
    · show (T.bits ++ [[]]).take n0 = B.bits
      rw [List.take_append_of_le_length hln, htk]
    · show n0 ≤ (T.bits ++ [[]]).length
      rw [List.length_append]
      omega
  | addBitOp v l =>
    have hv : n0 ≤ v := hok
    refine ⟨restores_add_bit B T v l hr, ?_, ?_, ?_, ?_⟩
    · show (add_bit T v l).bits.take n0 = B.bits
      rw [add_bit_bits, take_set_of_le _ _ _ _ hv, htk]
    · show n0 ≤ (add_bit T v l).bits.length
      rw [add_bit_bits, List.length_set]
      exact hln
    · exact (add_bit_stacks T v l).1.trans hs1
    · exact (add_bit_stacks T v l).2.trans hs2
  | mergeEhOp v1 v2 =>
    obtain ⟨hb, hb1, hb2, _, _⟩ := mergeOp_shape fuel T v1 v2
    refine ⟨restores_mergeOp B T fuel v1 v2 hr, ?_, ?_, hb1.trans hs1,
      hb2.trans hs2⟩
    · show (mergeOp fuel T v1 v2).1.bits.take n0 = B.bits
      rw [hb, htk]
    · show n0 ≤ (mergeOp fuel T v1 v2).1.bits.length
      rw [hb]
      exact hln

theorem c4_run (fuel n0 : Nat) (ops : List TOp) (B : BvState)
    (hok : ∀ op ∈ ops, C4OpOk n0 op) :
    ∀ T, C4Inv n0 B T → C4Inv n0 B (runTOps fuel ops T) := by
  induction ops with
  | nil => intro T h; exact h
  | cons op rest ih =>
    intro T h
    exact ih (fun o ho => hok o (List.mem_cons_of_mem _ ho)) _
      (c4_step fuel n0 B T op (hok op (List.mem_cons_self op rest)) h)

theorem pop_scope_eh_eq (T : BvState) (m n : Nat) (ms ns : List Nat)
    (h1 : T.scopeTrailLens = m :: ms) (h2 : T.scopeNumVars = n :: ns) :
    pop_scope_eh T =
      { replayGo m T.trail T with
        numVars := n
        bits := (replayGo m T.trail T).bits.take n
        wpos := (replayGo m T.trail T).wpos.take n
        zeroOneBits := (replayGo m T.trail T).zeroOneBits.take n
        sizes := (replayGo m T.trail T).sizes.take n
        isBv := (replayGo m T.trail T).isBv.take n
        scopeTrailLens := ms
        scopeNumVars := ns } := by
  unfold pop_scope_eh
  rw [h1, h2]

/-- Counterexample state for C4: one pre-existing variable with an empty
bit array. -/
def ceC4State : BvState :=
  { numVars := 1
    bits := [[]]
    wpos := [0]
    zeroOneBits := [[]]
    sizes := [1]
    isBv := [true]
    atoms := []
    coreAssign := fun b => if b = 0 then some true else none
    mergeLog := []
    conflictFlag := false
    propQueue := []
    fixedVarTable := []
    eqProps := []
    diseqs := []
    trail := []
    scopeTrailLens := []
    scopeNumVars := [] }

/-- Counterexample to C4 as stated.  Between a push and the matching
pop, a single `add_bit` on the pre-existing variable 0 leaves variable
0's bit array grown after the pop: `pop_scope_eh` undoes the atom-table
mutation but nothing removes the appended bit from the surviving
variable (`m_bits` is only shrunk to the old variable count), so the bit
arrays are not restored. -/
theorem pop_scope_counterexample :
    (pop_scope_eh (runTOps 1 [TOp.addBitOp 0 ⟨1, false⟩]
        (push_scope_eh ceC4State))).bits ≠ ceC4State.bits ∧
    (pop_scope_eh (runTOps 1 [TOp.addBitOp 0 ⟨1, false⟩]
        (push_scope_eh ceC4State))).atoms = ceC4State.atoms ∧
    (pop_scope_eh (runTOps 1 [TOp.addBitOp 0 ⟨1, false⟩]
        (push_scope_eh ceC4State))).mergeLog = ceC4State.mergeLog := by
  refine ⟨?_, rfl, rfl⟩
  intro h
  exact absurd h (by decide)

/-- C4 (amended).  For every sequence of `mk_var`, `add_bit` and merge
operations between a `push_scope_eh` and the matching `pop_scope_eh(1)`,
provided every `add_bit` targets a variable created after the push (as
internalization does), the pop restores the atom table, every
variable's bit array, the union-find merge log, the variable count, the
trail, and the scope stacks to exactly their state at the push.
Without that proviso the appended bit of a pre-push variable survives
the pop (see the counterexample). -/
theorem push_pop_round_trip (fuel : Nat) (S : BvState) (ops : List TOp)
    (hlen : S.bits.length = S.numVars)
    (hok : ∀ op ∈ ops, C4OpOk S.numVars op) :
    (pop_scope_eh (runTOps fuel ops (push_scope_eh S))).atoms = S.atoms ∧
    (pop_scope_eh (runTOps fuel ops (push_scope_eh S))).bits = S.bits ∧
    (pop_scope_eh (runTOps fuel ops (push_scope_eh S))).mergeLog =
      S.mergeLog ∧
    (pop_scope_eh (runTOps fuel ops (push_scope_eh S))).numVars =
      S.numVars ∧
    (pop_scope_eh (runTOps fuel ops (push_scope_eh S))).trail = S.trail ∧
    (pop_scope_eh (runTOps fuel ops (push_scope_eh S))).scopeTrailLens =
      S.scopeTrailLens ∧
    (pop_scope_eh (runTOps fuel ops (push_scope_eh S))).scopeNumVars =
      S.scopeNumVars := by
  have hbase : C4Inv S.numVars (push_scope_eh S) (push_scope_eh S) := by
    refine ⟨restores_refl _, ?_, ?_, rfl, rfl⟩
    · show S.bits.take S.numVars = S.bits
      rw [← hlen]
      exact List.take_length S.bits
    · show S.numVars ≤ S.bits.length
      omega
  have hinv := c4_run fuel S.numVars ops (push_scope_eh S) hok
    (push_scope_eh S) hbase
  obtain ⟨⟨hr1, hr2, hr3, hr4⟩, htk, hln, hs1, hs2⟩ := hinv
  have hmm : (runTOps fuel ops (push_scope_eh S)).scopeTrailLens =
      S.trail.length :: S.scopeTrailLens := hs1
  have hnn : (runTOps fuel ops (push_scope_eh S)).scopeNumVars =
      S.numVars :: S.scopeNumVars := hs2
  rw [pop_scope_eh_eq _ S.trail.length S.numVars S.scopeTrailLens
    S.scopeNumVars hmm hnn]
  have hbl : (push_scope_eh S).trail.length = S.trail.length := rfl
  rw [hbl] at hr2 hr3 hr4
  have hkeep := replayGo_keeps S.trail.length
    (runTOps fuel ops (push_scope_eh S)).trail
    (runTOps fuel ops (push_scope_eh S))
  refine ⟨hr2, ?_, hr3, rfl, hr4, rfl, rfl⟩
  show (replayGo S.trail.length (runTOps fuel ops (push_scope_eh S)).trail
      (runTOps fuel ops (push_scope_eh S))).bits.take S.numVars = S.bits
  rw [hkeep.1]
  exact htk

/-- A structured run: a primitive theory operation or a scope
(`push_scope_eh`, inner operations, matching `pop_scope_eh(1)`). -/
inductive SOp where
  | prim (op : TOp) : SOp
  | block (seq : List SOp) : SOp

mutual

/-- Run one structured operation. -/
def runSOp (fuel : Nat) : SOp → BvState → BvState
  | SOp.prim op, S => runTOp fuel S op
  | SOp.block seq, S => pop_scope_eh (runSSeq fuel seq (push_scope_eh S))

/-- Run a structured sequence. -/
def runSSeq (fuel : Nat) : List SOp → BvState → BvState
  | [], S => S
  | op :: rest, S => runSSeq fuel rest (runSOp fuel op S)

end

/-- Preconditions under which the source performs each primitive
operation: `add_bit` only on a variable still in a singleton class
(variables are bit-filled during their own internalization, before any
merge can reach them), and merges only between variables of equal bit
width (the core merges equal-sort terms; `merge_eh` asserts it). -/
def validTOp (T : BvState) : TOp → Prop
  | TOp.mkVarOp _ _ => True
  | TOp.addBitOp v _ => v < T.numVars ∧
      (∀ w, w < T.numVars → w ≠ v → rootOf T w ≠ rootOf T v)
  | TOp.mergeEhOp v1 v2 => v1 < T.numVars ∧ v2 < T.numVars ∧
      (bitsOf T v1).length = (bitsOf T v2).length

mutual

/-- Validity of a structured operation at a state. -/
def validSOp (fuel : Nat) (T : BvState) : SOp → Prop
  | SOp.prim op => validTOp T op
  | SOp.block seq => validSSeq fuel (push_scope_eh T) seq

/-- Validity of a structured sequence at a state. -/
def validSSeq (fuel : Nat) (T : BvState) : List SOp → Prop
  | [] => True
  | op :: rest => validSOp fuel T op ∧
      validSSeq fuel (runSOp fuel op T) rest

end

/-- C7's invariant: variables in the same equivalence class have bit
arrays of equal length. -/
def WidthInv (T : BvState) : Prop :=
  ∀ v1, v1 < T.numVars → ∀ v2, v2 < T.numVars →
    rootOf T v1 = rootOf T v2 →
    (bitsOf T v1).length = (bitsOf T v2).length

/-- Structural well-formedness carried through runs: the bits array has
one entry per variable, the merge log references live variables, and
the width invariant holds. -/
def WF7 (T : BvState) : Prop :=
  T.bits.length = T.numVars ∧
  (∀ p ∈ T.mergeLog, p.1 < T.numVars ∧ p.2 < T.numVars) ∧
  WidthInv T

/-- The merge pairs recorded in a trail segment, newest first. -/
def unmergePairsOf (tr : List TrailEntry) : List (TVar × TVar) :=
  tr.filterMap (fun e => match e with
    | TrailEntry.unmergeTrail r1 r2 => some (r1, r2)
    | _ => none)

/-- What a completed structured run guarantees relative to its start. -/
def SRunOk (T T' : BvState) : Prop :=
  WF7 T' ∧ T.numVars ≤ T'.numVars ∧
  (∃ extra, T'.trail = extra ++ T.trail ∧
    T'.mergeLog = T.mergeLog ++ (unmergePairsOf extra).reverse) ∧
  T'.scopeTrailLens = T.scopeTrailLens ∧
  T'.scopeNumVars = T.scopeNumVars

theorem srunOk_trans {T T' T'' : BvState} (h1 : SRunOk T T')
    (h2 : SRunOk T' T'') : SRunOk T T'' := by
  obtain ⟨hw1, hn1, ⟨e1, ht1, hl1⟩, hs1, hs1'⟩ := h1
  obtain ⟨hw2, hn2, ⟨e2, ht2, hl2⟩, hs2, hs2'⟩ := h2
  refine ⟨hw2, Nat.le_trans hn1 hn2, ⟨e2 ++ e1, ?_, ?_⟩,
    hs2.trans hs1, hs2'.trans hs1'⟩
  · rw [ht2, ht1, List.append_assoc]
  · rw [hl2, hl1, List.append_assoc]
    congr 1
    show (unmergePairsOf e1).reverse ++ (unmergePairsOf e2).reverse =
      (unmergePairsOf (e2 ++ e1)).reverse
    rw [show unmergePairsOf (e2 ++ e1) =
        unmergePairsOf e2 ++ unmergePairsOf e1 from
      List.filterMap_append e2 e1 _]
    rw [List.reverse_append]

theorem findOf_append (l1 l2 : List (TVar × TVar)) (v : TVar) :
    findOf (l1 ++ l2) v = findOf l2 (findOf l1 v) := by
  unfold findOf
  rw [List.foldl_append]

theorem findOf_lt (log : List (TVar × TVar)) (n : Nat) :
    ∀ v, (∀ p ∈ log, p.1 < n) → v < n → findOf log v < n := by
  induction log with
  | nil => intro v _ hv; exact hv
  | cons p rest ih =>
    intro v hall hv
    show findOf (p :: rest) v < n
    unfold findOf
    rw [List.foldl_cons]
    apply ih
    · intro q hq
      exact hall q (List.mem_cons_of_mem _ hq)
    · by_cases h : v = p.2
      · rw [if_pos h]
        exact hall p (List.mem_cons_self p rest)
      · rw [if_neg h]
        exact hv

theorem findOf_fresh (log : List (TVar × TVar)) :
    ∀ v, (∀ p ∈ log, p.2 ≠ v) → findOf log v = v := by
  induction log with
  | nil => intro v _; rfl
  | cons p rest ih =>
    intro v hall
    show findOf (p :: rest) v = v
    unfold findOf
    rw [List.foldl_cons]
    rw [if_neg fun h => hall p (List.mem_cons_self p rest) h.symm]
    exact ih v fun q hq => hall q (List.mem_cons_of_mem _ hq)

theorem getD_append_lt {α : Type} (l1 l2 : List α) (i : Nat) (d : α)
    (h : i < l1.length) : (l1 ++ l2).getD i d = l1.getD i d := by
  rw [List.getD_eq_getElem?_getD, List.getD_eq_getElem?_getD,
    List.getElem?_append_left h]

theorem getD_take_lt {α : Type} (l : List α) (n i : Nat) (d : α)
    (h : i < n) : (l.take n).getD i d = l.getD i d := by
  induction l generalizing n i with
  | nil => simp
  | cons x xs ih =>
    cases n with
    | zero => omega
    | succ n =>
      cases i with
      | zero => simp
      | succ i =>
        simp only [List.take_succ_cons, List.getD_cons_succ]
        exact ih n i (by omega)

theorem findOf_single (a b v : TVar) :
    findOf [(a, b)] v = if v = b then a else v := rfl

theorem add_bit_mergeLog (S : BvState) (v : TVar) (l : Lit) :
    (add_bit S v l).mergeLog = S.mergeLog := by
  unfold add_bit
  repeat' split
  all_goals rfl

theorem add_bit_numVars (S : BvState) (v : TVar) (l : Lit) :
    (add_bit S v l).numVars = S.numVars := by
  unfold add_bit
  repeat' split
  all_goals rfl

theorem bitsOf_add_bit_ne (S : BvState) (v w : TVar) (l : Lit)
    (hw : w ≠ v) : bitsOf (add_bit S v l) w = bitsOf S w := by
  show ((add_bit S v l).bits).getD w [] = (S.bits).getD w []
  rw [add_bit_bits]
  rw [List.getD_eq_getElem?_getD, List.getElem?_set_ne (Ne.symm hw),
    ← List.getD_eq_getElem?_getD]

theorem wf7_push (T : BvState) (h : WF7 T) : WF7 (push_scope_eh T) := h

theorem srunOk_of_wf (T : BvState) (h : WF7 T) : SRunOk T T :=
  ⟨h, Nat.le_refl _, ⟨[], rfl, by simp [unmergePairsOf]⟩, rfl, rfl⟩

theorem replayGo_unwind (extra : List TrailEntry) :
    ∀ (base : List TrailEntry) (S : BvState) (L : List (TVar × TVar)),
      S.mergeLog = L ++ (unmergePairsOf extra).reverse →
      (replayGo base.length (extra ++ base) S).mergeLog = L ∧
      (replayGo base.length (extra ++ base) S).trail = base := by
  induction extra with
  | nil =>
    intro base S L h
    rw [List.nil_append, replayGo_stop _ _ _ (Nat.le_refl _)]
    refine ⟨?_, rfl⟩
    show S.mergeLog = L
    simpa [unmergePairsOf] using h
  | cons e rest ih =>
    intro base S L h
    rw [List.cons_append, replayGo_cons _ e _ S (by simp)]
    apply ih
    cases e with
    | mkAtomTrail b =>
      show S.mergeLog = L ++ (unmergePairsOf rest).reverse
      exact h
    | addVarPosTrail b =>
      show S.mergeLog = L ++ (unmergePairsOf rest).reverse
      exact h
    | unmergeTrail r1 r2 =>
      show S.mergeLog.dropLast = L ++ (unmergePairsOf rest).reverse
      rw [h]
      have hup : (unmergePairsOf
          (TrailEntry.unmergeTrail r1 r2 :: rest)).reverse =
          (unmergePairsOf rest).reverse ++ [(r1, r2)] := by
        show ((r1, r2) :: unmergePairsOf rest).reverse = _
        rw [List.reverse_cons]
      rw [hup, ← List.append_assoc]
      exact List.dropLast_concat

theorem srunOk_mk_var (T : BvState) (w : Nat) (bv : Bool) (h : WF7 T) :
    SRunOk T (mk_var T w bv) := by
  obtain ⟨hlen, hrefs, hwi⟩ := h
  refine ⟨⟨?_, ?_, ?_⟩, ?_, ⟨[], rfl, ?_⟩, rfl, rfl⟩
  · show (T.bits ++ [[]]).length = T.numVars + 1
    simp [hlen]
  · intro p hp
    have hh := hrefs p hp
    show p.1 < T.numVars + 1 ∧ p.2 < T.numVars + 1
    exact ⟨Nat.lt_succ_of_lt hh.1, Nat.lt_succ_of_lt hh.2⟩
  · intro v1 hv1 v2 hv2 hroot
    have hv1' : v1 < T.numVars + 1 := hv1
    have hv2' : v2 < T.numVars + 1 := hv2
    have hroot2 : rootOf T v1 = rootOf T v2 := hroot
    have hb : ∀ x, x < T.numVars →
        bitsOf (mk_var T w bv) x = bitsOf T x := by
      intro x hx
      show (T.bits ++ [[]]).getD x [] = T.bits.getD x []
      exact getD_append_lt _ _ x [] (by omega)
    have hnew : rootOf T T.numVars = T.numVars :=
      findOf_fresh T.mergeLog T.numVars
        (fun p hp => Nat.ne_of_lt (hrefs p hp).2)
    have hlow : ∀ x, x < T.numVars → rootOf T x < T.numVars := by
      intro x hx
      exact findOf_lt T.mergeLog T.numVars x
        (fun p hp => (hrefs p hp).1) hx
    by_cases h1 : v1 < T.numVars
    · by_cases h2 : v2 < T.numVars
      · show (bitsOf (mk_var T w bv) v1).length =
          (bitsOf (mk_var T w bv) v2).length
        rw [hb v1 h1, hb v2 h2]
        exact hwi v1 h1 v2 h2 hroot2
      · exfalso
        have hv2n : v2 = T.numVars := by omega
        rw [hv2n, hnew] at hroot2
        have := hlow v1 h1
        exact absurd hroot2 (Nat.ne_of_lt this)
    · by_cases h2 : v2 < T.numVars
      · exfalso
        have hv1n : v1 = T.numVars := by omega
        rw [hv1n, hnew] at hroot2
        have := hlow v2 h2
        exact absurd hroot2.symm (Nat.ne_of_lt this)
      · have hvv : v1 = v2 := by omega
        rw [hvv]
  · show T.numVars ≤ T.numVars + 1
    omega
  · show T.mergeLog = T.mergeLog ++ (unmergePairsOf []).reverse
    simp [unmergePairsOf]

theorem srunOk_add_bit (T : BvState) (v : TVar) (l : Lit)
    (h : WF7 T) (hv : v < T.numVars)
    (hsing : ∀ w, w < T.numVars → w ≠ v → rootOf T w ≠ rootOf T v) :
    SRunOk T (add_bit T v l) := by
  obtain ⟨hlen, hrefs, hwi⟩ := h
  have hnv : (add_bit T v l).numVars = T.numVars := add_bit_numVars T v l
  have hml : (add_bit T v l).mergeLog = T.mergeLog := add_bit_mergeLog T v l
  have hroot : ∀ x, rootOf (add_bit T v l) x = rootOf T x := by
    intro x
    show findOf (add_bit T v l).mergeLog x = findOf T.mergeLog x
    rw [hml]
  have hwf : WF7 (add_bit T v l) := by
    refine ⟨?_, ?_, ?_⟩
    · rw [add_bit_bits, List.length_set, hlen, hnv]
    · intro p hp
      rw [hml] at hp
      rw [hnv]
      exact hrefs p hp
    · intro v1 hv1 v2 hv2 hr12
      rw [hroot v1, hroot v2] at hr12
      rw [hnv] at hv1 hv2
      by_cases h1 : v1 = v
      · by_cases h2 : v2 = v
        · rw [h1, h2]
        · subst h1
          exact absurd hr12.symm (hsing v2 hv2 h2)
      · by_cases h2 : v2 = v
        · subst h2
          exact absurd hr12 (hsing v1 hv1 h1)
        · rw [bitsOf_add_bit_ne T v v1 l h1, bitsOf_add_bit_ne T v v2 l h2]
          exact hwi v1 hv1 v2 hv2 hr12
  obtain ⟨hst1, hst2⟩ := add_bit_stacks T v l
  refine ⟨hwf, Nat.le_of_eq hnv.symm, ?_, hst1, hst2⟩
  rcases add_bit_shapes T v l with ⟨-, -, ht, -⟩ | ⟨-, ht, -⟩ | ⟨-, ht, -⟩
  · exact ⟨[], by rw [ht, List.nil_append],
      by rw [hml]; simp [unmergePairsOf]⟩
  · exact ⟨[TrailEntry.addVarPosTrail l.bvar],
      by rw [ht, List.singleton_append],
      by rw [hml]; simp [unmergePairsOf]⟩
  · exact ⟨[TrailEntry.mkAtomTrail l.bvar],
      by rw [ht, List.singleton_append],
      by rw [hml]; simp [unmergePairsOf]⟩

theorem srunOk_mergeOp (fuel : Nat) (T : BvState) (v1 v2 : TVar)
    (h : WF7 T) (hv1 : v1 < T.numVars) (hv2 : v2 < T.numVars)
    (hw : (bitsOf T v1).length = (bitsOf T v2).length) :
    SRunOk T (mergeOp fuel T v1 v2).1 := by
  obtain ⟨hlen, hrefs, hwi⟩ := h
  have hr1lt : rootOf T v1 < T.numVars :=
    findOf_lt T.mergeLog T.numVars v1 (fun p hp => (hrefs p hp).1) hv1
  have hr2lt : rootOf T v2 < T.numVars :=
    findOf_lt T.mergeLog T.numVars v2 (fun p hp => (hrefs p hp).1) hv2
  unfold mergeOp
  split
  · exact srunOk_of_wf T ⟨hlen, hrefs, hwi⟩
  obtain ⟨hnv, hbits, hsizes, hisbv, hatoms, hlog, htrail, hstl, hsnv⟩ :=
    skel_merge_eh fuel
      { T with
        mergeLog := T.mergeLog ++ [(rootOf T v1, rootOf T v2)]
        trail := TrailEntry.unmergeTrail (rootOf T v1) (rootOf T v2)
          :: T.trail }
      (rootOf T v1) (rootOf T v2) v1 v2
  have hrootM : ∀ x,
      rootOf (merge_eh fuel
        { T with
          mergeLog := T.mergeLog ++ [(rootOf T v1, rootOf T v2)]
          trail := TrailEntry.unmergeTrail (rootOf T v1) (rootOf T v2)
            :: T.trail }
        (rootOf T v1) (rootOf T v2) v1 v2).1 x =
      if rootOf T x = rootOf T v2 then rootOf T v1 else rootOf T x := by
    intro x
    show findOf _ x = _
    rw [hlog]
    show findOf (T.mergeLog ++ [(rootOf T v1, rootOf T v2)]) x = _
    rw [findOf_append, findOf_single]
    rfl
  have hbitsM : ∀ z,
      bitsOf (merge_eh fuel
        { T with
          mergeLog := T.mergeLog ++ [(rootOf T v1, rootOf T v2)]
          trail := TrailEntry.unmergeTrail (rootOf T v1) (rootOf T v2)
            :: T.trail }
        (rootOf T v1) (rootOf T v2) v1 v2).1 z = bitsOf T z := by
    intro z
    show (_ : BvState).bits.getD z [] = T.bits.getD z []
    rw [hbits]
  refine ⟨⟨?_, ?_, ?_⟩, ?_,
    ⟨[TrailEntry.unmergeTrail (rootOf T v1) (rootOf T v2)], ?_, ?_⟩,
    ?_, ?_⟩
  · rw [hbits, hnv]
    exact hlen
  · intro p hp
    rw [hlog] at hp
    have hp2 : p ∈ T.mergeLog ++ [(rootOf T v1, rootOf T v2)] := hp
    rw [hnv]
    rcases List.mem_append.1 hp2 with hmem | hmem
    · exact hrefs p hmem
    · have hpe : p = (rootOf T v1, rootOf T v2) :=
        List.mem_singleton.1 hmem
      rw [hpe]
      exact ⟨hr1lt, hr2lt⟩
  · intro x hx y hy hrxy
    rw [hnv] at hx hy
    have hx' : x < T.numVars := hx
    have hy' : y < T.numVars := hy
    rw [hrootM x, hrootM y] at hrxy
    rw [hbitsM x, hbitsM y]
    by_cases cx : rootOf T x = rootOf T v2
    · rw [if_pos cx] at hrxy
      by_cases cy : rootOf T y = rootOf T v2
      · exact hwi x hx' y hy' (cx.trans cy.symm)
      · rw [if_neg cy] at hrxy
        calc (bitsOf T x).length
            = (bitsOf T v2).length := hwi x hx' v2 hv2 cx
          _ = (bitsOf T v1).length := hw.symm
          _ = (bitsOf T y).length := hwi v1 hv1 y hy' hrxy
    · rw [if_neg cx] at hrxy
      by_cases cy : rootOf T y = rootOf T v2
      · rw [if_pos cy] at hrxy
        calc (bitsOf T x).length
            = (bitsOf T v1).length := hwi x hx' v1 hv1 hrxy
          _ = (bitsOf T v2).length := hw
          _ = (bitsOf T y).length := hwi v2 hv2 y hy' cy.symm
      · rw [if_neg cy] at hrxy
        exact hwi x hx' y hy' hrxy
  · rw [hnv]
  · rw [htrail]
    rfl
  · rw [hlog]
    show T.mergeLog ++ [(rootOf T v1, rootOf T v2)] =
      T.mergeLog ++ (unmergePairsOf
        [TrailEntry.unmergeTrail (rootOf T v1) (rootOf T v2)]).reverse
    simp [unmergePairsOf]
  · rw [hstl]
  · rw [hsnv]

theorem srunOk_popped (T T' R : BvState)
    (hwfT : WF7 T) (hwfT' : WF7 T') (hnum : T.numVars ≤ T'.numVars)
    (P : List (TVar × TVar)) (hlogT' : T'.mergeLog = T.mergeLog ++ P)
    (hRn : R.numVars = T.numVars)
    (hRb : R.bits = T'.bits.take T.numVars)
    (hRl : R.mergeLog = T.mergeLog)
    (hRt : R.trail = T.trail)
    (hRs1 : R.scopeTrailLens = T.scopeTrailLens)
    (hRs2 : R.scopeNumVars = T.scopeNumVars) :
    SRunOk T R := by
  obtain ⟨hlen, hrefs, hwi⟩ := hwfT
  obtain ⟨hlen', hrefs', hwi'⟩ := hwfT'
  refine ⟨⟨?_, ?_, ?_⟩, ?_, ⟨[], by rw [hRt, List.nil_append],
    by rw [hRl]; simp [unmergePairsOf]⟩, hRs1, hRs2⟩
  · rw [hRb, hRn, List.length_take, hlen']
    exact Nat.min_eq_left hnum
  · intro p hp
    rw [hRl] at hp
    rw [hRn]
    exact hrefs p hp
  · intro x hx y hy hrxy
    rw [hRn] at hx hy
    have hroots : ∀ z, rootOf R z = rootOf T z := by
      intro z
      show findOf R.mergeLog z = findOf T.mergeLog z
      rw [hRl]
    rw [hroots x, hroots y] at hrxy
    have hT' : rootOf T' x = rootOf T' y := by
      show findOf T'.mergeLog x = findOf T'.mergeLog y
      rw [hlogT', findOf_append, findOf_append]
      show findOf P (rootOf T x) = findOf P (rootOf T y)
      rw [hrxy]
    have hbz : ∀ z, z < T.numVars → bitsOf R z = bitsOf T' z := by
      intro z hz
      show R.bits.getD z [] = T'.bits.getD z []
      rw [hRb]
      exact getD_take_lt T'.bits T.numVars z [] hz
    rw [hbz x hx, hbz y hy]
    exact hwi' x (Nat.lt_of_lt_of_le hx hnum) y
      (Nat.lt_of_lt_of_le hy hnum) hT'
  · rw [hRn]

theorem srunOk_block (fuel : Nat) (T T' : BvState) (h : WF7 T)
    (hrun : SRunOk (push_scope_eh T) T') :
    SRunOk T (pop_scope_eh T') := by
  obtain ⟨hwfT', hnum0, ⟨extra, htr0, hlog0⟩, hstl0, hsnv0⟩ := hrun
  have hstl' : T'.scopeTrailLens = T.trail.length :: T.scopeTrailLens :=
    hstl0
  have hsnv' : T'.scopeNumVars = T.numVars :: T.scopeNumVars := hsnv0
  have htr' : T'.trail = extra ++ T.trail := htr0
  have hlog' : T'.mergeLog = T.mergeLog ++ (unmergePairsOf extra).reverse :=
    hlog0
  have hnum : T.numVars ≤ T'.numVars := hnum0
  have hkeep := replayGo_keeps T.trail.length T'.trail T'
  have hun : (replayGo T.trail.length T'.trail T').mergeLog = T.mergeLog ∧
      (replayGo T.trail.length T'.trail T').trail = T.trail := by
    rw [htr']
    exact replayGo_unwind extra T.trail T' T.mergeLog hlog'
  rw [pop_scope_eh_eq T' T.trail.length T.numVars T.scopeTrailLens
    T.scopeNumVars hstl' hsnv']
  refine srunOk_popped T T' _ h hwfT' hnum
    ((unmergePairsOf extra).reverse) hlog' rfl ?_ ?_ ?_ rfl rfl
  · show (replayGo T.trail.length T'.trail T').bits.take T.numVars =
      T'.bits.take T.numVars
    rw [hkeep.1]
  · exact hun.1
  · exact hun.2

mutual

theorem srun_ok_op (fuel : Nat) : ∀ (op : SOp) (T : BvState),
    WF7 T → validSOp fuel T op → SRunOk T (runSOp fuel op T)
  | SOp.prim top, T, hwf, hval => by
    cases top with
    | mkVarOp w bv => exact srunOk_mk_var T w bv hwf
    | addBitOp v l =>
      exact srunOk_add_bit T v l hwf hval.1 hval.2
    | mergeEhOp v1 v2 =>
      exact srunOk_mergeOp fuel T v1 v2 hwf hval.1 hval.2.1 hval.2.2
  | SOp.block seq, T, hwf, hval => by
    have hinner := srun_ok_seq fuel seq (push_scope_eh T)
      (wf7_push T hwf) hval
    exact srunOk_block fuel T _ hwf hinner

theorem srun_ok_seq (fuel : Nat) : ∀ (seq : List SOp) (T : BvState),
    WF7 T → validSSeq fuel T seq → SRunOk T (runSSeq fuel seq T)
  | [], T, hwf, _ => srunOk_of_wf T hwf
  | op :: rest, T, hwf, hval => by
    have h1 := srun_ok_op fuel op T hwf hval.1
    have h2 := srun_ok_seq fuel rest (runSOp fuel op T) h1.1 hval.2
    exact srunOk_trans h1 h2

end

/-- The empty theory state before any variable is created. -/
def initState : BvState :=
  { numVars := 0, bits := [], wpos := [], zeroOneBits := [], sizes := [],
    isBv := [], atoms := [], coreAssign := fun _ => none, mergeLog := [],
    conflictFlag := false, propQueue := [], fixedVarTable := [],
    eqProps := [], diseqs := [], trail := [], scopeTrailLens := [],
    scopeNumVars := [] }

theorem wf7_init : WF7 initState :=
  ⟨rfl, fun p hp => absurd hp (List.not_mem_nil p),
    fun v1 h1 => absurd h1 (Nat.not_lt_zero v1)⟩

/-- C7.  Width invariant: any two theory variables in the same
equivalence class have bit arrays of equal length
(`len(v1.bits) == len(v2.bits)` whenever `v1` and `v2` share a root),
and this is preserved by every operation of a structured run from a
well-formed state — variable internalization (`mk_var`), `add_bit`,
core-driven merges (`merge_eh`), and scoped blocks whose pop replays
the unmerge trail (`pop_scope_eh`). -/
theorem width_invariant_preserved (fuel : Nat) (seq : List SOp)
    (T : BvState) (h : WF7 T) (hval : validSSeq fuel T seq) :
    WidthInv (runSSeq fuel seq T) :=
  (srun_ok_seq fuel seq T h hval).1.2.2

theorem width_invariant_preserved_witness :
    WF7 initState ∧
      validSSeq 1 initState [SOp.prim (TOp.mkVarOp 4 true),
        SOp.prim (TOp.mkVarOp 4 true),
        SOp.block [SOp.prim (TOp.mergeEhOp 0 1)]] ∧
      WidthInv (runSSeq 1 [SOp.prim (TOp.mkVarOp 4 true),
        SOp.prim (TOp.mkVarOp 4 true),
        SOp.block [SOp.prim (TOp.mergeEhOp 0 1)]] initState) :=
  ⟨wf7_init,
    ⟨trivial, trivial, ⟨⟨by decide, by decide, rfl⟩, trivial⟩, trivial⟩,
    width_invariant_preserved 1
      [SOp.prim (TOp.mkVarOp 4 true), SOp.prim (TOp.mkVarOp 4 true),
        SOp.block [SOp.prim (TOp.mergeEhOp 0 1)]] initState wf7_init
      ⟨trivial, trivial, ⟨⟨by decide, by decide, rfl⟩, trivial⟩, trivial⟩⟩

/-- One core assignment extends another: every defined value is kept.
Core assignments within a callback only grow (`ctx.assign` on an
undefined literal). -/
def ExtAssign (a a' : Assignment) : Prop :=
  ∀ b x, a b = some x → a' b = some x

theorem extAssign_refl (a : Assignment) : ExtAssign a a := fun _ _ h => h

theorem extAssign_trans {a b c : Assignment} (h1 : ExtAssign a b)
    (h2 : ExtAssign b c) : ExtAssign a c :=
  fun v x h => h2 v x (h1 v x h)

theorem litVal_mono {a a' : Assignment} (h : ExtAssign a a') (l : Lit)
    {x : Bool} (hv : litVal a l = some x) : litVal a' l = some x := by
  unfold litVal at hv ⊢
  cases he : a l.bvar with
  | none =>
    rw [he] at hv
    have hv2 : (none : Option Bool) = some x := hv
    exact Option.noConfusion hv2
  | some b =>
    rw [he] at hv
    rw [h l.bvar b he]
    exact hv

theorem litVal_mono_ne {a a' : Assignment} (h : ExtAssign a a') (l : Lit)
    (hv : litVal a l ≠ none) : litVal a' l ≠ none := by
  cases he : litVal a l with
  | none => exact absurd he hv
  | some x => rw [litVal_mono h l he]; exact Option.noConfusion

theorem fixed_var_eh_extra (S : BvState) (v : TVar) :
    (fixed_var_eh S v).coreAssign = S.coreAssign ∧
    (fixed_var_eh S v).propQueue = S.propQueue ∧
    (fixed_var_eh S v).conflictFlag = S.conflictFlag ∧
    (fixed_var_eh S v).diseqs = S.diseqs := by
  unfold fixed_var_eh
  repeat' split
  all_goals exact ⟨rfl, rfl, rfl, rfl⟩

theorem find_wpos_extra (S : BvState) (v : TVar) :
    (find_wpos S v).coreAssign = S.coreAssign ∧
    (find_wpos S v).propQueue = S.propQueue ∧
    (find_wpos S v).conflictFlag = S.conflictFlag ∧
    (find_wpos S v).diseqs = S.diseqs := by
  unfold find_wpos
  repeat' split
  all_goals first
    | exact ⟨rfl, rfl, rfl, rfl⟩
    | exact ⟨(fixed_var_eh_extra _ v).1, (fixed_var_eh_extra _ v).2.1,
        (fixed_var_eh_extra _ v).2.2.1, (fixed_var_eh_extra _ v).2.2.2⟩

theorem ctxAssign_core (S : BvState) (l : Lit) :
    ExtAssign S.coreAssign (ctxAssign S l).coreAssign := by
  unfold ctxAssign
  split
  · exact extAssign_refl _
  · exact extAssign_refl _
  next hnone =>
    intro b x h
    show (fun b => if b = l.bvar then some (!l.sign) else S.coreAssign b) b
      = some x
    by_cases hb : b = l.bvar
    · exfalso
      have hn : S.coreAssign l.bvar = none := litVal_eq_none.1 hnone
      rw [hb, hn] at h
      exact Option.noConfusion h
    · simp only [if_neg hb]
      exact h

theorem ctxAssign_queue (S : BvState) (l : Lit) :
    (ctxAssign S l).propQueue = S.propQueue := by
  unfold ctxAssign
  repeat' split
  all_goals rfl

theorem ctxAssign_diseqs (S : BvState) (l : Lit) :
    (ctxAssign S l).diseqs = S.diseqs := by
  unfold ctxAssign
  repeat' split
  all_goals rfl

theorem ctxAssign_flag_mono (S : BvState) (l : Lit)
    (h : S.conflictFlag = true) : (ctxAssign S l).conflictFlag = true := by
  unfold ctxAssign
  repeat' split
  all_goals first | exact h | rfl

theorem ctxAssign_flag_of_not_false (S : BvState) (l : Lit)
    (h : litv S l ≠ some false) :
    (ctxAssign S l).conflictFlag = S.conflictFlag := by
  unfold ctxAssign
  split
  · rfl
  next hf => exact absurd hf h
  · rfl

theorem ctxAssign_changed (S : BvState) (l l2 : Lit)
    (h : l2.bvar ≠ l.bvar) : litv (ctxAssign S l) l2 = litv S l2 := by
  unfold ctxAssign
  split
  · rfl
  · rfl
  · show litVal
        (fun b => if b = l.bvar then some (!l.sign) else S.coreAssign b) l2
      = litVal S.coreAssign l2
    unfold litVal
    simp only [if_neg h]

theorem ctxAssign_set (S : BvState) (l : Lit) (h : litv S l = none) :
    litv (ctxAssign S l) l = some true := by
  unfold ctxAssign
  rw [h]
  show litVal
      (fun b => if b = l.bvar then some (!l.sign) else S.coreAssign b) l
    = some true
  unfold litVal
  simp only [if_pos rfl]
  cases l.sign <;> simp

/-- A live disagreement: two class members whose bits at `i` currently
evaluate differently in the core. -/
def Disag (S : BvState) (w1 w2 : TVar) (i : Nat) : Prop :=
  w1 < S.numVars ∧ w2 < S.numVars ∧ rootOf S w1 = rootOf S w2 ∧
  i < (bitsOf S w1).length ∧
  litv S ((bitsOf S w1).getD i trueLit) ≠
    litv S ((bitsOf S w2).getD i trueLit)

/-- The queue holds an assigned entry for class `r` at index `i`. -/
def QWitness (S : BvState) (r : TVar) (i : Nat) : Prop :=
  ∃ u, (u, i) ∈ S.propQueue ∧ rootOf S u = r ∧
    litv S ((bitsOf S u).getD i trueLit) ≠ none

/-- Every live disagreement is covered by a queue entry that will
propagate over its class at its index. -/
def Cov (S : BvState) : Prop :=
  ∀ w1 w2 i, Disag S w1 w2 i → QWitness S (rootOf S w1) i

/-- Queue entries point at assigned bits (they are pushed when their
bool var is assigned). -/
def QA (S : BvState) : Prop :=
  ∀ e ∈ S.propQueue, litv S ((bitsOf S e.1).getD e.2 trueLit) ≠ none

/-- C1's conclusion: the bits of same-class variables agree at every
index under the core assignment. -/
def AgreeB (S : BvState) : Prop :=
  ∀ w1 w2, w1 < S.numVars → w2 < S.numVars →
    rootOf S w1 = rootOf S w2 →
    ∀ i, i < (bitsOf S w1).length →
      litv S ((bitsOf S w1).getD i trueLit) =
        litv S ((bitsOf S w2).getD i trueLit)

/-- Occurrence soundness: every occurrence `(v, idx)` registered for a
bit atom's bool var `b` points at a bit whose literal is on `b`. -/
def OccSound (S : BvState) : Prop :=
  ∀ b occs, getAtom S b = some occs →
    ∀ o ∈ occs, ((bitsOf S o.1).getD o.2 trueLit).bvar = b

/-- Occurrence completeness: every non-constant bit is registered in the
occurrence list of its bool var's atom (`add_bit` maintains this). -/
def OccComplete (S : BvState) : Prop :=
  ∀ w, w < S.numVars → ∀ i, i < (bitsOf S w).length →
    ((bitsOf S w).getD i trueLit).bvar ≠ 0 →
    ∃ occs,
      getAtom S ((bitsOf S w).getD i trueLit).bvar = some occs ∧
        (w, i) ∈ occs

/-- The well-formedness bundle assumed by the propagation-soundness
claim: the reserved bool var is true, and the occurrence lists are
sound and complete. -/
def WFC1 (S : BvState) : Prop :=
  S.coreAssign 0 = some true ∧ OccSound S ∧ OccComplete S

theorem getAtom_congr (S S' : BvState) (h : S'.atoms = S.atoms)
    (b : Nat) : getAtom S' b = getAtom S b := by
  unfold getAtom
  rw [h]

theorem bitsOf_congr (S S' : BvState) (h : S'.bits = S.bits) (w : TVar) :
    bitsOf S' w = bitsOf S w := by
  unfold bitsOf
  rw [h]

theorem rootOf_congr (S S' : BvState) (h : S'.mergeLog = S.mergeLog)
    (w : TVar) : rootOf S' w = rootOf S w := by
  unfold rootOf
  rw [h]

theorem occSound_of_skel (S S' : BvState) (h : SameSkel S S')
    (ho : OccSound S) : OccSound S' := by
  intro b occs hga o hoo
  rw [getAtom_congr S S' h.2.2.2.2.1 b] at hga
  rw [bitsOf_congr S S' h.2.1 o.1]
  exact ho b occs hga o hoo

theorem occComplete_of_skel (S S' : BvState) (h : SameSkel S S')
    (ho : OccComplete S) : OccComplete S' := by
  intro w hw i hi hb
  rw [h.1] at hw
  rw [bitsOf_congr S S' h.2.1 w] at hi hb ⊢
  obtain ⟨occs, hga, hm⟩ := ho w hw i hi hb
  refine ⟨occs, ?_, hm⟩
  rw [getAtom_congr S S' h.2.2.2.2.1]
  exact hga

theorem litv_ne_none_of_bvar (S : BvState) (l l2 : Lit)
    (h : l2.bvar = l.bvar) (hv : litv S l ≠ none) : litv S l2 ≠ none := by
  have hc : S.coreAssign l.bvar ≠ none :=
    fun hn => hv (litVal_eq_none.2 hn)
  intro hn2
  apply hc
  rw [← h]
  exact litVal_eq_none.1 hn2

theorem assign_push_ok (S S2 : BvState) (c : Lit) (v2 : TVar) (idx : Nat)
    (pe : Bool) (hoccS : OccSound S) (hoccC : OccComplete S)
    (hcore : S2.coreAssign = (ctxAssign S c).coreAssign)
    (hq : S2.propQueue = S.propQueue)
    (hatoms : S2.atoms = S.atoms)
    (hlog : S2.mergeLog = S.mergeLog)
    (hdq : S2.diseqs = S.diseqs)
    (hflag : S2.conflictFlag = (ctxAssign S c).conflictFlag)
    (hres : (assign_bit_push S2 c v2 idx pe).conflictFlag = false) :
    ExtAssign S.coreAssign (assign_bit_push S2 c v2 idx pe).coreAssign ∧
    litv (assign_bit_push S2 c v2 idx pe) c = some true ∧
    (∀ l2 : Lit, l2.bvar ≠ c.bvar →
      litv (assign_bit_push S2 c v2 idx pe) l2 = litv S l2) ∧
    (∃ tail, (assign_bit_push S2 c v2 idx pe).propQueue =
        S.propQueue ++ tail ∧
      (∀ e ∈ tail, litv (assign_bit_push S2 c v2 idx pe)
          ((bitsOf S e.1).getD e.2 trueLit) ≠ none) ∧
      (∀ w i, w < S.numVars → i < (bitsOf S w).length →
        ((bitsOf S w).getD i trueLit).bvar ≠ 0 →
        ((bitsOf S w).getD i trueLit).bvar = c.bvar →
        (pe = true ∨ ¬(rootOf S w = rootOf S v2 ∧ i = idx)) →
        (w, i) ∈ tail)) ∧
    (assign_bit_push S2 c v2 idx pe).diseqs = S.diseqs := by
  have hctxflag : (ctxAssign S c).conflictFlag = false := by
    rw [← hflag]
    exact hres
  have hnotfalse : litv S c ≠ some false := by
    intro hf
    have hfl : (ctxAssign S c).conflictFlag = true := by
      unfold ctxAssign
      rw [hf]
    rw [hfl] at hctxflag
    exact Bool.noConfusion hctxflag
  have hlitc : litv (ctxAssign S c) c = some true := by
    cases hv : litv S c with
    | none => exact ctxAssign_set S c hv
    | some b =>
      cases b with
      | false => exact absurd hv hnotfalse
      | true =>
        have hid : ctxAssign S c = S := by
          unfold ctxAssign
          rw [hv]
        rw [hid]
        exact hv
  have hRcore : (assign_bit_push S2 c v2 idx pe).coreAssign
      = (ctxAssign S c).coreAssign := hcore
  have hlitcR : litv (assign_bit_push S2 c v2 idx pe) c = some true := by
    show litVal (assign_bit_push S2 c v2 idx pe).coreAssign c = some true
    rw [hRcore]
    exact hlitc
  refine ⟨?_, hlitcR, ?_, ?_, hdq⟩
  · show ExtAssign S.coreAssign (assign_bit_push S2 c v2 idx pe).coreAssign
    rw [hRcore]
    exact ctxAssign_core S c
  · intro l2 hl2
    show litVal (assign_bit_push S2 c v2 idx pe).coreAssign l2 = litv S l2
    rw [hRcore]
    exact ctxAssign_changed S c l2 hl2
  · refine ⟨((getAtom S2 c.bvar).getD []).filter
      (fun o => pe || decide (rootOf S2 o.1 ≠ rootOf S2 v2) ||
        decide (o.2 ≠ idx)), ?_, ?_, ?_⟩
    · show S2.propQueue ++ _ = S.propQueue ++ _
      rw [hq]
    · intro e he
      have hel : e ∈ (getAtom S2 c.bvar).getD [] := (List.mem_filter.1 he).1
      cases hga : getAtom S2 c.bvar with
      | none =>
        rw [hga] at hel
        exact absurd hel (List.not_mem_nil e)
      | some occs =>
        rw [hga] at hel
        have hga' : getAtom S c.bvar = some occs := by
          rw [← getAtom_congr S S2 hatoms]
          exact hga
        have hbv : ((bitsOf S e.1).getD e.2 trueLit).bvar = c.bvar :=
          hoccS c.bvar occs hga' e hel
        exact litv_ne_none_of_bvar _ c _ hbv
          (by rw [hlitcR]; exact Option.noConfusion)
    · intro w i hw hi hb0 hbc hex
      obtain ⟨occs, hga, hmem⟩ := hoccC w hw i hi hb0
      rw [hbc] at hga
      have hga2 : getAtom S2 c.bvar = some occs := by
        rw [getAtom_congr S S2 hatoms]
        exact hga
      rw [hga2]
      refine List.mem_filter.2 ⟨hmem, ?_⟩
      rcases hex with hpe | hnot
      · rw [hpe]
        simp
      · by_cases hr : rootOf S w = rootOf S v2
        · have hi2 : i ≠ idx := fun h => hnot ⟨hr, h⟩
          simp [hi2]
        · have hr2 : ¬ rootOf S2 w = rootOf S2 v2 := by
            rw [rootOf_congr S S2 hlog w, rootOf_congr S S2 hlog v2]
            exact hr
          simp [hr2]

theorem assign_bit_ok (S : BvState) (c : Lit) (v1 v2 : TVar) (idx : Nat)
    (ant : Lit) (pe : Bool) (hoccS : OccSound S) (hoccC : OccComplete S)
    (hres : (assign_bit S c v1 v2 idx ant pe).conflictFlag = false) :
    ExtAssign S.coreAssign (assign_bit S c v1 v2 idx ant pe).coreAssign ∧
    litv (assign_bit S c v1 v2 idx ant pe) c = some true ∧
    (∀ l2 : Lit, l2.bvar ≠ c.bvar →
      litv (assign_bit S c v1 v2 idx ant pe) l2 = litv S l2) ∧
    (∃ tail, (assign_bit S c v1 v2 idx ant pe).propQueue =
        S.propQueue ++ tail ∧
      (∀ e ∈ tail, litv (assign_bit S c v1 v2 idx ant pe)
          ((bitsOf S e.1).getD e.2 trueLit) ≠ none) ∧
      (∀ w i, w < S.numVars → i < (bitsOf S w).length →
        ((bitsOf S w).getD i trueLit).bvar ≠ 0 →
        ((bitsOf S w).getD i trueLit).bvar = c.bvar →
        (pe = true ∨ ¬(rootOf S w = rootOf S v2 ∧ i = idx)) →
        (w, i) ∈ tail)) ∧
    (assign_bit S c v1 v2 idx ant pe).diseqs = S.diseqs := by
  by_cases hfl : c = falseLit
  · exfalso
    have hflag : (assign_bit S c v1 v2 idx ant pe).conflictFlag = true := by
      unfold assign_bit
      rw [if_pos hfl]
    rw [hflag] at hres
    exact Bool.noConfusion hres
  · have hab : assign_bit S c v1 v2 idx ant pe =
        assign_bit_push
          (if wposOf (ctxAssign S c) v2 = idx
           then find_wpos (ctxAssign S c) v2
           else ctxAssign S c) c v2 idx pe := by
      unfold assign_bit
      rw [if_neg hfl]
    rw [hab] at hres ⊢
    by_cases hw : wposOf (ctxAssign S c) v2 = idx
    · rw [if_pos hw] at hres ⊢
      exact assign_push_ok S (find_wpos (ctxAssign S c) v2) c v2 idx pe
        hoccS hoccC
        ((find_wpos_extra (ctxAssign S c) v2).1)
        (((find_wpos_extra (ctxAssign S c) v2).2.1).trans
          (ctxAssign_queue S c))
        (((skel_find_wpos (ctxAssign S c) v2).2.2.2.2.1).trans
          ((skel_ctxAssign S c).2.2.2.2.1))
        (((skel_find_wpos (ctxAssign S c) v2).2.2.2.2.2.1).trans
          ((skel_ctxAssign S c).2.2.2.2.2.1))
        (((find_wpos_extra (ctxAssign S c) v2).2.2.2).trans
          (ctxAssign_diseqs S c))
        ((find_wpos_extra (ctxAssign S c) v2).2.2.1)
        hres
    · rw [if_neg hw] at hres ⊢
      exact assign_push_ok S (ctxAssign S c) c v2 idx pe hoccS hoccC rfl
        (ctxAssign_queue S c) ((skel_ctxAssign S c).2.2.2.2.1)
        ((skel_ctxAssign S c).2.2.2.2.2.1) (ctxAssign_diseqs S c) rfl hres

theorem assign_bit_flag_mono (S : BvState) (c : Lit) (v1 v2 : TVar)
    (idx : Nat) (ant : Lit) (pe : Bool) (h : S.conflictFlag = true) :
    (assign_bit S c v1 v2 idx ant pe).conflictFlag = true := by
  unfold assign_bit
  split
  · rfl
  · show (assign_bit_push
        (if wposOf (ctxAssign S c) v2 = idx
         then find_wpos (ctxAssign S c) v2
         else ctxAssign S c) c v2 idx pe).conflictFlag = true
    have h1 : (ctxAssign S c).conflictFlag = true := ctxAssign_flag_mono S c h
    by_cases hw : wposOf (ctxAssign S c) v2 = idx
    · rw [if_pos hw]
      show (find_wpos (ctxAssign S c) v2).conflictFlag = true
      rw [(find_wpos_extra (ctxAssign S c) v2).2.2.1]
      exact h1
    · rw [if_neg hw]
      exact h1

theorem walkAssign_flag_mono (S : BvState) (bit : Lit) (val : Option Bool)
    (v v2 : TVar) (idx : Nat) (h : S.conflictFlag = true) :
    (walkAssign S bit val v v2 idx).conflictFlag = true := by
  unfold walkAssign
  exact assign_bit_flag_mono S _ v v2 idx _ false h

theorem walkAssign_ok (S : BvState) (bit : Lit) (b0 : Bool) (v v2 : TVar)
    (idx : Nat) (hoccS : OccSound S) (hoccC : OccComplete S)
    (hres : (walkAssign S bit (some b0) v v2 idx).conflictFlag = false) :
    ExtAssign S.coreAssign
      (walkAssign S bit (some b0) v v2 idx).coreAssign ∧
    litv (walkAssign S bit (some b0) v v2 idx)
      ((bitsOf S v2).getD idx trueLit) = some b0 ∧
    (∀ l2 : Lit, l2.bvar ≠ ((bitsOf S v2).getD idx trueLit).bvar →
      litv (walkAssign S bit (some b0) v v2 idx) l2 = litv S l2) ∧
    (∃ tail, (walkAssign S bit (some b0) v v2 idx).propQueue =
        S.propQueue ++ tail ∧
      (∀ e ∈ tail, litv (walkAssign S bit (some b0) v v2 idx)
          ((bitsOf S e.1).getD e.2 trueLit) ≠ none) ∧
      (∀ w i, w < S.numVars → i < (bitsOf S w).length →
        ((bitsOf S w).getD i trueLit).bvar ≠ 0 →
        ((bitsOf S w).getD i trueLit).bvar =
          ((bitsOf S v2).getD idx trueLit).bvar →
        ¬(rootOf S w = rootOf S v2 ∧ i = idx) →
        (w, i) ∈ tail)) ∧
    (walkAssign S bit (some b0) v v2 idx).diseqs = S.diseqs := by
  cases b0 with
  | true =>
    have hne : ¬ ((some true : Option Bool) = some false) := by decide
    have hwa : walkAssign S bit (some true) v v2 idx =
        assign_bit S ((bitsOf S v2).getD idx trueLit) v v2 idx bit
          false := by
      unfold walkAssign
      rw [if_neg hne, if_neg hne]
    rw [hwa] at hres ⊢
    obtain ⟨hA, hB, hC, ⟨tail, ht1, ht2, ht3⟩, hE⟩ :=
      assign_bit_ok S ((bitsOf S v2).getD idx trueLit) v v2 idx bit false
        hoccS hoccC hres
    refine ⟨hA, hB, hC, ⟨tail, ht1, ht2, ?_⟩, hE⟩
    intro w i h1 h2 h3 h4 h5
    exact ht3 w i h1 h2 h3 h4 (Or.inr h5)
  | false =>
    have hwa : walkAssign S bit (some false) v v2 idx =
        assign_bit S (lneg ((bitsOf S v2).getD idx trueLit)) v v2 idx
          (lneg bit) false := by
      unfold walkAssign
      rw [if_pos rfl, if_pos rfl]
    rw [hwa] at hres ⊢
    obtain ⟨hA, hB, hC, ⟨tail, ht1, ht2, ht3⟩, hE⟩ :=
      assign_bit_ok S (lneg ((bitsOf S v2).getD idx trueLit)) v v2 idx
        (lneg bit) false hoccS hoccC hres
    have hB2 : litv (assign_bit S (lneg ((bitsOf S v2).getD idx trueLit))
        v v2 idx (lneg bit) false) ((bitsOf S v2).getD idx trueLit) =
        some false := by
      have hmap : (litv (assign_bit S
          (lneg ((bitsOf S v2).getD idx trueLit)) v v2 idx (lneg bit)
          false) ((bitsOf S v2).getD idx trueLit)).map (fun b => !b) =
          some true := by
        show (litVal (assign_bit S
            (lneg ((bitsOf S v2).getD idx trueLit)) v v2 idx (lneg bit)
            false).coreAssign ((bitsOf S v2).getD idx trueLit)).map
            (fun b => !b) = some true
        rw [← litVal_lneg]
        exact hB
      cases hx : litv (assign_bit S
          (lneg ((bitsOf S v2).getD idx trueLit)) v v2 idx
          (lneg bit) false) ((bitsOf S v2).getD idx trueLit) with
      | none =>
        rw [hx] at hmap
        exact absurd hmap (by simp)
      | some x =>
        rw [hx] at hmap
        cases x
        · rfl
        · exact absurd hmap (by simp)
    refine ⟨hA, hB2, ?_, ⟨tail, ht1, ht2, ?_⟩, hE⟩
    · intro l2 hl2
      exact hC l2 hl2
    · intro w i h1 h2 h3 h4 h5
      exact ht3 w i h1 h2 h3 h4 (Or.inr h5)

theorem walkOthers_cons (bit : Lit) (val : Option Bool) (v : TVar)
    (idx : Nat) (w2 : TVar) (rest : List TVar) (S : BvState) :
    walkOthers bit val v idx (w2 :: rest) S =
      if val = litv S ((bitsOf S w2).getD idx trueLit) then
        walkOthers bit val v idx rest S
      else if (walkAssign S bit val v w2 idx).conflictFlag then
        (walkAssign S bit val v w2 idx, true)
      else walkOthers bit val v idx rest
        (walkAssign S bit val v w2 idx) := rfl

theorem walkOthers_ok (bit : Lit) (b0 : Bool) (v : TVar) (idx : Nat) :
    ∀ (ms : List TVar) (S : BvState),
      S.coreAssign 0 = some true → OccSound S → OccComplete S →
      (∀ w ∈ ms, rootOf S w = rootOf S v) →
      (walkOthers bit (some b0) v idx ms S).2 = false →
      (ExtAssign S.coreAssign
          (walkOthers bit (some b0) v idx ms S).1.coreAssign ∧
        (∀ w ∈ ms, litv (walkOthers bit (some b0) v idx ms S).1
            ((bitsOf S w).getD idx trueLit) = some b0) ∧
        (∃ tail, (walkOthers bit (some b0) v idx ms S).1.propQueue =
            S.propQueue ++ tail ∧
          ∀ e ∈ tail, litv (walkOthers bit (some b0) v idx ms S).1
            ((bitsOf S e.1).getD e.2 trueLit) ≠ none) ∧
        (∀ w i, w < S.numVars → i < (bitsOf S w).length →
          litv (walkOthers bit (some b0) v idx ms S).1
              ((bitsOf S w).getD i trueLit) ≠
            litv S ((bitsOf S w).getD i trueLit) →
          ((rootOf S w = rootOf S v ∧ i = idx) ∨
            ((w, i) ∈ (walkOthers bit (some b0) v idx ms S).1.propQueue ∧
              litv (walkOthers bit (some b0) v idx ms S).1
                ((bitsOf S w).getD i trueLit) ≠ none))) ∧
        (walkOthers bit (some b0) v idx ms S).1.diseqs = S.diseqs ∧
        (walkOthers bit (some b0) v idx ms S).1.conflictFlag =
          S.conflictFlag) := by
  intro ms
  induction ms with
  | nil =>
    intro S hc0 hoccS hoccC hms hsnd
    refine ⟨extAssign_refl _, ?_,
      ⟨[], by show S.propQueue = S.propQueue ++ []; simp, ?_⟩,
      ?_, rfl, rfl⟩
    · intro w hw
      exact absurd hw (List.not_mem_nil w)
    · intro e he
      exact absurd he (List.not_mem_nil e)
    · intro w i h1 h2 hch
      exact absurd rfl hch
  | cons w2 rest ih =>
    intro S hc0 hoccS hoccC hms hsnd
    rw [walkOthers_cons] at hsnd ⊢
    by_cases hskip : (some b0 : Option Bool) =
        litv S ((bitsOf S w2).getD idx trueLit)
    · rw [if_pos hskip] at hsnd ⊢
      obtain ⟨rA, rC, ⟨tail, rQ1, rQ2⟩, rD, rE, rF⟩ :=
        ih S hc0 hoccS hoccC
          (fun w hw => hms w (List.mem_cons_of_mem w2 hw)) hsnd
      refine ⟨rA, ?_, ⟨tail, rQ1, rQ2⟩, rD, rE, rF⟩
      intro w hw
      rcases List.mem_cons.1 hw with hw2 | hwr
      · subst hw2
        exact litVal_mono rA _ hskip.symm
      · exact rC w hwr
    · rw [if_neg hskip] at hsnd ⊢
      by_cases hconf : (walkAssign S bit (some b0) v w2 idx).conflictFlag
        = true
      · rw [if_pos hconf] at hsnd
        exact Bool.noConfusion hsnd
      · rw [if_neg hconf] at hsnd ⊢
        have hconf2 : (walkAssign S bit (some b0) v w2 idx).conflictFlag
            = false := by
          cases hcc : (walkAssign S bit (some b0) v w2 idx).conflictFlag
          · rfl
          · exact absurd hcc hconf
        obtain ⟨wA, wB, wC, ⟨tail1, wq1, wq2, wq3⟩, wE⟩ :=
          walkAssign_ok S bit b0 v w2 idx hoccS hoccC hconf2
        have hskelW := skel_walkAssign S bit (some b0) v w2 idx
        have hSflag : S.conflictFlag = false := by
          cases hS : S.conflictFlag
          · rfl
          · have hx := walkAssign_flag_mono S bit (some b0) v w2 idx hS
            rw [hconf2] at hx
            exact Bool.noConfusion hx
        generalize hgen : walkAssign S bit (some b0) v w2 idx = R1
          at wA wB wC wq1 wq2 wq3 wE hskelW hconf2 hsnd ⊢
        have hbitsR1 : ∀ w, bitsOf R1 w = bitsOf S w :=
          fun w => bitsOf_congr S R1 hskelW.2.1 w
        have hrootR1 : ∀ w, rootOf R1 w = rootOf S w :=
          fun w => rootOf_congr S R1 hskelW.2.2.2.2.2.1 w
        have hnvR1 : R1.numVars = S.numVars := hskelW.1
        have hc0R1 : R1.coreAssign 0 = some true := wA 0 true hc0
        have hmsR1 : ∀ w ∈ rest, rootOf R1 w = rootOf R1 v := by
          intro w hw
          rw [hrootR1 w, hrootR1 v]
          exact hms w (List.mem_cons_of_mem w2 hw)
        obtain ⟨rA, rC, ⟨tail2, rQ1, rQ2⟩, rD, rE, rF⟩ :=
          ih R1 hc0R1 (occSound_of_skel S R1 hskelW hoccS)
            (occComplete_of_skel S R1 hskelW hoccC) hmsR1 hsnd
        refine ⟨extAssign_trans wA rA, ?_, ⟨tail1 ++ tail2, ?_, ?_⟩,
          ?_, ?_, ?_⟩
        · intro w hw
          rcases List.mem_cons.1 hw with hw2 | hwr
          · subst hw2
            exact litVal_mono rA _ wB
          · have hx := rC w hwr
            rw [hbitsR1 w] at hx
            exact hx
        · rw [rQ1, wq1, List.append_assoc]
        · intro e he
          rcases List.mem_append.1 he with he1 | he2
          · exact litVal_mono_ne rA _ (wq2 e he1)
          · have hx := rQ2 e he2
            rw [hbitsR1 e.1] at hx
            exact hx
        · intro w i h1 h2 hch
          by_cases hch1 : litv R1 ((bitsOf S w).getD i trueLit) =
              litv S ((bitsOf S w).getD i trueLit)
          · have hch2 : litv (walkOthers bit (some b0) v idx rest R1).1
                ((bitsOf S w).getD i trueLit) ≠
                litv R1 ((bitsOf S w).getD i trueLit) := by
              rw [hch1]
              exact hch
            have h1' : w < R1.numVars := by
              rw [hnvR1]
              exact h1
            have h2' : i < (bitsOf R1 w).length := by
              rw [hbitsR1 w]
              exact h2
            have hrd := rD w i h1' h2' (by rw [hbitsR1 w]; exact hch2)
            rcases hrd with ⟨hr, hi⟩ | ⟨hm, hn⟩
            · refine Or.inl ⟨?_, hi⟩
              rw [hrootR1 w, hrootR1 v] at hr
              exact hr
            · refine Or.inr ⟨hm, ?_⟩
              rw [hbitsR1 w] at hn
              exact hn
          · have hbv : ((bitsOf S w).getD i trueLit).bvar =
                ((bitsOf S w2).getD idx trueLit).bvar := by
              by_contra hne2
              exact hch1 (wC _ hne2)
            have hnone : litv S ((bitsOf S w).getD i trueLit) = none := by
              cases hx : litv S ((bitsOf S w).getD i trueLit) with
              | none => rfl
              | some x =>
                have hr1 : litv R1 ((bitsOf S w).getD i trueLit) =
                    some x := litVal_mono wA _ hx
                exact absurd (hr1.trans hx.symm) hch1
            have hb0' : ((bitsOf S w).getD i trueLit).bvar ≠ 0 := by
              intro h00
              have hz : S.coreAssign
                  ((bitsOf S w).getD i trueLit).bvar = none :=
                litVal_eq_none.1 hnone
              rw [h00, hc0] at hz
              exact Option.noConfusion hz
            by_cases hex : rootOf S w = rootOf S v ∧ i = idx
            · exact Or.inl hex
            · right
              have hexw2 : ¬(rootOf S w = rootOf S w2 ∧ i = idx) := by
                intro hq
                exact hex
                  ⟨hq.1.trans (hms w2 (List.mem_cons_self w2 rest)), hq.2⟩
              have hmem1 : (w, i) ∈ tail1 := wq3 w i h1 h2 hb0' hbv hexw2
              have hmemR1 : (w, i) ∈ R1.propQueue := by
                rw [wq1]
                exact List.mem_append_right S.propQueue hmem1
              have hmemF : (w, i) ∈
                  (walkOthers bit (some b0) v idx rest R1).1.propQueue := by
                rw [rQ1]
                exact List.mem_append_left tail2 hmemR1
              refine ⟨hmemF, ?_⟩
              have hr1ne : litv R1 ((bitsOf S w).getD i trueLit)
                  ≠ none := by
                intro hz
                exact hch1 (by rw [hz, hnone])
              exact litVal_mono_ne rA _ hr1ne
        · rw [rE]
          exact wE
        · rw [rF, hconf2, hSflag]

theorem litv_congr (S S' : BvState) (h : S'.coreAssign = S.coreAssign)
    (l : Lit) : litv S' l = litv S l := by
  show litVal S'.coreAssign l = litVal S.coreAssign l
  rw [h]

theorem mem_eqcOthers (S : BvState) (v w : TVar) :
    w ∈ eqcOthers S v ↔
      (w < S.numVars ∧ w ≠ v ∧ rootOf S w = rootOf S v) := by
  unfold eqcOthers
  rw [List.mem_filter, List.mem_range]
  simp [and_assoc]

theorem walkOthers_early (bit : Lit) (val : Option Bool) (v : TVar)
    (idx : Nat) : ∀ (ms : List TVar) (S : BvState),
    (walkOthers bit val v idx ms S).2 = true →
    (walkOthers bit val v idx ms S).1.conflictFlag = true := by
  intro ms
  induction ms with
  | nil =>
    intro S h
    exact absurd h (by simp [walkOthers])
  | cons w2 rest ih =>
    intro S h
    rw [walkOthers_cons] at h ⊢
    by_cases hskip : val = litv S ((bitsOf S w2).getD idx trueLit)
    · rw [if_pos hskip] at h ⊢
      exact ih S h
    · rw [if_neg hskip] at h ⊢
      by_cases hconf : (walkAssign S bit val v w2 idx).conflictFlag = true
      · rw [if_pos hconf]
        exact hconf
      · rw [if_neg hconf] at h ⊢
        exact ih _ h

theorem walkOthers_flag_mono (bit : Lit) (val : Option Bool) (v : TVar)
    (idx : Nat) : ∀ (ms : List TVar) (S : BvState),
    S.conflictFlag = true →
    (walkOthers bit val v idx ms S).1.conflictFlag = true := by
  intro ms
  induction ms with
  | nil =>
    intro S h
    exact h
  | cons w2 rest ih =>
    intro S h
    rw [walkOthers_cons]
    by_cases hskip : val = litv S ((bitsOf S w2).getD idx trueLit)
    · rw [if_pos hskip]
      exact ih S h
    · rw [if_neg hskip]
      by_cases hconf : (walkAssign S bit val v w2 idx).conflictFlag = true
      · rw [if_pos hconf]
        exact hconf
      · exact absurd (walkAssign_flag_mono S bit val v w2 idx h) hconf

theorem propStepAt_ok (T : BvState) (v : TVar) (idx : Nat) (b0 : Bool)
    (hc0 : T.coreAssign 0 = some true) (hoccS : OccSound T)
    (hoccC : OccComplete T)
    (hval : litv T ((bitsOf T v).getD idx trueLit) = some b0)
    (hsnd : (propStepAt T v idx).2 = false) :
    ExtAssign T.coreAssign (propStepAt T v idx).1.coreAssign ∧
    (∀ w, w < T.numVars → rootOf T w = rootOf T v →
      litv (propStepAt T v idx).1 ((bitsOf T w).getD idx trueLit) =
        some b0) ∧
    (∃ tail, (propStepAt T v idx).1.propQueue = T.propQueue ++ tail ∧
      ∀ e ∈ tail, litv (propStepAt T v idx).1
        ((bitsOf T e.1).getD e.2 trueLit) ≠ none) ∧
    (∀ w i, w < T.numVars → i < (bitsOf T w).length →
      litv (propStepAt T v idx).1 ((bitsOf T w).getD i trueLit) ≠
        litv T ((bitsOf T w).getD i trueLit) →
      ((rootOf T w = rootOf T v ∧ i = idx) ∨
        ((w, i) ∈ (propStepAt T v idx).1.propQueue ∧
          litv (propStepAt T v idx).1
            ((bitsOf T w).getD i trueLit) ≠ none))) ∧
    (propStepAt T v idx).1.diseqs = T.diseqs ∧
    (propStepAt T v idx).1.conflictFlag = T.conflictFlag := by
  unfold propStepAt at hsnd ⊢
  rw [hval] at hsnd ⊢
  obtain ⟨rA, rC, rQ, rD, rE, rF⟩ :=
    walkOthers_ok ((bitsOf T v).getD idx trueLit) b0 v idx
      (eqcOthers T v) T hc0 hoccS hoccC
      (fun w hw => ((mem_eqcOthers T v w).1 hw).2.2) hsnd
  refine ⟨rA, ?_, rQ, rD, rE, rF⟩
  intro w hwlt hwroot
  by_cases hwv : w = v
  · subst hwv
    exact litVal_mono rA _ hval
  · exact rC w ((mem_eqcOthers T v w).2 ⟨hwlt, hwv, hwroot⟩)

theorem propStepAt_early (T : BvState) (v : TVar) (idx : Nat)
    (h : (propStepAt T v idx).2 = true) :
    (propStepAt T v idx).1.conflictFlag = true := by
  unfold propStepAt at h ⊢
  exact walkOthers_early _ _ v idx (eqcOthers T v) T h

theorem propStepAt_flag_mono (T : BvState) (v : TVar) (idx : Nat)
    (h : T.conflictFlag = true) :
    (propStepAt T v idx).1.conflictFlag = true := by
  unfold propStepAt
  exact walkOthers_flag_mono _ _ v idx (eqcOthers T v) T h

theorem propStep_early (S : BvState) (v : TVar) (idx : Nat)
    (h : (propStep S v idx).2 = true) :
    (propStep S v idx).1.conflictFlag = true := by
  unfold propStep at h ⊢
  exact propStepAt_early _ v idx h

theorem propStep_flag_mono (S : BvState) (v : TVar) (idx : Nat)
    (h : S.conflictFlag = true) :
    (propStep S v idx).1.conflictFlag = true := by
  unfold propStep
  by_cases hw : wposOf S v = idx
  · rw [if_pos hw]
    apply propStepAt_flag_mono
    rw [(find_wpos_extra S v).2.2.1]
    exact h
  · rw [if_neg hw]
    exact propStepAt_flag_mono S v idx h

theorem propStep_ok (S : BvState) (v : TVar) (idx : Nat) (b0 : Bool)
    (hc0 : S.coreAssign 0 = some true) (hoccS : OccSound S)
    (hoccC : OccComplete S)
    (hval : litv S ((bitsOf S v).getD idx trueLit) = some b0)
    (hsnd : (propStep S v idx).2 = false) :
    ExtAssign S.coreAssign (propStep S v idx).1.coreAssign ∧
    (∀ w, w < S.numVars → rootOf S w = rootOf S v →
      litv (propStep S v idx).1 ((bitsOf S w).getD idx trueLit) =
        some b0) ∧
    (∃ tail, (propStep S v idx).1.propQueue = S.propQueue ++ tail ∧
      ∀ e ∈ tail, litv (propStep S v idx).1
        ((bitsOf S e.1).getD e.2 trueLit) ≠ none) ∧
    (∀ w i, w < S.numVars → i < (bitsOf S w).length →
      litv (propStep S v idx).1 ((bitsOf S w).getD i trueLit) ≠
        litv S ((bitsOf S w).getD i trueLit) →
      ((rootOf S w = rootOf S v ∧ i = idx) ∨
        ((w, i) ∈ (propStep S v idx).1.propQueue ∧
          litv (propStep S v idx).1
            ((bitsOf S w).getD i trueLit) ≠ none))) ∧
    (propStep S v idx).1.diseqs = S.diseqs ∧
    (propStep S v idx).1.conflictFlag = S.conflictFlag := by
  unfold propStep at hsnd ⊢
  by_cases hw : wposOf S v = idx
  · rw [if_pos hw] at hsnd ⊢
    have hcoreT : (find_wpos S v).coreAssign = S.coreAssign :=
      (find_wpos_extra S v).1
    have hskelT := skel_find_wpos S v
    have hbitsT : ∀ w, bitsOf (find_wpos S v) w = bitsOf S w :=
      fun w => bitsOf_congr S _ hskelT.2.1 w
    have hrootT : ∀ w, rootOf (find_wpos S v) w = rootOf S w :=
      fun w => rootOf_congr S _ hskelT.2.2.2.2.2.1 w
    have hnvT : (find_wpos S v).numVars = S.numVars := hskelT.1
    have hqT : (find_wpos S v).propQueue = S.propQueue :=
      (find_wpos_extra S v).2.1
    have hvalT : litv (find_wpos S v)
        ((bitsOf (find_wpos S v) v).getD idx trueLit) = some b0 := by
      rw [hbitsT v, litv_congr S (find_wpos S v) hcoreT]
      exact hval
    obtain ⟨rA, rC, ⟨tail, rq1, rq2⟩, rD, rE, rF⟩ :=
      propStepAt_ok (find_wpos S v) v idx b0
        (by rw [hcoreT]; exact hc0)
        (occSound_of_skel S _ hskelT hoccS)
        (occComplete_of_skel S _ hskelT hoccC) hvalT hsnd
    refine ⟨?_, ?_, ⟨tail, ?_, ?_⟩, ?_, ?_, ?_⟩
    · rw [hcoreT] at rA
      exact rA
    · intro w h1 h2
      have hx := rC w (by rw [hnvT]; exact h1)
        (by rw [hrootT w, hrootT v]; exact h2)
      rw [hbitsT w] at hx
      exact hx
    · rw [rq1, hqT]
    · intro e he
      have hx := rq2 e he
      rw [hbitsT e.1] at hx
      exact hx
    · intro w i h1 h2 hch
      have h1' : w < (find_wpos S v).numVars := by
        rw [hnvT]
        exact h1
      have h2' : i < (bitsOf (find_wpos S v) w).length := by
        rw [hbitsT w]
        exact h2
      have hch' : litv (propStepAt (find_wpos S v) v idx).1
          ((bitsOf (find_wpos S v) w).getD i trueLit) ≠
          litv (find_wpos S v)
            ((bitsOf (find_wpos S v) w).getD i trueLit) := by
        rw [hbitsT w, litv_congr S (find_wpos S v) hcoreT]
        exact hch
      rcases rD w i h1' h2' hch' with ⟨hr, hi⟩ | ⟨hm, hn⟩
      · rw [hrootT w, hrootT v] at hr
        exact Or.inl ⟨hr, hi⟩
      · rw [hbitsT w] at hn
        exact Or.inr ⟨hm, hn⟩
    · rw [rE]
      exact (find_wpos_extra S v).2.2.2
    · rw [rF]
      exact (find_wpos_extra S v).2.2.1
  · rw [if_neg hw] at hsnd ⊢
    exact propStepAt_ok S v idx b0 hc0 hoccS hoccC hval hsnd

theorem processQueue_nilq (fuel : Nat) (S : BvState)
    (hq : S.propQueue = []) :
    processQueue (fuel + 1) S = ({ S with propQueue := [] }, true) := by
  unfold processQueue
  rw [hq]

theorem processQueue_consq (fuel : Nat) (S : BvState) (e : VarPos)
    (rest : List VarPos) (hq : S.propQueue = e :: rest) :
    processQueue (fuel + 1) S =
      if (propStep { S with propQueue := rest } e.1 e.2).2 then
        ((propStep { S with propQueue := rest } e.1 e.2).1, true)
      else processQueue fuel
        (propStep { S with propQueue := rest } e.1 e.2).1 := by
  conv_lhs => unfold processQueue; rw [hq]

theorem processQueue_flag_mono (fuel : Nat) : ∀ S : BvState,
    S.conflictFlag = true →
    (processQueue fuel S).1.conflictFlag = true := by
  induction fuel with
  | zero =>
    intro S h
    exact h
  | succ n ih =>
    intro S h
    cases hq : S.propQueue with
    | nil =>
      rw [processQueue_nilq n S hq]
      exact h
    | cons e rest =>
      rw [processQueue_consq n S e rest hq]
      by_cases hps : (propStep { S with propQueue := rest } e.1 e.2).2
        = true
      · rw [if_pos hps]
        exact propStep_flag_mono _ e.1 e.2 h
      · rw [if_neg hps]
        exact ih _ (propStep_flag_mono _ e.1 e.2 h)

theorem litv_trueLit (S : BvState) (hc0 : S.coreAssign 0 = some true) :
    litv S trueLit = some true := by
  show litVal S.coreAssign trueLit = some true
  unfold litVal
  rw [show trueLit.bvar = 0 from rfl, hc0]
  rfl

theorem processQueue_master (fuel : Nat) : ∀ S : BvState,
    S.coreAssign 0 = some true → OccSound S → OccComplete S → QA S →
    Cov S → (processQueue fuel S).2 = true →
    (processQueue fuel S).1.conflictFlag = false →
    AgreeB (processQueue fuel S).1 := by
  induction fuel with
  | zero =>
    intro S _ _ _ _ _ hsnd _
    exact absurd hsnd (by simp [processQueue])
  | succ n ih =>
    intro S hc0 hoccS hoccC hqa hcov hsnd hflag
    cases hq : S.propQueue with
    | nil =>
      rw [processQueue_nilq n S hq]
      intro w1 w2 h1 h2 hroot i hi
      by_contra hne
      have hd : Disag S w1 w2 i := ⟨h1, h2, hroot, hi, hne⟩
      obtain ⟨u, hum, -, -⟩ := hcov w1 w2 i hd
      rw [hq] at hum
      exact absurd hum (List.not_mem_nil (u, i))
    | cons e rest =>
      rw [processQueue_consq n S e rest hq] at hsnd hflag ⊢
      by_cases hps : (propStep { S with propQueue := rest } e.1 e.2).2
          = true
      · rw [if_pos hps] at hflag
        have hx := propStep_early { S with propQueue := rest } e.1 e.2 hps
        rw [hflag] at hx
        exact Bool.noConfusion hx
      · rw [if_neg hps] at hsnd hflag ⊢
        have hps2 : (propStep { S with propQueue := rest } e.1 e.2).2
            = false := by
          cases hx : (propStep { S with propQueue := rest } e.1 e.2).2
          · rfl
          · exact absurd hx hps
        have hqaE : litv S ((bitsOf S e.1).getD e.2 trueLit) ≠ none := by
          apply hqa
          rw [hq]
          exact List.mem_cons_self e rest
        cases hvalx : litv S ((bitsOf S e.1).getD e.2 trueLit) with
        | none => exact absurd hvalx hqaE
        | some b0 =>
        have hvalS1 : litv { S with propQueue := rest }
            ((bitsOf { S with propQueue := rest } e.1).getD e.2 trueLit)
            = some b0 := hvalx
        obtain ⟨rA, rC, ⟨tail, rq1, rq2⟩, rD, rE, rF⟩ :=
          propStep_ok { S with propQueue := rest } e.1 e.2 b0 hc0 hoccS
            hoccC hvalS1 hps2
        have rA' : ExtAssign S.coreAssign
            (propStep { S with propQueue := rest } e.1 e.2).1.coreAssign :=
          rA
        have rC' : ∀ w, w < S.numVars → rootOf S w = rootOf S e.1 →
            litv (propStep { S with propQueue := rest } e.1 e.2).1
              ((bitsOf S w).getD e.2 trueLit) = some b0 := rC
        have rq1' : (propStep { S with propQueue := rest }
            e.1 e.2).1.propQueue = rest ++ tail := rq1
        have rq2' : ∀ e2 ∈ tail,
            litv (propStep { S with propQueue := rest } e.1 e.2).1
              ((bitsOf S e2.1).getD e2.2 trueLit) ≠ none := rq2
        have rD' : ∀ w i, w < S.numVars → i < (bitsOf S w).length →
            litv (propStep { S with propQueue := rest } e.1 e.2).1
                ((bitsOf S w).getD i trueLit) ≠
              litv S ((bitsOf S w).getD i trueLit) →
            ((rootOf S w = rootOf S e.1 ∧ i = e.2) ∨
              ((w, i) ∈ (propStep { S with propQueue := rest }
                  e.1 e.2).1.propQueue ∧
                litv (propStep { S with propQueue := rest } e.1 e.2).1
                  ((bitsOf S w).getD i trueLit) ≠ none)) := rD
        have hskelSF : SameSkel S
            (propStep { S with propQueue := rest } e.1 e.2).1 :=
          sameSkel_trans
            (⟨rfl, rfl, rfl, rfl, rfl, rfl, rfl, rfl, rfl⟩ :
              SameSkel S { S with propQueue := rest })
            (skel_propStep { S with propQueue := rest } e.1 e.2)
        have hbitsF : ∀ w, bitsOf
            (propStep { S with propQueue := rest } e.1 e.2).1 w =
            bitsOf S w := fun w => bitsOf_congr S _ hskelSF.2.1 w
        have hrootF : ∀ w, rootOf
            (propStep { S with propQueue := rest } e.1 e.2).1 w =
            rootOf S w := fun w => rootOf_congr S _ hskelSF.2.2.2.2.2.1 w
        have hnvF : (propStep { S with propQueue := rest }
            e.1 e.2).1.numVars = S.numVars := hskelSF.1
        have hc0F : (propStep { S with propQueue := rest }
            e.1 e.2).1.coreAssign 0 = some true := rA' 0 true hc0
        have hqaF : QA (propStep { S with propQueue := rest } e.1 e.2).1
            := by
          intro e2 he2
          rw [rq1'] at he2
          rw [hbitsF e2.1]
          rcases List.mem_append.1 he2 with hm1 | hm2
          · have hbase : litv S ((bitsOf S e2.1).getD e2.2 trueLit)
                ≠ none := by
              apply hqa
              rw [hq]
              exact List.mem_cons_of_mem e hm1
            exact litVal_mono_ne rA' _ hbase
          · exact rq2' e2 hm2
        have hcovF : Cov (propStep { S with propQueue := rest }
            e.1 e.2).1 := by
          intro w1 w2 i hd
          obtain ⟨hd1, hd2, hd3, hd4, hd5⟩ := hd
          rw [hnvF] at hd1 hd2
          rw [hrootF w1, hrootF w2] at hd3
          rw [hbitsF w1] at hd4
          rw [hbitsF w1, hbitsF w2] at hd5
          by_cases hc1 : litv (propStep { S with propQueue := rest }
              e.1 e.2).1 ((bitsOf S w1).getD i trueLit) =
              litv S ((bitsOf S w1).getD i trueLit)
          · by_cases hc2 : litv (propStep { S with propQueue := rest }
                e.1 e.2).1 ((bitsOf S w2).getD i trueLit) =
                litv S ((bitsOf S w2).getD i trueLit)
            · have hds : Disag S w1 w2 i :=
                ⟨hd1, hd2, hd3, hd4, by rw [← hc1, ← hc2]; exact hd5⟩
              obtain ⟨u, hum, hur, hun⟩ := hcov w1 w2 i hds
              rw [hq] at hum
              rcases List.mem_cons.1 hum with hue | hur2
              · exfalso
                have hu1 : e.1 = u := by rw [← hue]
                have hu2 : e.2 = i := by rw [← hue]
                have ha1 : litv (propStep { S with propQueue := rest }
                    e.1 e.2).1 ((bitsOf S w1).getD e.2 trueLit) =
                    some b0 := rC' w1 hd1 (by rw [hu1]; exact hur.symm)
                have ha2 : litv (propStep { S with propQueue := rest }
                    e.1 e.2).1 ((bitsOf S w2).getD e.2 trueLit) =
                    some b0 :=
                  rC' w2 hd2 (by rw [hu1]; exact hd3.symm.trans hur.symm)
                rw [← hu2] at hd5
                rw [ha1, ha2] at hd5
                exact hd5 rfl
              · refine ⟨u, ?_, ?_, ?_⟩
                · rw [rq1']
                  exact List.mem_append_left tail hur2
                · rw [hrootF u, hrootF w1]
                  exact hur
                · rw [hbitsF u]
                  cases hux : litv S ((bitsOf S u).getD i trueLit) with
                  | none => exact absurd hux hun
                  | some x =>
                    have hfx : litv (propStep { S with propQueue := rest }
                        e.1 e.2).1 ((bitsOf S u).getD i trueLit) =
                        some x := litVal_mono rA' _ hux
                    rw [hfx]
                    exact Option.noConfusion
            · have hlen2 : i < (bitsOf S w2).length := by
                by_contra hge
                have hnone2 : (bitsOf S w2)[i]? = none :=
                  List.getElem?_eq_none (Nat.le_of_not_lt hge)
                apply hc2
                rw [List.getD_eq_getElem?_getD, hnone2]
                show litv _ trueLit = litv S trueLit
                rw [litv_trueLit S hc0, litv_trueLit _ hc0F]
              rcases rD' w2 i hd2 hlen2 hc2 with ⟨hr, hi2⟩ | ⟨hm, hn⟩
              · exfalso
                have ha2 := rC' w2 hd2 hr
                have ha1 := rC' w1 hd1 (hd3.trans hr)
                rw [hi2] at hd5
                rw [ha1, ha2] at hd5
                exact hd5 rfl
              · refine ⟨w2, hm, ?_, ?_⟩
                · rw [hrootF w2, hrootF w1]
                  exact hd3.symm
                · rw [hbitsF w2]
                  exact hn
          · rcases rD' w1 i hd1 hd4 hc1 with ⟨hr, hi2⟩ | ⟨hm, hn⟩
            · exfalso
              have ha1 := rC' w1 hd1 hr
              have ha2 := rC' w2 hd2 (hd3.symm.trans hr)
              rw [hi2] at hd5
              rw [ha1, ha2] at hd5
              exact hd5 rfl
            · refine ⟨w1, hm, rfl, ?_⟩
              rw [hbitsF w1]
              exact hn
        exact ih (propStep { S with propQueue := rest } e.1 e.2).1 hc0F
          (occSound_of_skel S _ hskelSF hoccS)
          (occComplete_of_skel S _ hskelSF hoccC) hqaF hcovF hsnd hflag

theorem change_covered (S R : BvState) (c : Lit)
    (hc0 : S.coreAssign 0 = some true)
    (hA : ExtAssign S.coreAssign R.coreAssign)
    (hC : ∀ l2 : Lit, l2.bvar ≠ c.bvar → litv R l2 = litv S l2)
    (w : TVar) (i : Nat)
    (hch : litv R ((bitsOf S w).getD i trueLit) ≠
      litv S ((bitsOf S w).getD i trueLit)) :
    ((bitsOf S w).getD i trueLit).bvar ≠ 0 ∧
    ((bitsOf S w).getD i trueLit).bvar = c.bvar ∧
    litv S ((bitsOf S w).getD i trueLit) = none ∧
    litv R ((bitsOf S w).getD i trueLit) ≠ none := by
  have hbv : ((bitsOf S w).getD i trueLit).bvar = c.bvar := by
    by_contra hne
    exact hch (hC _ hne)
  have hnone : litv S ((bitsOf S w).getD i trueLit) = none := by
    cases hx : litv S ((bitsOf S w).getD i trueLit) with
    | none => rfl
    | some x =>
      have hr : litv R ((bitsOf S w).getD i trueLit) = some x :=
        litVal_mono hA _ hx
      exact absurd (hr.trans hx.symm) hch
  refine ⟨?_, hbv, hnone, fun hz => hch (hz.trans hnone.symm)⟩
  intro h00
  have hzz : S.coreAssign ((bitsOf S w).getD i trueLit).bvar = none :=
    litVal_eq_none.1 hnone
  rw [h00, hc0] at hzz
  exact Option.noConfusion hzz

theorem mergeStepAssign_flag_mono (S : BvState) (v1 v2 : TVar) (idx : Nat)
    (h : S.conflictFlag = true) :
    (mergeStepAssign S v1 v2 idx).conflictFlag = true := by
  unfold mergeStepAssign
  repeat' split
  all_goals first
    | exact assign_bit_flag_mono S _ _ _ idx _ true h
    | exact h

theorem mergeStepAssign_ok (S : BvState) (v1 v2 : TVar) (idx : Nat)
    (hc0 : S.coreAssign 0 = some true)
    (hoccS : OccSound S) (hoccC : OccComplete S)
    (hres : (mergeStepAssign S v1 v2 idx).conflictFlag = false) :
    ExtAssign S.coreAssign (mergeStepAssign S v1 v2 idx).coreAssign ∧
    (∃ tail, (mergeStepAssign S v1 v2 idx).propQueue =
        S.propQueue ++ tail ∧
      ∀ e ∈ tail, litv (mergeStepAssign S v1 v2 idx)
        ((bitsOf S e.1).getD e.2 trueLit) ≠ none) ∧
    (∀ w i, w < S.numVars → i < (bitsOf S w).length →
      litv (mergeStepAssign S v1 v2 idx)
          ((bitsOf S w).getD i trueLit) ≠
        litv S ((bitsOf S w).getD i trueLit) →
      ((w, i) ∈ (mergeStepAssign S v1 v2 idx).propQueue ∧
        litv (mergeStepAssign S v1 v2 idx)
          ((bitsOf S w).getD i trueLit) ≠ none)) ∧
    (mergeStepAssign S v1 v2 idx).diseqs = S.diseqs := by
  unfold mergeStepAssign at hres ⊢
  by_cases hv1 : litv S ((bitsOf S v1).getD idx trueLit) ≠ none
  · rw [if_pos hv1] at hres ⊢
    obtain ⟨hA, hB, hC, ⟨tail, ht1, ht2, ht3⟩, hE⟩ :=
      assign_bit_ok S _ v1 v2 idx _ true hoccS hoccC hres
    refine ⟨hA, ⟨tail, ht1, ht2⟩, ?_, hE⟩
    intro w i h1 h2 hch
    obtain ⟨hb0, hbv, -, hrn⟩ := change_covered S _ _ hc0 hA hC w i hch
    have hmem := ht3 w i h1 h2 hb0 hbv (Or.inl rfl)
    refine ⟨?_, hrn⟩
    rw [ht1]
    exact List.mem_append_right S.propQueue hmem
  · rw [if_neg hv1] at hres ⊢
    by_cases hv2 : litv S ((bitsOf S v2).getD idx trueLit) ≠ none
    · rw [if_pos hv2] at hres ⊢
      obtain ⟨hA, hB, hC, ⟨tail, ht1, ht2, ht3⟩, hE⟩ :=
        assign_bit_ok S _ v2 v1 idx _ true hoccS hoccC hres
      refine ⟨hA, ⟨tail, ht1, ht2⟩, ?_, hE⟩
      intro w i h1 h2 hch
      obtain ⟨hb0, hbv, -, hrn⟩ := change_covered S _ _ hc0 hA hC w i hch
      have hmem := ht3 w i h1 h2 hb0 hbv (Or.inl rfl)
      refine ⟨?_, hrn⟩
      rw [ht1]
      exact List.mem_append_right S.propQueue hmem
    · rw [if_neg hv2] at hres ⊢
      refine ⟨extAssign_refl _, ⟨[], by simp, ?_⟩, ?_, rfl⟩
      · intro e he
        exact absurd he (List.not_mem_nil e)
      · intro w i h1 h2 hch
        exact absurd rfl hch

theorem mergePassGo_cons (v1 v2 : TVar) (idx : Nat) (rest : List Nat)
    (changed : Bool) (S : BvState) :
    mergePassGo v1 v2 (idx :: rest) changed S =
      if litv S ((bitsOf S v1).getD idx trueLit) =
          litv S ((bitsOf S v2).getD idx trueLit) then
        mergePassGo v1 v2 rest changed S
      else if (mergeStepAssign S v1 v2 idx).conflictFlag then
        (mergeStepAssign S v1 v2 idx, true, true)
      else mergePassGo v1 v2 rest true (mergeStepAssign S v1 v2 idx) :=
  rfl

theorem mergePassGo_ok (v1 v2 : TVar) : ∀ (ids : List Nat)
    (changed : Bool) (S : BvState),
    S.coreAssign 0 = some true → OccSound S → OccComplete S →
    (mergePassGo v1 v2 ids changed S).2.2 = false →
    (ExtAssign S.coreAssign
        (mergePassGo v1 v2 ids changed S).1.coreAssign ∧
      (∃ tail, (mergePassGo v1 v2 ids changed S).1.propQueue =
          S.propQueue ++ tail ∧
        ∀ e ∈ tail, litv (mergePassGo v1 v2 ids changed S).1
          ((bitsOf S e.1).getD e.2 trueLit) ≠ none) ∧
      (∀ w i, w < S.numVars → i < (bitsOf S w).length →
        litv (mergePassGo v1 v2 ids changed S).1
            ((bitsOf S w).getD i trueLit) ≠
          litv S ((bitsOf S w).getD i trueLit) →
        ((w, i) ∈ (mergePassGo v1 v2 ids changed S).1.propQueue ∧
          litv (mergePassGo v1 v2 ids changed S).1
            ((bitsOf S w).getD i trueLit) ≠ none)) ∧
      (mergePassGo v1 v2 ids changed S).1.diseqs = S.diseqs ∧
      (mergePassGo v1 v2 ids changed S).1.conflictFlag =
        S.conflictFlag) := by
  intro ids
  induction ids with
  | nil =>
    intro changed S hc0 hoccS hoccC hearly
    exact ⟨extAssign_refl _,
      ⟨[], by show S.propQueue = S.propQueue ++ []; simp,
        fun e he => absurd he (List.not_mem_nil e)⟩,
      fun w i h1 h2 hch => absurd rfl hch, rfl, rfl⟩
  | cons idx rest ih =>
    intro changed S hc0 hoccS hoccC hearly
    rw [mergePassGo_cons] at hearly ⊢
    by_cases hskip : litv S ((bitsOf S v1).getD idx trueLit) =
        litv S ((bitsOf S v2).getD idx trueLit)
    · rw [if_pos hskip] at hearly ⊢
      exact ih changed S hc0 hoccS hoccC hearly
    · rw [if_neg hskip] at hearly ⊢
      by_cases hcf : (mergeStepAssign S v1 v2 idx).conflictFlag = true
      · rw [if_pos hcf] at hearly
        exact Bool.noConfusion hearly
      · rw [if_neg hcf] at hearly ⊢
        have hcf2 : (mergeStepAssign S v1 v2 idx).conflictFlag
            = false := by
          cases hx : (mergeStepAssign S v1 v2 idx).conflictFlag
          · rfl
          · exact absurd hx hcf
        obtain ⟨mA, ⟨tail1, mq1, mq2⟩, mD, mE⟩ :=
          mergeStepAssign_ok S v1 v2 idx hc0 hoccS hoccC hcf2
        have hskelM := skel_mergeStepAssign S v1 v2 idx
        have hSflag : S.conflictFlag = false := by
          cases hS : S.conflictFlag
          · rfl
          · have hx := mergeStepAssign_flag_mono S v1 v2 idx hS
            rw [hcf2] at hx
            exact Bool.noConfusion hx
        generalize hgen : mergeStepAssign S v1 v2 idx = R1
          at mA mq1 mq2 mD mE hskelM hcf2 hearly ⊢
        have hbitsR1 : ∀ w, bitsOf R1 w = bitsOf S w :=
          fun w => bitsOf_congr S R1 hskelM.2.1 w
        have hnvR1 : R1.numVars = S.numVars := hskelM.1
        have hc0R1 : R1.coreAssign 0 = some true := mA 0 true hc0
        obtain ⟨rA, ⟨tail2, rq1, rq2⟩, rD, rE, rF⟩ :=
          ih true R1 hc0R1 (occSound_of_skel S R1 hskelM hoccS)
            (occComplete_of_skel S R1 hskelM hoccC) hearly
        refine ⟨extAssign_trans mA rA, ⟨tail1 ++ tail2, ?_, ?_⟩,
          ?_, ?_, ?_⟩
        · rw [rq1, mq1, List.append_assoc]
        · intro e he
          rcases List.mem_append.1 he with he1 | he2
          · exact litVal_mono_ne rA _ (mq2 e he1)
          · have hx := rq2 e he2
            rw [hbitsR1 e.1] at hx
            exact hx
        · intro w i h1 h2 hch
          by_cases hch1 : litv R1 ((bitsOf S w).getD i trueLit) =
              litv S ((bitsOf S w).getD i trueLit)
          · have hch2 : litv (mergePassGo v1 v2 rest true R1).1
                ((bitsOf R1 w).getD i trueLit) ≠
                litv R1 ((bitsOf R1 w).getD i trueLit) := by
              rw [hbitsR1 w, hch1]
              exact hch
            obtain ⟨hm, hn⟩ := rD w i (by rw [hnvR1]; exact h1)
              (by rw [hbitsR1 w]; exact h2) hch2
            rw [hbitsR1 w] at hn
            exact ⟨hm, hn⟩
          · obtain ⟨hm, hn⟩ := mD w i h1 h2 hch1
            refine ⟨?_, litVal_mono_ne rA _ hn⟩
            rw [rq1]
            exact List.mem_append_left tail2 hm
        · rw [rE]
          exact mE
        · rw [rF, hcf2, hSflag]

theorem mergePassGo_changed_mono (v1 v2 : TVar) : ∀ (ids : List Nat)
    (S : BvState), (mergePassGo v1 v2 ids true S).2.1 = true := by
  intro ids
  induction ids with
  | nil =>
    intro S
    rfl
  | cons idx rest ih =>
    intro S
    rw [mergePassGo_cons]
    by_cases hskip : litv S ((bitsOf S v1).getD idx trueLit) =
        litv S ((bitsOf S v2).getD idx trueLit)
    · rw [if_pos hskip]
      exact ih S
    · rw [if_neg hskip]
      by_cases hcf : (mergeStepAssign S v1 v2 idx).conflictFlag = true
      · rw [if_pos hcf]
      · rw [if_neg hcf]
        exact ih _

theorem mergePassGo_noChange (v1 v2 : TVar) : ∀ (ids : List Nat)
    (S : BvState), (mergePassGo v1 v2 ids false S).2.1 = false →
    ((mergePassGo v1 v2 ids false S).1 = S ∧
      ∀ idx ∈ ids, litv S ((bitsOf S v1).getD idx trueLit) =
        litv S ((bitsOf S v2).getD idx trueLit)) := by
  intro ids
  induction ids with
  | nil =>
    intro S h
    exact ⟨rfl, fun idx hm => absurd hm (List.not_mem_nil idx)⟩
  | cons idx rest ih =>
    intro S h
    rw [mergePassGo_cons] at h ⊢
    by_cases hskip : litv S ((bitsOf S v1).getD idx trueLit) =
        litv S ((bitsOf S v2).getD idx trueLit)
    · rw [if_pos hskip] at h ⊢
      obtain ⟨h1, h2⟩ := ih S h
      refine ⟨h1, ?_⟩
      intro j hj
      rcases List.mem_cons.1 hj with hj1 | hj2
      · subst hj1
        exact hskip
      · exact h2 j hj2
    · rw [if_neg hskip] at h
      by_cases hcf : (mergeStepAssign S v1 v2 idx).conflictFlag = true
      · rw [if_pos hcf] at h
        exact Bool.noConfusion h
      · rw [if_neg hcf] at h
        rw [mergePassGo_changed_mono v1 v2 rest _] at h
        exact Bool.noConfusion h

theorem mergePassGo_early_flag (v1 v2 : TVar) : ∀ (ids : List Nat)
    (changed : Bool) (S : BvState),
    (mergePassGo v1 v2 ids changed S).2.2 = true →
    (mergePassGo v1 v2 ids changed S).1.conflictFlag = true := by
  intro ids
  induction ids with
  | nil =>
    intro changed S h
    exact Bool.noConfusion h
  | cons idx rest ih =>
    intro changed S h
    rw [mergePassGo_cons] at h ⊢
    by_cases hskip : litv S ((bitsOf S v1).getD idx trueLit) =
        litv S ((bitsOf S v2).getD idx trueLit)
    · rw [if_pos hskip] at h ⊢
      exact ih changed S h
    · rw [if_neg hskip] at h ⊢
      by_cases hcf : (mergeStepAssign S v1 v2 idx).conflictFlag = true
      · rw [if_pos hcf]
        exact hcf
      · rw [if_neg hcf] at h ⊢
        exact ih true _ h

theorem mergeLoop_succ (v1 v2 : TVar) (sz fuel : Nat) (S S' : BvState)
    (changed early : Bool)
    (hp : mergePassGo v1 v2 (List.range sz) false S =
      (S', changed, early)) :
    mergeLoop v1 v2 sz (fuel + 1) S =
      if early then (S', true)
      else if changed then mergeLoop v1 v2 sz fuel S'
      else (S', true) := by
  conv_lhs => unfold mergeLoop; rw [hp]

theorem mergeLoop_ok (v1 v2 : TVar) (sz : Nat) : ∀ (fuel : Nat)
    (S : BvState),
    S.coreAssign 0 = some true → OccSound S → OccComplete S →
    (mergeLoop v1 v2 sz fuel S).2 = true →
    (mergeLoop v1 v2 sz fuel S).1.conflictFlag = false →
    (ExtAssign S.coreAssign (mergeLoop v1 v2 sz fuel S).1.coreAssign ∧
      (∃ tail, (mergeLoop v1 v2 sz fuel S).1.propQueue =
          S.propQueue ++ tail ∧
        ∀ e ∈ tail, litv (mergeLoop v1 v2 sz fuel S).1
          ((bitsOf S e.1).getD e.2 trueLit) ≠ none) ∧
      (∀ w i, w < S.numVars → i < (bitsOf S w).length →
        litv (mergeLoop v1 v2 sz fuel S).1
            ((bitsOf S w).getD i trueLit) ≠
          litv S ((bitsOf S w).getD i trueLit) →
        ((w, i) ∈ (mergeLoop v1 v2 sz fuel S).1.propQueue ∧
          litv (mergeLoop v1 v2 sz fuel S).1
            ((bitsOf S w).getD i trueLit) ≠ none)) ∧
      (∀ idx, idx < sz →
        litv (mergeLoop v1 v2 sz fuel S).1
            ((bitsOf S v1).getD idx trueLit) =
          litv (mergeLoop v1 v2 sz fuel S).1
            ((bitsOf S v2).getD idx trueLit)) ∧
      (mergeLoop v1 v2 sz fuel S).1.diseqs = S.diseqs) := by
  intro fuel
  induction fuel with
  | zero =>
    intro S _ _ _ hsnd _
    exact Bool.noConfusion hsnd
  | succ n ih =>
    intro S hc0 hoccS hoccC hsnd hflag
    rcases hp : mergePassGo v1 v2 (List.range sz) false S with
      ⟨S', changed, early⟩
    rw [mergeLoop_succ v1 v2 sz n S S' changed early hp]
      at hsnd hflag ⊢
    cases early with
    | true =>
      rw [if_pos rfl] at hflag
      have hx := mergePassGo_early_flag v1 v2 (List.range sz) false S
        (by rw [hp])
      rw [hp] at hx
      have hx' : S'.conflictFlag = true := hx
      have hf' : S'.conflictFlag = false := hflag
      rw [hx'] at hf'
      exact Bool.noConfusion hf'
    | false =>
      rw [if_neg (by decide)] at hsnd hflag ⊢
      cases changed with
      | false =>
        rw [if_neg (by decide)] at hsnd hflag ⊢
        obtain ⟨hS'eq, hagree⟩ :=
          mergePassGo_noChange v1 v2 (List.range sz) S (by rw [hp])
        rw [hp] at hS'eq
        have hSS : S' = S := hS'eq
        subst hSS
        refine ⟨extAssign_refl _,
          ⟨[], by show S'.propQueue = S'.propQueue ++ []; simp,
            fun e he => absurd he (List.not_mem_nil e)⟩,
          fun w i h1 h2 hch => absurd rfl hch, ?_, rfl⟩
        intro idx hidx
        exact hagree idx (List.mem_range.2 hidx)
      | true =>
        rw [if_pos rfl] at hsnd hflag ⊢
        obtain ⟨pA, ⟨tailp, pq1, pq2⟩, pD, pE, pF⟩ :=
          mergePassGo_ok v1 v2 (List.range sz) false S hc0 hoccS hoccC
            (by rw [hp])
        have hskelP := skel_mergePassGo v1 v2 (List.range sz) false S
        rw [hp] at pA pq1 pq2 pD pE pF hskelP
        have pA' : ExtAssign S.coreAssign S'.coreAssign := pA
        have pq1' : S'.propQueue = S.propQueue ++ tailp := pq1
        have pq2' : ∀ e ∈ tailp,
            litv S' ((bitsOf S e.1).getD e.2 trueLit) ≠ none := pq2
        have pD' : ∀ w i, w < S.numVars → i < (bitsOf S w).length →
            litv S' ((bitsOf S w).getD i trueLit) ≠
              litv S ((bitsOf S w).getD i trueLit) →
            ((w, i) ∈ S'.propQueue ∧
              litv S' ((bitsOf S w).getD i trueLit) ≠ none) := pD
        have pE' : S'.diseqs = S.diseqs := pE
        have hskelP' : SameSkel S S' := hskelP
        have hbitsP : ∀ w, bitsOf S' w = bitsOf S w :=
          fun w => bitsOf_congr S S' hskelP'.2.1 w
        have hnvP : S'.numVars = S.numVars := hskelP'.1
        have hc0P : S'.coreAssign 0 = some true := pA' 0 true hc0
        obtain ⟨rA, ⟨tail2, rq1, rq2⟩, rD, rE, rF⟩ :=
          ih S' hc0P (occSound_of_skel S S' hskelP' hoccS)
            (occComplete_of_skel S S' hskelP' hoccC) hsnd hflag
        refine ⟨extAssign_trans pA' rA, ⟨tailp ++ tail2, ?_, ?_⟩,
          ?_, ?_, ?_⟩
        · rw [rq1, pq1', List.append_assoc]
        · intro e he
          rcases List.mem_append.1 he with he1 | he2
          · exact litVal_mono_ne rA _ (pq2' e he1)
          · have hx := rq2 e he2
            rw [hbitsP e.1] at hx
            exact hx
        · intro w i h1 h2 hch
          by_cases hch1 : litv S' ((bitsOf S w).getD i trueLit) =
              litv S ((bitsOf S w).getD i trueLit)
          · have hch2 : litv (mergeLoop v1 v2 sz n S').1
                ((bitsOf S' w).getD i trueLit) ≠
                litv S' ((bitsOf S' w).getD i trueLit) := by
              rw [hbitsP w, hch1]
              exact hch
            obtain ⟨hm, hn⟩ := rD w i (by rw [hnvP]; exact h1)
              (by rw [hbitsP w]; exact h2) hch2
            rw [hbitsP w] at hn
            exact ⟨hm, hn⟩
          · obtain ⟨hm, hn⟩ := pD' w i h1 h2 hch1
            refine ⟨?_, litVal_mono_ne rA _ hn⟩
            rw [rq1]
            exact List.mem_append_left tail2 hm
        · intro idx hidx
          have hx := rE idx hidx
          rw [hbitsP v1, hbitsP v2] at hx
          exact hx
        · rw [rF]
          exact pE'

/-- The core assigning bool var `b` to `val` (the step that precedes an
`assign_eh(b)` callback). -/
def coreSet (S : BvState) (b : Nat) (val : Bool) : BvState :=
  { S with coreAssign :=
      fun b2 => if b2 = b then some val else S.coreAssign b2 }

/-- A core-driven plugin callback: a bool-var assignment notified via
`assign_eh`, or an equality merge notified via `merge_eh`. -/
inductive CoreEvent where
  | assignEvent (b : Nat) (val : Bool) : CoreEvent
  | mergeEvent (v1 v2 : TVar) : CoreEvent

/-- Run one callback: the core assigns and then calls `assign_eh`, or
unions the classes and calls `merge_eh`. -/
def runEvent (fuel : Nat) (S : BvState) : CoreEvent → BvState × Bool
  | CoreEvent.assignEvent b val => assign_eh fuel (coreSet S b val) b
  | CoreEvent.mergeEvent v1 v2 => mergeOp fuel S v1 v2

/-- When the source performs each callback: assignments are of
previously undefined bool vars, and the core only merges theory vars
with equal bit widths. -/
def validEvent (S : BvState) : CoreEvent → Prop
  | CoreEvent.assignEvent b _ => S.coreAssign b = none
  | CoreEvent.mergeEvent v1 v2 => v1 < S.numVars ∧ v2 < S.numVars ∧
      (bitsOf S v1).length = (bitsOf S v2).length

theorem mzob_extra (S : BvState) (r1 r2 : TVar) :
    (merge_zero_one_bits S r1 r2).1.coreAssign = S.coreAssign ∧
    (merge_zero_one_bits S r1 r2).1.propQueue = S.propQueue ∧
    (merge_zero_one_bits S r1 r2).1.conflictFlag = S.conflictFlag := by
  unfold merge_zero_one_bits
  repeat' split
  all_goals exact ⟨rfl, rfl, rfl⟩

theorem mzob_fail_diseqs (S : BvState) (r1 r2 : TVar) (S1 : BvState)
    (hz : merge_zero_one_bits S r1 r2 = (S1, false)) :
    ∃ d, S1.diseqs = S.diseqs ++ [d] := by
  unfold merge_zero_one_bits at hz
  by_cases he : (zobOf S r2).isEmpty = true
  · rw [if_pos he] at hz
    have hz2 : (S, true) = (S1, false) := hz
    have hx : (true : Bool) = false := congrArg Prod.snd hz2
    exact Bool.noConfusion hx
  · rw [if_neg he] at hz
    rcases hm : mergeZeroOneGo (zobOf S r1) (zobOf S r2) [] with ⟨acc, od⟩
    rw [hm] at hz
    cases od with
    | none =>
      have hz2 : (({ S with zeroOneBits :=
          (S.zeroOneBits.set r1 (zobOf S r1 ++ acc)) } : BvState), true) =
          (S1, false) := hz
      have hx : (true : Bool) = false := congrArg Prod.snd hz2
      exact Bool.noConfusion hx
    | some d =>
      have hz2 : (({ S with
          zeroOneBits := (S.zeroOneBits.set r1 (zobOf S r1 ++ acc))
          diseqs := S.diseqs ++ [d] } : BvState), false) =
          (S1, false) := hz
      refine ⟨d, ?_⟩
      injection hz2 with h1 h2
      rw [← h1]

theorem mzob_ok_diseqs (S : BvState) (r1 r2 : TVar) (S1 : BvState)
    (hz : merge_zero_one_bits S r1 r2 = (S1, true)) :
    S1.diseqs = S.diseqs := by
  unfold merge_zero_one_bits at hz
  by_cases he : (zobOf S r2).isEmpty = true
  · rw [if_pos he] at hz
    have hz2 : (S, true) = (S1, true) := hz
    injection hz2 with h1 h2
    rw [← h1]
  · rw [if_neg he] at hz
    rcases hm : mergeZeroOneGo (zobOf S r1) (zobOf S r2) [] with ⟨acc, od⟩
    rw [hm] at hz
    cases od with
    | none =>
      have hz2 : (({ S with zeroOneBits :=
          (S.zeroOneBits.set r1 (zobOf S r1 ++ acc)) } : BvState), true) =
          (S1, true) := hz
      injection hz2 with h1 h2
      rw [← h1]
    | some d =>
      have hz2 : (({ S with
          zeroOneBits := (S.zeroOneBits.set r1 (zobOf S r1 ++ acc))
          diseqs := S.diseqs ++ [d] } : BvState), false) =
          (S1, true) := hz
      have hx : (false : Bool) = true := congrArg Prod.snd hz2
      exact Bool.noConfusion hx

theorem merge_eh_fail (fuel : Nat) (S : BvState) (r1 r2 v1 v2 : TVar)
    (S1 : BvState)
    (hz : merge_zero_one_bits S r1 r2 = (S1, false)) :
    merge_eh fuel S r1 r2 v1 v2 = (S1, true) := by
  conv_lhs => unfold merge_eh; rw [hz]

theorem merge_eh_loop_eq (fuel : Nat) (S : BvState) (r1 r2 v1 v2 : TVar)
    (S1 : BvState) (hz : merge_zero_one_bits S r1 r2 = (S1, true))
    (S3 : BvState) (lsnd : Bool)
    (hl : mergeLoop v1 v2 (bitsOf S1 v1).length fuel
      { S1 with propQueue := [] } = (S3, lsnd)) :
    merge_eh fuel S r1 r2 v1 v2 =
      if lsnd then
        (if S3.conflictFlag then (S3, true) else processQueue fuel S3)
      else (S3, false) := by
  have step1 : merge_eh fuel S r1 r2 v1 v2 =
      (match mergeLoop v1 v2 (bitsOf S1 v1).length fuel
          { S1 with propQueue := [] } with
        | (S3, false) => (S3, false)
        | (S3, true) =>
          if S3.conflictFlag then (S3, true)
          else processQueue fuel S3) := by
    conv_lhs => unfold merge_eh; rw [hz]
  rw [step1, hl]
  cases lsnd with
  | false => rfl
  | true => rfl

theorem assign_event_agree (fuel : Nat) (S : BvState) (b : Nat)
    (val : Bool) (hwf : WFC1 S) (hagree : AgreeB S)
    (hb : S.coreAssign b = none)
    (hdone : (assign_eh fuel (coreSet S b val) b).2 = true)
    (hflag : (assign_eh fuel (coreSet S b val) b).1.conflictFlag
      = false) :
    AgreeB (assign_eh fuel (coreSet S b val) b).1 := by
  obtain ⟨hc0, hoccS, hoccC⟩ := hwf
  have hb0 : b ≠ 0 := by
    intro h0
    rw [h0, hc0] at hb
    exact Option.noConfusion hb
  have hcb : (coreSet S b val).coreAssign b = some val := by
    show (if b = b then some val else S.coreAssign b) = some val
    rw [if_pos rfl]
  have hc0c : (coreSet S b val).coreAssign 0 = some true := by
    show (if 0 = b then some val else S.coreAssign 0) = some true
    rw [if_neg (fun h => hb0 h.symm), hc0]
  have hcore_ne : ∀ b2, b2 ≠ b →
      (coreSet S b val).coreAssign b2 = S.coreAssign b2 := by
    intro b2 hb2
    show (if b2 = b then some val else S.coreAssign b2) = S.coreAssign b2
    rw [if_neg hb2]
  have hlitv : ∀ l : Lit, l.bvar ≠ b →
      litv (coreSet S b val) l = litv S l := by
    intro l hl
    show litVal (coreSet S b val).coreAssign l = litVal S.coreAssign l
    unfold litVal
    rw [hcore_ne l.bvar hl]
  have hlb : litv (coreSet S b val) (Lit.mk b false) ≠ none := by
    intro hz
    have hz2 := litVal_eq_none.1 hz
    rw [hcb] at hz2
    exact Option.noConfusion hz2
  cases hga : getAtom (coreSet S b val) b with
  | none =>
    have heq : assign_eh fuel (coreSet S b val) b =
        (coreSet S b val, true) := by
      unfold assign_eh
      rw [hga]
    rw [heq]
    intro w1 w2 h1 h2 hroot i hi
    have h1' : w1 < S.numVars := h1
    have h2' : w2 < S.numVars := h2
    have hi' : i < (bitsOf S w1).length := hi
    have hroot' : rootOf S w1 = rootOf S w2 := hroot
    have hga' : getAtom S b = none := hga
    have hbv1 : ((bitsOf S w1).getD i trueLit).bvar ≠ b := by
      intro hbeq
      obtain ⟨occs, hga2, -⟩ := hoccC w1 h1' i hi'
        (by rw [hbeq]; exact hb0)
      rw [hbeq, hga'] at hga2
      exact Option.noConfusion hga2
    have hbv2 : ((bitsOf S w2).getD i trueLit).bvar ≠ b := by
      intro hbeq
      by_cases hi2 : i < (bitsOf S w2).length
      · obtain ⟨occs, hga2, -⟩ := hoccC w2 h2' i hi2
          (by rw [hbeq]; exact hb0)
        rw [hbeq, hga'] at hga2
        exact Option.noConfusion hga2
      · have hdef : (bitsOf S w2).getD i trueLit = trueLit := by
          rw [List.getD_eq_getElem?_getD,
            List.getElem?_eq_none (Nat.le_of_not_lt hi2)]
          rfl
        rw [hdef] at hbeq
        exact hb0 hbeq.symm
    show litv (coreSet S b val) ((bitsOf S w1).getD i trueLit) =
      litv (coreSet S b val) ((bitsOf S w2).getD i trueLit)
    rw [hlitv _ hbv1, hlitv _ hbv2]
    exact hagree w1 w2 h1' h2' hroot' i hi'
  | some occs =>
    have heq : assign_eh fuel (coreSet S b val) b =
        processQueue fuel
          { coreSet S b val with propQueue := occs } := by
      unfold assign_eh
      rw [hga]
    rw [heq] at hdone hflag ⊢
    have hoccS' : OccSound { coreSet S b val with propQueue := occs } :=
      hoccS
    have hoccC' : OccComplete
        { coreSet S b val with propQueue := occs } := hoccC
    have hga' : getAtom S b = some occs := hga
    have hqa : QA { coreSet S b val with propQueue := occs } := by
      intro e he
      have hbv : ((bitsOf S e.1).getD e.2 trueLit).bvar = b :=
        hoccS b occs hga' e he
      exact litv_ne_none_of_bvar
        { coreSet S b val with propQueue := occs } (Lit.mk b false) _
        hbv hlb
    have hcov : Cov { coreSet S b val with propQueue := occs } := by
      intro w1 w2 i hd
      obtain ⟨hd1, hd2, hd3, hd4, hd5⟩ := hd
      have hd1' : w1 < S.numVars := hd1
      have hd2' : w2 < S.numVars := hd2
      have hd3' : rootOf S w1 = rootOf S w2 := hd3
      have hd4' : i < (bitsOf S w1).length := hd4
      have hd5' : litv (coreSet S b val)
          ((bitsOf S w1).getD i trueLit) ≠
          litv (coreSet S b val) ((bitsOf S w2).getD i trueLit) := hd5
      by_cases hbv1 : ((bitsOf S w1).getD i trueLit).bvar = b
      · obtain ⟨occs2, hga2, hm⟩ := hoccC w1 hd1' i hd4'
          (by rw [hbv1]; exact hb0)
        rw [hbv1, hga'] at hga2
        injection hga2 with hocc2
        refine ⟨w1, ?_, rfl, ?_⟩
        · show (w1, i) ∈ occs
          rw [hocc2]
          exact hm
        · exact litv_ne_none_of_bvar _ (Lit.mk b false) _ hbv1 hlb
      · by_cases hbv2 : ((bitsOf S w2).getD i trueLit).bvar = b
        · have hi2 : i < (bitsOf S w2).length := by
            by_contra hge
            have hdef : (bitsOf S w2).getD i trueLit = trueLit := by
              rw [List.getD_eq_getElem?_getD,
                List.getElem?_eq_none (Nat.le_of_not_lt hge)]
              rfl
            rw [hdef] at hbv2
            exact hb0 hbv2.symm
          obtain ⟨occs2, hga2, hm⟩ := hoccC w2 hd2' i hi2
            (by rw [hbv2]; exact hb0)
          rw [hbv2, hga'] at hga2
          injection hga2 with hocc2
          refine ⟨w2, ?_, ?_, ?_⟩
          · show (w2, i) ∈ occs
            rw [hocc2]
            exact hm
          · exact hd3'.symm
          · exact litv_ne_none_of_bvar _ (Lit.mk b false) _ hbv2 hlb
        · exfalso
          apply hd5'
          rw [hlitv _ hbv1, hlitv _ hbv2]
          exact hagree w1 w2 hd1' hd2' hd3' i hd4'
    exact processQueue_master fuel _ hc0c hoccS' hoccC' hqa hcov
      hdone hflag

theorem merge_event_agree (fuel : Nat) (S : BvState) (v1 v2 : TVar)
    (hwf : WFC1 S) (hwidth : WidthInv S) (hagree : AgreeB S)
    (hv1 : v1 < S.numVars) (hv2 : v2 < S.numVars)
    (hlen12 : (bitsOf S v1).length = (bitsOf S v2).length)
    (hdone : (mergeOp fuel S v1 v2).2 = true)
    (hflag : (mergeOp fuel S v1 v2).1.conflictFlag = false)
    (hdiseq : (mergeOp fuel S v1 v2).1.diseqs = S.diseqs) :
    AgreeB (mergeOp fuel S v1 v2).1 := by
  obtain ⟨hc0, hoccS, hoccC⟩ := hwf
  unfold mergeOp at hdone hflag hdiseq ⊢
  by_cases hre : rootOf S v1 = rootOf S v2
  · rw [if_pos hre] at hdone hflag hdiseq ⊢
    exact hagree
  · rw [if_neg hre] at hdone hflag hdiseq ⊢
    have hb' : ({ S with
        mergeLog := S.mergeLog ++ [(rootOf S v1, rootOf S v2)]
        trail := TrailEntry.unmergeTrail (rootOf S v1) (rootOf S v2)
          :: S.trail } : BvState).bits = S.bits := rfl
    have hn' : ({ S with
        mergeLog := S.mergeLog ++ [(rootOf S v1, rootOf S v2)]
        trail := TrailEntry.unmergeTrail (rootOf S v1) (rootOf S v2)
          :: S.trail } : BvState).numVars = S.numVars := rfl
    have hcA' : ({ S with
        mergeLog := S.mergeLog ++ [(rootOf S v1, rootOf S v2)]
        trail := TrailEntry.unmergeTrail (rootOf S v1) (rootOf S v2)
          :: S.trail } : BvState).coreAssign = S.coreAssign := rfl
    have hd' : ({ S with
        mergeLog := S.mergeLog ++ [(rootOf S v1, rootOf S v2)]
        trail := TrailEntry.unmergeTrail (rootOf S v1) (rootOf S v2)
          :: S.trail } : BvState).diseqs = S.diseqs := rfl
    have hoccS' : OccSound { S with
        mergeLog := S.mergeLog ++ [(rootOf S v1, rootOf S v2)]
        trail := TrailEntry.unmergeTrail (rootOf S v1) (rootOf S v2)
          :: S.trail } := hoccS
    have hoccC' : OccComplete { S with
        mergeLog := S.mergeLog ++ [(rootOf S v1, rootOf S v2)]
        trail := TrailEntry.unmergeTrail (rootOf S v1) (rootOf S v2)
          :: S.trail } := hoccC
    have hrootS' : ∀ x, rootOf { S with
        mergeLog := S.mergeLog ++ [(rootOf S v1, rootOf S v2)]
        trail := TrailEntry.unmergeTrail (rootOf S v1) (rootOf S v2)
          :: S.trail } x =
        if rootOf S x = rootOf S v2 then rootOf S v1
        else rootOf S x := by
      intro x
      show findOf (S.mergeLog ++ [(rootOf S v1, rootOf S v2)]) x = _
      rw [findOf_append, findOf_single]
      rfl
    generalize hSp : ({ S with
        mergeLog := S.mergeLog ++ [(rootOf S v1, rootOf S v2)]
        trail := TrailEntry.unmergeTrail (rootOf S v1) (rootOf S v2)
          :: S.trail } : BvState) = S'
      at hb' hn' hcA' hd' hoccS' hoccC' hrootS' hdone hflag hdiseq ⊢
    rcases hz : merge_zero_one_bits S' (rootOf S v1) (rootOf S v2) with
      ⟨S1, ok⟩
    cases ok with
    | false =>
      rw [merge_eh_fail fuel S' _ _ v1 v2 S1 hz] at hdiseq
      obtain ⟨d, hd1⟩ := mzob_fail_diseqs S' _ _ S1 hz
      have hdiseq' : S1.diseqs = S.diseqs := hdiseq
      rw [hd1, hd'] at hdiseq'
      have hlen := congrArg List.length hdiseq'
      rw [List.length_append] at hlen
      simp at hlen
    | true =>
      rcases hl : mergeLoop v1 v2 (bitsOf S1 v1).length fuel
        { S1 with propQueue := [] } with ⟨S3, lsnd⟩
      rw [merge_eh_loop_eq fuel S' _ _ v1 v2 S1 hz S3 lsnd hl]
        at hdone hflag hdiseq ⊢
      cases lsnd with
      | false =>
        rw [if_neg (by decide)] at hdone
        exact Bool.noConfusion hdone
      | true =>
        rw [if_pos rfl] at hdone hflag hdiseq ⊢
        by_cases hc3 : S3.conflictFlag = true
        · rw [if_pos hc3] at hflag
          have hx : S3.conflictFlag = false := hflag
          rw [hc3] at hx
          exact Bool.noConfusion hx
        · have hc3' : S3.conflictFlag = false := by
            cases hcc : S3.conflictFlag
            · rfl
            · exact absurd hcc hc3
          rw [if_neg hc3] at hdone hflag hdiseq ⊢
          have hskelZ := skel_merge_zero_one_bits S'
            (rootOf S v1) (rootOf S v2)
          rw [hz] at hskelZ
          have hskelZ' : SameSkel S' S1 := hskelZ
          have hcoreZ := (mzob_extra S' (rootOf S v1) (rootOf S v2)).1
          rw [hz] at hcoreZ
          have hcoreS1 : S1.coreAssign = S.coreAssign := by
            have hx : S1.coreAssign = S'.coreAssign := hcoreZ
            rw [hx, hcA']
          have hbitsS1 : ∀ w, bitsOf S1 w = bitsOf S w := by
            intro w
            have h1 : bitsOf S1 w = bitsOf S' w :=
              bitsOf_congr S' S1 hskelZ'.2.1 w
            rw [h1]
            show (S'.bits).getD w [] = (S.bits).getD w []
            rw [hb']
          have hrootS1 : ∀ w, rootOf S1 w = rootOf S' w :=
            fun w => rootOf_congr S' S1 hskelZ'.2.2.2.2.2.1 w
          have hnvS1 : S1.numVars = S.numVars := by
            rw [hskelZ'.1, hn']
          have hoccSq1 : OccSound { S1 with propQueue := [] } :=
            occSound_of_skel S' S1 hskelZ' hoccS'
          have hoccCq1 : OccComplete { S1 with propQueue := [] } :=
            occComplete_of_skel S' S1 hskelZ' hoccC'
          have hc0q1 : ({ S1 with propQueue := [] } :
              BvState).coreAssign 0 = some true := by
            show S1.coreAssign 0 = some true
            rw [hcoreS1]
            exact hc0
          obtain ⟨lA, ⟨tailL, lq1, lq2⟩, lD, lE, ldq⟩ :=
            mergeLoop_ok v1 v2 (bitsOf S1 v1).length fuel
              { S1 with propQueue := [] } hc0q1 hoccSq1 hoccCq1
              (by rw [hl]) (by rw [hl]; exact hc3')
          rw [hl] at lA lq1 lq2 lD lE ldq
          have lA' : ExtAssign S.coreAssign S3.coreAssign := by
            have hx : ExtAssign S1.coreAssign S3.coreAssign := lA
            rw [hcoreS1] at hx
            exact hx
          have hqS3 : S3.propQueue = tailL := by
            have hx : S3.propQueue = [] ++ tailL := lq1
            rw [List.nil_append] at hx
            exact hx
          have lq2' : ∀ e ∈ tailL,
              litv S3 ((bitsOf S e.1).getD e.2 trueLit) ≠ none := by
            intro e he
            have hx : litv S3 ((bitsOf S1 e.1).getD e.2 trueLit) ≠
              none := lq2 e he
            rw [hbitsS1 e.1] at hx
            exact hx
          have lD' : ∀ w i, w < S.numVars → i < (bitsOf S w).length →
              litv S3 ((bitsOf S w).getD i trueLit) ≠
                litv S ((bitsOf S w).getD i trueLit) →
              ((w, i) ∈ S3.propQueue ∧
                litv S3 ((bitsOf S w).getD i trueLit) ≠ none) := by
            intro w i h1 h2 hch
            have h1' : w < ({ S1 with propQueue := [] } :
                BvState).numVars := by
              show w < S1.numVars
              rw [hnvS1]
              exact h1
            have h2' : i < (bitsOf ({ S1 with propQueue := [] } :
                BvState) w).length := by
              show i < (bitsOf S1 w).length
              rw [hbitsS1 w]
              exact h2
            have hch' : litv S3
                ((bitsOf ({ S1 with propQueue := [] } : BvState)
                  w).getD i trueLit) ≠
                litv ({ S1 with propQueue := [] } : BvState)
                  ((bitsOf ({ S1 with propQueue := [] } : BvState)
                    w).getD i trueLit) := by
              show litv S3 ((bitsOf S1 w).getD i trueLit) ≠
                litv S1 ((bitsOf S1 w).getD i trueLit)
              rw [hbitsS1 w, litv_congr S S1 hcoreS1]
              exact hch
            obtain ⟨hm, hn⟩ := lD w i h1' h2' hch'
            refine ⟨hm, ?_⟩
            have hn2 : litv S3 ((bitsOf S1 w).getD i trueLit) ≠ none :=
              hn
            rw [hbitsS1 w] at hn2
            exact hn2
          have lE' : ∀ idx, idx < (bitsOf S v1).length →
              litv S3 ((bitsOf S v1).getD idx trueLit) =
                litv S3 ((bitsOf S v2).getD idx trueLit) := by
            intro idx hidx
            have hidx' : idx < (bitsOf S1 v1).length := by
              rw [hbitsS1 v1]
              exact hidx
            have hx : litv S3 ((bitsOf S1 v1).getD idx trueLit) =
                litv S3 ((bitsOf S1 v2).getD idx trueLit) := lE idx hidx'
            rw [hbitsS1 v1, hbitsS1 v2] at hx
            exact hx
          have hskelL := skel_mergeLoop v1 v2 (bitsOf S1 v1).length fuel
            { S1 with propQueue := [] }
          rw [hl] at hskelL
          have hskelL' : SameSkel S1 S3 := sameSkel_trans
            (⟨rfl, rfl, rfl, rfl, rfl, rfl, rfl, rfl, rfl⟩ :
              SameSkel S1 { S1 with propQueue := [] }) hskelL
          have hskelS'3 : SameSkel S' S3 := sameSkel_trans hskelZ' hskelL'
          have hbitsS3 : ∀ w, bitsOf S3 w = bitsOf S w := by
            intro w
            have h1 : bitsOf S3 w = bitsOf S1 w :=
              bitsOf_congr S1 S3 hskelL'.2.1 w
            rw [h1, hbitsS1 w]
          have hrootS3 : ∀ w, rootOf S3 w = rootOf S' w := by
            intro w
            have h1 : rootOf S3 w = rootOf S1 w :=
              rootOf_congr S1 S3 hskelL'.2.2.2.2.2.1 w
            rw [h1, hrootS1 w]
          have hnvS3 : S3.numVars = S.numVars := by
            rw [hskelL'.1, hnvS1]
          have hc0S3 : S3.coreAssign 0 = some true := lA' 0 true hc0
          have hoccS3 : OccSound S3 :=
            occSound_of_skel S' S3 hskelS'3 hoccS'
          have hoccC3 : OccComplete S3 :=
            occComplete_of_skel S' S3 hskelS'3 hoccC'
          have hqa3 : QA S3 := by
            intro e he
            rw [hqS3] at he
            rw [hbitsS3 e.1]
            exact lq2' e he
          have hcov3 : Cov S3 := by
            intro w1 w2 i hd
            obtain ⟨hd1, hd2, hd3, hd4, hd5⟩ := hd
            rw [hnvS3] at hd1 hd2
            rw [hrootS3 w1, hrootS3 w2] at hd3
            rw [hbitsS3 w1] at hd4
            rw [hbitsS3 w1, hbitsS3 w2] at hd5
            by_cases hch1 : litv S3 ((bitsOf S w1).getD i trueLit) =
                litv S ((bitsOf S w1).getD i trueLit)
            · by_cases hch2 : litv S3 ((bitsOf S w2).getD i trueLit) =
                  litv S ((bitsOf S w2).getD i trueLit)
              · by_cases hold : rootOf S w1 = rootOf S w2
                · rw [hch1, hch2] at hd5
                  exact absurd (hagree w1 w2 hd1 hd2 hold i hd4) hd5
                · rw [hrootS' w1, hrootS' w2] at hd3
                  by_cases cx : rootOf S w1 = rootOf S v2
                  · by_cases cy : rootOf S w2 = rootOf S v2
                    · exact absurd (cx.trans cy.symm) hold
                    · rw [if_pos cx, if_neg cy] at hd3
                      have hlw1 : (bitsOf S w1).length =
                          (bitsOf S v2).length := hwidth w1 hd1 v2 hv2 cx
                      have hlw2 : (bitsOf S w2).length =
                          (bitsOf S v1).length :=
                        hwidth w2 hd2 v1 hv1 hd3.symm
                      have hi2' : i < (bitsOf S v2).length := by
                        rw [← hlw1]
                        exact hd4
                      have hi1 : i < (bitsOf S v1).length := by
                        rw [hlen12]
                        exact hi2'
                      by_cases hchv1 : litv S3
                          ((bitsOf S v1).getD i trueLit) =
                          litv S ((bitsOf S v1).getD i trueLit)
                      · by_cases hchv2 : litv S3
                            ((bitsOf S v2).getD i trueLit) =
                            litv S ((bitsOf S v2).getD i trueLit)
                        · exfalso
                          apply hd5
                          calc litv S3 ((bitsOf S w1).getD i trueLit)
                              = litv S ((bitsOf S w1).getD i trueLit) :=
                                hch1
                            _ = litv S ((bitsOf S v2).getD i trueLit) :=
                                hagree w1 v2 hd1 hv2 cx i hd4
                            _ = litv S3
                                ((bitsOf S v2).getD i trueLit) :=
                                hchv2.symm
                            _ = litv S3
                                ((bitsOf S v1).getD i trueLit) :=
                                (lE' i hi1).symm
                            _ = litv S ((bitsOf S v1).getD i trueLit) :=
                                hchv1
                            _ = litv S ((bitsOf S w2).getD i trueLit) :=
                                hagree v1 w2 hv1 hd2 hd3 i hi1
                            _ = litv S3
                                ((bitsOf S w2).getD i trueLit) :=
                                hch2.symm
                        · obtain ⟨hm, hn⟩ := lD' v2 i hv2 hi2' hchv2
                          refine ⟨v2, hm, ?_, ?_⟩
                          · rw [hrootS3 v2, hrootS3 w1, hrootS' v2,
                              hrootS' w1, if_pos rfl, if_pos cx]
                          · rw [hbitsS3 v2]
                            exact hn
                      · obtain ⟨hm, hn⟩ := lD' v1 i hv1 hi1 hchv1
                        refine ⟨v1, hm, ?_, ?_⟩
                        · rw [hrootS3 v1, hrootS3 w1, hrootS' v1,
                            hrootS' w1, if_neg hre, if_pos cx]
                        · rw [hbitsS3 v1]
                          exact hn
                  · by_cases cy : rootOf S w2 = rootOf S v2
                    · rw [if_neg cx, if_pos cy] at hd3
                      have hlw1 : (bitsOf S w1).length =
                          (bitsOf S v1).length :=
                        hwidth w1 hd1 v1 hv1 hd3
                      have hi1 : i < (bitsOf S v1).length := by
                        rw [← hlw1]
                        exact hd4
                      have hi2' : i < (bitsOf S v2).length := by
                        rw [← hlen12]
                        exact hi1
                      by_cases hchv1 : litv S3
                          ((bitsOf S v1).getD i trueLit) =
                          litv S ((bitsOf S v1).getD i trueLit)
                      · by_cases hchv2 : litv S3
                            ((bitsOf S v2).getD i trueLit) =
                            litv S ((bitsOf S v2).getD i trueLit)
                        · exfalso
                          apply hd5
                          calc litv S3 ((bitsOf S w1).getD i trueLit)
                              = litv S ((bitsOf S w1).getD i trueLit) :=
                                hch1
                            _ = litv S ((bitsOf S v1).getD i trueLit) :=
                                hagree w1 v1 hd1 hv1 hd3 i hd4
                            _ = litv S3
                                ((bitsOf S v1).getD i trueLit) :=
                                hchv1.symm
                            _ = litv S3
                                ((bitsOf S v2).getD i trueLit) :=
                                lE' i hi1
                            _ = litv S ((bitsOf S v2).getD i trueLit) :=
                                hchv2
                            _ = litv S ((bitsOf S w2).getD i trueLit) :=
                                hagree v2 w2 hv2 hd2 cy.symm i hi2'
                            _ = litv S3
                                ((bitsOf S w2).getD i trueLit) :=
                                hch2.symm
                        · obtain ⟨hm, hn⟩ := lD' v2 i hv2 hi2' hchv2
                          refine ⟨v2, hm, ?_, ?_⟩
                          · rw [hrootS3 v2, hrootS3 w1, hrootS' v2,
                              hrootS' w1, if_pos rfl,
                              if_neg (by rw [hd3]; exact hre)]
                            exact hd3.symm
                          · rw [hbitsS3 v2]
                            exact hn
                      · obtain ⟨hm, hn⟩ := lD' v1 i hv1 hi1 hchv1
                        refine ⟨v1, hm, ?_, ?_⟩
                        · rw [hrootS3 v1, hrootS3 w1, hrootS' v1,
                            hrootS' w1, if_neg hre,
                            if_neg (by rw [hd3]; exact hre)]
                          exact hd3.symm
                        · rw [hbitsS3 v1]
                          exact hn
                    · rw [if_neg cx, if_neg cy] at hd3
                      exact absurd hd3 hold
              · have hi2 : i < (bitsOf S w2).length := by
                  by_contra hge
                  apply hch2
                  have hdef : (bitsOf S w2).getD i trueLit = trueLit := by
                    rw [List.getD_eq_getElem?_getD,
                      List.getElem?_eq_none (Nat.le_of_not_lt hge)]
                    rfl
                  rw [hdef, litv_trueLit S3 hc0S3, litv_trueLit S hc0]
                obtain ⟨hm, hn⟩ := lD' w2 i hd2 hi2 hch2
                refine ⟨w2, hm, ?_, ?_⟩
                · rw [hrootS3 w2, hrootS3 w1]
                  exact hd3.symm
                · rw [hbitsS3 w2]
                  exact hn
            · obtain ⟨hm, hn⟩ := lD' w1 i hd1 hd4 hch1
              refine ⟨w1, hm, rfl, ?_⟩
              rw [hbitsS3 w1]
              exact hn
          exact processQueue_master fuel S3 hc0S3 hoccS3 hoccC3 hqa3
            hcov3 hdone hflag

/-- C1.  Propagation soundness: when a plugin callback — `assign_eh`
after the core assigns a bool var, or `merge_eh` after the core unions
two classes — returns with the core not inconsistent (the conflict
flag is clear and no disequality axiom was emitted), the core
assignments of `m_bits[v1][i]` and `m_bits[v2][i]` agree at every bit
index `i` for every pair `v1, v2` in the same equivalence class; in
particular, if `v1` and `v2` are merged and bit `i` of `v1` is
assigned `b`, bit `i` of `v2` is assigned `b` before control returns,
unless a conflict is reported first. -/
theorem propagation_soundness (fuel : Nat) (S : BvState)
    (ev : CoreEvent) (hwf : WFC1 S) (hwidth : WidthInv S)
    (hagree : AgreeB S) (hval : validEvent S ev)
    (hdone : (runEvent fuel S ev).2 = true)
    (hflag : (runEvent fuel S ev).1.conflictFlag = false)
    (hdiseq : (runEvent fuel S ev).1.diseqs = S.diseqs) :
    AgreeB (runEvent fuel S ev).1 := by
  cases ev with
  | assignEvent b val =>
    exact assign_event_agree fuel S b val hwf hagree hval hdone hflag
  | mergeEvent v1 v2 =>
    exact merge_event_agree fuel S v1 v2 hwf hwidth hagree hval.1
      hval.2.1 hval.2.2 hdone hflag hdiseq

/-- The empty state with the reserved true bool var assigned. -/
def c1State : BvState :=
  { initState with
    coreAssign := fun b => if b = 0 then some true else none }

theorem c1wf : WFC1 c1State :=
  ⟨rfl, fun _ _ h => Option.noConfusion h,
    fun w hw => absurd hw (Nat.not_lt_zero w)⟩

theorem c1width : WidthInv c1State :=
  fun z1 h1 => absurd h1 (Nat.not_lt_zero z1)

theorem c1agree : AgreeB c1State :=
  fun z1 _ h1 => absurd h1 (Nat.not_lt_zero z1)

theorem propagation_soundness_witness :
    WFC1 c1State ∧ WidthInv c1State ∧ AgreeB c1State ∧
      validEvent c1State (CoreEvent.assignEvent 5 true) ∧
      (runEvent 1 c1State (CoreEvent.assignEvent 5 true)).2 = true ∧
      (runEvent 1 c1State
        (CoreEvent.assignEvent 5 true)).1.conflictFlag = false ∧
      (runEvent 1 c1State (CoreEvent.assignEvent 5 true)).1.diseqs =
        c1State.diseqs ∧
      AgreeB (runEvent 1 c1State (CoreEvent.assignEvent 5 true)).1 :=
  ⟨c1wf, c1width, c1agree, rfl, rfl, rfl, rfl,
    propagation_soundness 1 c1State (CoreEvent.assignEvent 5 true)
      c1wf c1width c1agree rfl rfl rfl rfl⟩

/-- A one-bit array for exercising `expand_diseq`. -/
def c3bits1 : List Lit := [⟨1, false⟩]

/-- A second one-bit array, not complementary to the first. -/
def c3bits2 : List Lit := [⟨2, false⟩]

theorem expand_diseq_spec_witness :
    c3bits1.length = c3bits2.length ∧
    (((∃ i < c3bits1.length,
        c3bits1.getD i trueLit = lneg (c3bits2.getD i trueLit)) →
      expand_diseq 0 1 c3bits1 c3bits2 = none) ∧
    ((∀ i < c3bits1.length,
        c3bits1.getD i trueLit ≠ lneg (c3bits2.getD i trueLit)) →
      ∃ c, expand_diseq 0 1 c3bits1 c3bits2 = some c ∧
        c.length = c3bits1.length + 1 ∧
        c.getD 0 (ClauseLit.eq 0 1) = ClauseLit.eq 0 1 ∧
        ∀ i < c3bits1.length,
          c.getD (i + 1) (ClauseLit.eq 0 1) =
            ClauseLit.xorBits (c3bits1.getD i trueLit)
              (c3bits2.getD i trueLit))) :=
  ⟨rfl, expand_diseq_spec 0 1 c3bits1 c3bits2 rfl⟩

/-- An oversized term for exercising the approximation guard. -/
def c8t : ApproxTerm := ⟨[], some 16⟩

/-- A context state without the approximation mark. -/
def c8S : ApproxState := ⟨false, [], []⟩

theorem approximate_refusal_witness :
    (8 : Nat) ≠ intMax ∧
    (c8t.args ++ [c8t.own]).any (oversized 8) = true ∧
    ((internalize_term (fun _ => true) 8 c8t c8S).1 = false ∧
      (internalize_atom (fun _ => true) 8 c8t c8S).1 = false ∧
      (internalize_term (fun _ => true) 8 c8t
        c8S).2.approximatesLargeBvs = true ∧
      final_check_eh (internalize_term (fun _ => true) 8 c8t c8S).2 =
        FinalCheckStatus.giveup ∧
      (∀ S' : ApproxState, S'.approximatesLargeBvs = true →
        final_check_eh S' = FinalCheckStatus.giveup) ∧
      (∀ S' : ApproxState, S'.approximatesLargeBvs = false →
        final_check_eh S' = FinalCheckStatus.done)) :=
  ⟨by decide, by decide,
    approximate_refusal (fun _ => true) 8 c8t c8S (by decide)
      (by decide)⟩

theorem approximate_scope_local_witness :
    c8S.approximatesLargeBvs = false ∧
    ((runApproxOp (fun _ => true) 8
        (ApproxOp.nest [ApproxOp.internT c8t])
        c8S).approximatesLargeBvs = false ∧
      final_check_eh (runApproxOp (fun _ => true) 8
        (ApproxOp.nest [ApproxOp.internT c8t]) c8S) =
        FinalCheckStatus.done) :=
  ⟨rfl, approximate_scope_local (fun _ => true) 8
    [ApproxOp.internT c8t] c8S rfl⟩

theorem add_bit_diseq_width_guard_witness :
    0 < ceC2State.bits.length ∧ (⟨5, false⟩ : Lit).bvar ≠ 0 ∧
    getAtom ceC2State 5 = some [(1, 0)] ∧
    (∃ news, (add_bit ceC2State 0 ⟨5, false⟩).diseqs =
        ceC2State.diseqs ++ news ∧
      (∀ v2, (0, v2, (bitsOf ceC2State 0).length) ∈ news ↔
        ((v2, (bitsOf ceC2State 0).length) ∈
            [((1 : TVar), (0 : Nat))] ∧
          (bitsOf (add_bit ceC2State 0 ⟨5, false⟩) v2).getD
            (bitsOf ceC2State 0).length trueLit = lneg ⟨5, false⟩ ∧
          sizeAt ceC2State v2 = sizeAt ceC2State 0)) ∧
      (∀ e ∈ news, e.1 = 0 ∧ e.2.2 = (bitsOf ceC2State 0).length ∧
        sizeAt ceC2State e.2.1 = sizeAt ceC2State 0)) :=
  ⟨by decide, by decide, rfl,
    add_bit_diseq_width_guard ceC2State 0 ⟨5, false⟩ [(1, 0)]
      (by decide) (by decide) rfl⟩

theorem add_bit_diseq_amended_witness :
    0 < ceC2State.bits.length ∧ (⟨5, false⟩ : Lit).bvar ≠ 0 ∧
    getAtom ceC2State 5 = some [(1, 0)] ∧
    ((∀ v2 idx2, (v2, idx2) ∈ [((1 : TVar), (0 : Nat))] →
        idx2 = (bitsOf ceC2State 0).length →
        (bitsOf (add_bit ceC2State 0 ⟨5, false⟩) v2).getD idx2
          trueLit = lneg ⟨5, false⟩ →
        sizeAt ceC2State v2 = sizeAt ceC2State 0 →
        (0, v2, (bitsOf ceC2State 0).length) ∈
          (add_bit ceC2State 0 ⟨5, false⟩).diseqs) ∧
      getAtom (add_bit ceC2State 0 ⟨5, false⟩) 5 =
        some ((0, (bitsOf ceC2State 0).length) :: [(1, 0)])) :=
  ⟨by decide, by decide, rfl,
    add_bit_diseq_amended ceC2State 0 ⟨5, false⟩ [(1, 0)] (by decide)
      (by decide) rfl⟩

theorem fixed_var_eh_spec_witness :
    getFixedValue ceC5State.coreAssign (bitsOf ceC5State 1) = some 1 ∧
    ((∀ e, ceC5State.fixedVarTable.find?
        (fun e => e.1 = (1, sizeAt ceC5State 1)) = some e →
      fixedEntryValid ceC5State e.2 1 (sizeAt ceC5State 1) →
      rootOf ceC5State 1 ≠ rootOf ceC5State e.2 →
      (fixed_var_eh ceC5State 1).eqProps =
        ceC5State.eqProps ++
          [(1, e.2, fixed_eq_justification ceC5State 1 e.2)] ∧
      (fixed_var_eh ceC5State 1).fixedVarTable =
        ceC5State.fixedVarTable ∧
      (∀ l ∈ bitsOf ceC5State 1 ++ bitsOf ceC5State e.2, l.bvar ≠ 0 →
        (if litVal ceC5State.coreAssign l = some true then l
         else lneg l) ∈ fixed_eq_justification ceC5State 1 e.2)) ∧
    (∀ e, ceC5State.fixedVarTable.find?
        (fun e => e.1 = (1, sizeAt ceC5State 1)) = some e →
      ¬ fixedEntryValid ceC5State e.2 1 (sizeAt ceC5State 1) →
      (fixed_var_eh ceC5State 1).fixedVarTable =
        ((1, sizeAt ceC5State 1), 1) ::
          ceC5State.fixedVarTable.eraseP
            (fun e => e.1 = (1, sizeAt ceC5State 1)) ∧
      (fixed_var_eh ceC5State 1).eqProps = ceC5State.eqProps) ∧
    (ceC5State.fixedVarTable.find?
        (fun e => e.1 = (1, sizeAt ceC5State 1)) = none →
      (fixed_var_eh ceC5State 1).fixedVarTable =
        ((1, sizeAt ceC5State 1), 1) :: ceC5State.fixedVarTable ∧
      (fixed_var_eh ceC5State 1).eqProps = ceC5State.eqProps)) :=
  ⟨rfl, fixed_var_eh_spec ceC5State 1 1 rfl⟩

theorem c4ops_ok : ∀ op ∈ [TOp.mkVarOp 4 true, TOp.addBitOp 0 ⟨1, false⟩],
    C4OpOk initState.numVars op := by
  intro op hop
  rcases List.mem_cons.1 hop with h | hop2
  · rw [h]
    exact trivial
  · rcases List.mem_cons.1 hop2 with h | hop3
    · rw [h]
      exact Nat.le_refl 0
    · exact absurd hop3 (List.not_mem_nil op)

theorem push_pop_round_trip_witness :
    initState.bits.length = initState.numVars ∧
    (∀ op ∈ [TOp.mkVarOp 4 true, TOp.addBitOp 0 ⟨1, false⟩],
      C4OpOk initState.numVars op) ∧
    ((pop_scope_eh (runTOps 1
        [TOp.mkVarOp 4 true, TOp.addBitOp 0 ⟨1, false⟩]
        (push_scope_eh initState))).atoms = initState.atoms ∧
      (pop_scope_eh (runTOps 1
        [TOp.mkVarOp 4 true, TOp.addBitOp 0 ⟨1, false⟩]
        (push_scope_eh initState))).bits = initState.bits ∧
      (pop_scope_eh (runTOps 1
        [TOp.mkVarOp 4 true, TOp.addBitOp 0 ⟨1, false⟩]
        (push_scope_eh initState))).mergeLog = initState.mergeLog ∧
      (pop_scope_eh (runTOps 1
        [TOp.mkVarOp 4 true, TOp.addBitOp 0 ⟨1, false⟩]
        (push_scope_eh initState))).numVars = initState.numVars ∧
      (pop_scope_eh (runTOps 1
        [TOp.mkVarOp 4 true, TOp.addBitOp 0 ⟨1, false⟩]
        (push_scope_eh initState))).trail = initState.trail ∧
      (pop_scope_eh (runTOps 1
        [TOp.mkVarOp 4 true, TOp.addBitOp 0 ⟨1, false⟩]
        (push_scope_eh initState))).scopeTrailLens =
        initState.scopeTrailLens ∧
      (pop_scope_eh (runTOps 1
        [TOp.mkVarOp 4 true, TOp.addBitOp 0 ⟨1, false⟩]
        (push_scope_eh initState))).scopeNumVars =
        initState.scopeNumVars) :=
  ⟨rfl, c4ops_ok,
    push_pop_round_trip 1 initState
      [TOp.mkVarOp 4 true, TOp.addBitOp 0 ⟨1, false⟩] rfl c4ops_ok⟩

end TheoryBv
